import Mathlib

/-! Produce request of the sarama Kafka client: construction, topic rewrite, wire codec.

A shallow embedding of `produce_request.go` and `rule.go`.

* Go maps are association lists; `range` visits the entries in list order, so a statement
  quantified over all lists covers every iteration order the Go runtime may pick.
* `*MessageSet` and `*RecordBatch` are addresses into an explicit heap, because `changeTopic`
  writes through these pointers and two `Records` values may share one pointee.
* A Go call either returns (with a nil or a non-nil error) or panics; `Result` keeps the three
  outcomes apart.
* Slices are values (lists); `*MessageBlock`, `*Message` and `*Record` are never nil and never
  written through in the source, so blocks, messages and records are values too.
* The packet encoder / decoder, the record containers' own codec, the metrics registry and the
  Kafka version constants are not part of the two source files; they are modelled from the
  specification or taken as parameters, as stated at each definition.
-/

set_option autoImplicit false

namespace Sarama

/-! ## Outcomes -/

/-- Outcome of a Go call: `ok` is a normal return (error value nil), `error` a returned non-nil
error, `panic` a run-time panic such as a nil pointer dereference. -/
inductive Result (α : Type) where
  | ok (a : α)
  | error (msg : String)
  | panic
deriving DecidableEq, Repr

namespace Result

/-- Sequencing: the first non-`ok` outcome is the outcome of the whole. -/
def bind {α β : Type} (x : Result α) (f : α → Result β) : Result β :=
  match x with
  | ok a => f a
  | error e => error e
  | panic => panic

instance : Monad Result where
  pure := Result.ok
  bind := Result.bind

/-- The call returned normally. -/
def isOk {α : Type} : Result α → Bool
  | ok _ => true
  | _ => false

/-- The call returned a non-nil error. -/
def isError {α : Type} : Result α → Bool
  | error _ => true
  | _ => false

end Result

/-! ## Data model -/

/-- Contents of a Go `[]byte` or `string`: a sequence of byte values. -/
abbrev Bytes := List Nat

/-- Bytes of an ASCII string literal, for readable examples. -/
def ascii (s : String) : Bytes := s.toList.map Char.toNat

/-- Modelled from the spec: a message inside the nested compressed set of a wrapper message
(the declaration of `Message` is not in src; src reads only whether `Msg.Set` is nil and
`len(Msg.Set.Messages)`). -/
structure NestedMessage where
  Key : Bytes
  Value : Bytes
deriving DecidableEq, Repr

/-- Modelled from the spec: `Message`, with the fields src reads: `Key`, `Value`, the optional
nested set `Set` (nil, or the messages of the nested set) and `compressedSize`. -/
structure Message where
  Key : Bytes
  Value : Bytes
  Set : Option (List NestedMessage)
  compressedSize : Int
deriving DecidableEq, Repr

/-- Modelled from the spec: `MessageBlock`, a message with its offset. -/
structure MessageBlock where
  Offset : Int
  Msg : Message
deriving DecidableEq, Repr

/-- Modelled from the spec: `MessageSet`, the legacy container: an ordered sequence of blocks. -/
structure MessageSet where
  Messages : List MessageBlock
deriving DecidableEq, Repr

/-- Modelled from the spec: `Record`, an entry of a record batch. -/
structure Record where
  Key : Bytes
  Value : Bytes
  Headers : List (Bytes × Bytes)
deriving DecidableEq, Repr

/-- Modelled from the spec: `RecordBatch`, with the fields src reads: `Records`,
`compressedRecords` (nil unless compression was applied) and `recordsLen`. -/
structure RecordBatch where
  Records : List Record
  compressedRecords : Option Bytes
  recordsLen : Int
deriving DecidableEq, Repr

/-- Modelled from the spec: the discriminant of `Records` (`recordsType`); the zero value of a
`Records` struct has `unknownRecords`. -/
inductive RecordsType where
  | unknownRecords
  | legacyRecords
  | defaultRecords
deriving DecidableEq, Repr

/-- Modelled from the spec: `Records`, the per-partition container. `MsgSet` and `RecordBatch`
are Go pointers: `none` is nil, `some a` is the address `a` in the heap. -/
structure Records where
  recordsType : RecordsType
  MsgSet : Option Nat
  RecordBatch : Option Nat
deriving DecidableEq, Repr

/-- The zero `Records` value, which Go yields when a map has no entry for the key. -/
def Records.zero : Records := ⟨RecordsType.unknownRecords, none, none⟩

/-- Modelled from the spec: `newLegacyRecords(msgSet)`. -/
def newLegacyRecords (msgSet : Option Nat) : Records :=
  ⟨RecordsType.legacyRecords, msgSet, none⟩

/-- Modelled from the spec: `newDefaultRecords(batch)`. -/
def newDefaultRecords (batch : Option Nat) : Records :=
  ⟨RecordsType.defaultRecords, none, batch⟩

/-- The objects reachable through `*MessageSet` and `*RecordBatch` pointers; an address is an
index into the corresponding list. -/
structure Heap where
  msgSets : List MessageSet
  batches : List RecordBatch
deriving DecidableEq, Repr

/-- Dereference of a `*MessageSet`: nil (or an address outside the heap) panics. -/
def Heap.msgSet (h : Heap) : Option Nat → Result MessageSet
  | none => Result.panic
  | some a => match h.msgSets[a]? with
    | some s => Result.ok s
    | none => Result.panic

/-- Dereference of a `*RecordBatch`: nil (or an address outside the heap) panics. -/
def Heap.batch (h : Heap) : Option Nat → Result RecordBatch
  | none => Result.panic
  | some a => match h.batches[a]? with
    | some b => Result.ok b
    | none => Result.panic

/-- Assignment `ptr.Messages = msgs` through a `*MessageSet`. -/
def Heap.setMessages (h : Heap) (ptr : Option Nat) (msgs : List MessageBlock) : Result Heap :=
  match ptr with
  | none => Result.panic
  | some a =>
    if a < h.msgSets.length then Result.ok { h with msgSets := h.msgSets.set a ⟨msgs⟩ }
    else Result.panic

/-- Assignment `ptr.Records = recs` through a `*RecordBatch`. -/
def Heap.setRecords (h : Heap) (ptr : Option Nat) (recs : List Record) : Result Heap :=
  match ptr with
  | none => Result.panic
  | some a => match h.batches[a]? with
    | some b => Result.ok { h with batches := h.batches.set a { b with Records := recs } }
    | none => Result.panic

/-! ## Go maps as association lists -/

/-- A Go map: its entries, in the order `range` visits them. -/
abbrev GoMap (κ ν : Type) := List (κ × ν)

namespace GoMap

variable {κ ν : Type} [DecidableEq κ]

/-- Lookup `m[k]` with the comma-ok form: `none` when the key is absent. -/
def get? (m : GoMap κ ν) (k : κ) : Option ν :=
  match m with
  | [] => none
  | (k', v) :: rest => if k' = k then some v else get? rest k

/-- Assignment `m[k] = v`: replaces the value of an existing key, else adds an entry. -/
def set (m : GoMap κ ν) (k : κ) (v : ν) : GoMap κ ν :=
  match m with
  | [] => [(k, v)]
  | (k', v') :: rest => if k' = k then (k, v) :: rest else (k', v') :: set rest k v

/-- Removal `delete(m, k)`. -/
def delete (m : GoMap κ ν) (k : κ) : GoMap κ ν :=
  m.filter (fun e => decide (e.1 ≠ k))

/-- The keys of the map, in iteration order. -/
def keys (m : GoMap κ ν) : List κ := m.map Prod.fst

end GoMap

/-- The request: `ProduceRequest`. `records` is `none` for a nil map. -/
structure ProduceRequest where
  TransactionalID : Option Bytes
  RequiredAcks : Int
  Timeout : Int
  Version : Int
  records : Option (GoMap Bytes (GoMap Int Records))
deriving DecidableEq, Repr

/-- A program state: the heap and the request that lives in it. -/
abbrev State := Heap × ProduceRequest

namespace ProduceRequest

/-- The expression `p.records[topic]` as a map value: a nil outer map or an absent key yields the
nil inner map, which reads as an empty map. -/
def partitionsOf (p : ProduceRequest) (topic : Bytes) : GoMap Int Records :=
  match p.records with
  | none => []
  | some m => (m.get? topic).getD []

/-- The expression `_, ok := p.records[topic]`. -/
def hasTopic (p : ProduceRequest) (topic : Bytes) : Bool :=
  match p.records with
  | none => false
  | some m => (m.get? topic).isSome

/-- The expression `p.records[topic][partition]` with the comma-ok form. -/
def at? (p : ProduceRequest) (topic : Bytes) (partition : Int) : Option Records :=
  (p.partitionsOf topic).get? partition

/-- The expression `p.records[topic][partition]` as a value: the zero `Records` when absent. -/
def atD (p : ProduceRequest) (topic : Bytes) (partition : Int) : Records :=
  (p.at? topic partition).getD Records.zero

/-- The statement `p.records[topic] = make(map[int32]Records)`; assignment into a nil outer map
panics. -/
def setTopic (p : ProduceRequest) (topic : Bytes) (v : GoMap Int Records) :
    Result ProduceRequest :=
  match p.records with
  | none => Result.panic
  | some m => Result.ok { p with records := some (m.set topic v) }

/-- The statement `p.records[topic][partition] = recs`: the inner map is a reference, so the
entry appears in the map stored under `topic`; assignment into a nil inner map panics. -/
def setAt (p : ProduceRequest) (topic : Bytes) (partition : Int) (recs : Records) :
    Result ProduceRequest :=
  match p.records with
  | none => Result.panic
  | some m => match m.get? topic with
    | none => Result.panic
    | some inner => Result.ok { p with records := some (m.set topic (inner.set partition recs)) }

/-- The statement `delete(p.records[topic], partition)`; deleting from a nil map does nothing. -/
def deleteAt (p : ProduceRequest) (topic : Bytes) (partition : Int) : ProduceRequest :=
  match p.records with
  | none => p
  | some m => match m.get? topic with
    | none => p
    | some inner => { p with records := some (m.set topic (inner.delete partition)) }

/-- The statement `delete(p.records, topic)`. -/
def deleteTopic (p : ProduceRequest) (topic : Bytes) : ProduceRequest :=
  match p.records with
  | none => p
  | some m => { p with records := some (m.delete topic) }

end ProduceRequest

/-! ## Attaching records -/

/-- The method `ensureRecords`: makes the outer map and the inner map of `topic` exist. -/
def ensureRecords (r : ProduceRequest) (topic : Bytes) (_partition : Int) : ProduceRequest :=
  let m : GoMap Bytes (GoMap Int Records) := r.records.getD []
  match m.get? topic with
  | some _ => { r with records := some m }
  | none => { r with records := some (m.set topic []) }

/-- Modelled from the spec: `new(MessageSet)`, a fresh empty set at a fresh address. -/
def Heap.newMessageSet (h : Heap) : Heap × Option Nat :=
  ({ h with msgSets := h.msgSets ++ [⟨[]⟩] }, some h.msgSets.length)

/-- Modelled from the spec: `set.addMessage(msg)`, which appends a new block wrapping `msg`. -/
def addMessage (h : Heap) (set : Option Nat) (msg : Message) : Result Heap := do
  let ms ← h.msgSet set
  h.setMessages set (ms.Messages ++ [⟨0, msg⟩])

/-- The method `AddMessage`. -/
def AddMessage (s : State) (topic : Bytes) (partition : Int) (msg : Message) : Result State := do
  let r := ensureRecords s.2 topic partition
  let set := (r.atD topic partition).MsgSet
  match set with
  | none =>
    let (h1, set1) := s.1.newMessageSet
    let r1 ← r.setAt topic partition (newLegacyRecords set1)
    let h2 ← addMessage h1 set1 msg
    pure (h2, r1)
  | some a =>
    let h2 ← addMessage s.1 (some a) msg
    pure (h2, r)

/-- The method `AddSet`; `set` is the caller's `*MessageSet`. -/
def AddSet (s : State) (topic : Bytes) (partition : Int) (set : Option Nat) : Result State := do
  let r := ensureRecords s.2 topic partition
  let r1 ← r.setAt topic partition (newLegacyRecords set)
  pure (s.1, r1)

/-- The method `AddBatch`; `batch` is the caller's `*RecordBatch`. -/
def AddBatch (s : State) (topic : Bytes) (partition : Int) (batch : Option Nat) :
    Result State := do
  let r := ensureRecords s.2 topic partition
  let r1 ← r.setAt topic partition (newDefaultRecords batch)
  pure (s.1, r1)

/-! ## Rule provider (rule.go) -/

/-- The interface `ClientTopicRule`; its methods are taken to be pure functions. -/
structure ClientTopicRule where
  CheckIsReplaceTopic : Bytes → Bytes → Bool × String
  BrokerTopic : String → Bytes

/-- The interface `TopicRule`; its methods are taken to be pure functions. -/
structure TopicRule where
  GetClientTopicRule : Bytes → ClientTopicRule
  CheckClientTopicIsRule : Bytes → Bool
  GetClientTopicByResponseTopic : Bytes → Bytes

/-! ## The rewrite pass -/

/-- The scan `for mi, msg := range records.MsgSet.Messages` up to its first hit: the index, the
block and the rule key of the first message with `CheckIsReplaceTopic(msg.Msg.Key, msg.Msg.Value)`. -/
def findMsg (ctRule : ClientTopicRule) :
    List MessageBlock → Nat → Option (Nat × MessageBlock × String)
  | [], _ => none
  | msg :: rest, mi =>
    let c := ctRule.CheckIsReplaceTopic msg.Msg.Key msg.Msg.Value
    if c.1 then some (mi, msg, c.2) else findMsg ctRule rest (mi + 1)

/-- The scan `for mi, rsd := range records.RecordBatch.Records` up to its first hit. -/
def findRecord (ctRule : ClientTopicRule) :
    List Record → Nat → Option (Nat × Record × String)
  | [], _ => none
  | rsd :: rest, mi =>
    let c := ctRule.CheckIsReplaceTopic rsd.Key rsd.Value
    if c.1 then some (mi, rsd, c.2) else findRecord ctRule rest (mi + 1)

/-- Lines 48-57 of `changeTopic`, shared by both cases: `srcLen` is the value of
`len(p.records[topic][partition].MsgSet.Messages)`; prunes the source entry when it is zero and
makes the destination topic exist. -/
def pruneAndEnsure (p : ProduceRequest) (topic : Bytes) (partition : Int) (srcLen : Nat)
    (brokerTopic : Bytes) : Result ProduceRequest :=
  let p1 :=
    if srcLen = 0 then
      let q := p.deleteAt topic partition
      if (q.partitionsOf topic).length = 0 then q.deleteTopic topic else q
    else p
  if p1.hasTopic brokerTopic then Result.ok p1 else p1.setTopic brokerTopic []

/-- The body of the `if is` of the legacy case (lines 45-65): `records` is the loop's copy of the
container, `msgs` the slice `records.MsgSet.Messages`, `mi`/`msg` the hit and `k` its rule key. -/
def relocateMsg (ctRule : ClientTopicRule) (s : State) (topic : Bytes) (partition : Int)
    (records : Records) (msgs : List MessageBlock) (mi : Nat) (msg : MessageBlock)
    (k : String) : Result State := do
  let brokerTopic := ctRule.BrokerTopic k
  let h1 ← s.1.setMessages (s.2.atD topic partition).MsgSet (msgs.take mi ++ msgs.drop (mi + 1))
  let cur ← h1.msgSet (s.2.atD topic partition).MsgSet
  let p2 ← pruneAndEnsure s.2 topic partition cur.Messages.length brokerTopic
  match p2.at? brokerTopic partition with
  | some dstRecords =>
    let dst ← h1.msgSet dstRecords.MsgSet
    let h4 ← h1.setMessages dstRecords.MsgSet (dst.Messages ++ [msg])
    pure (h4, p2)
  | none =>
    let h2 ← h1.setMessages records.MsgSet []
    let p3 ← p2.setAt brokerTopic partition records
    let dst ← h2.msgSet (p3.atD brokerTopic partition).MsgSet
    let h4 ← h2.setMessages (p3.atD brokerTopic partition).MsgSet (dst.Messages ++ [msg])
    pure (h4, p3)

/-- The body of the `if is` of the batch case (lines 73-91). Line 76 reads
`p.records[topic][partition].MsgSet.Messages`, as the legacy case does. -/
def relocateRecord (ctRule : ClientTopicRule) (s : State) (topic : Bytes) (partition : Int)
    (records : Records) (recs : List Record) (mi : Nat) (rsd : Record)
    (k : String) : Result State := do
  let brokerTopic := ctRule.BrokerTopic k
  let h1 ← s.1.setRecords (s.2.atD topic partition).RecordBatch
    (recs.take mi ++ recs.drop (mi + 1))
  let cur ← h1.msgSet (s.2.atD topic partition).MsgSet
  let p2 ← pruneAndEnsure s.2 topic partition cur.Messages.length brokerTopic
  match p2.at? brokerTopic partition with
  | some dstRecords =>
    let dst ← h1.batch dstRecords.RecordBatch
    let h4 ← h1.setRecords dstRecords.RecordBatch (dst.Records ++ [rsd])
    pure (h4, p2)
  | none =>
    let h2 ← h1.setRecords records.RecordBatch []
    let p3 ← p2.setAt brokerTopic partition records
    let dst ← h2.batch (p3.atD brokerTopic partition).RecordBatch
    let h4 ← h2.setRecords (p3.atD brokerTopic partition).RecordBatch (dst.Records ++ [rsd])
    pure (h4, p3)

/-- The loop `for partition, records := range v` of `changeTopic`: `some s1` when a record was
relocated (the function returns with state `s1`), `none` when the loop ran to its end. -/
def changeTopicPartitions (ctRule : ClientTopicRule) (s : State) (topic : Bytes) :
    List (Int × Records) → Result (Option State)
  | [] => Result.ok none
  | (partition, records) :: rest =>
    match records.recordsType with
    | RecordsType.legacyRecords =>
      match s.1.msgSet records.MsgSet with
      | Result.ok set =>
        match findMsg ctRule set.Messages 0 with
        | some (mi, msg, k) =>
          (relocateMsg ctRule s topic partition records set.Messages mi msg k).bind
            (fun s1 => Result.ok (some s1))
        | none => changeTopicPartitions ctRule s topic rest
      | Result.error e => Result.error e
      | Result.panic => Result.panic
    | RecordsType.defaultRecords =>
      match s.1.batch records.RecordBatch with
      | Result.ok b =>
        match findRecord ctRule b.Records 0 with
        | some (mi, rsd, k) =>
          (relocateRecord ctRule s topic partition records b.Records mi rsd k).bind
            (fun s1 => Result.ok (some s1))
        | none => changeTopicPartitions ctRule s topic rest
      | Result.error e => Result.error e
      | Result.panic => Result.panic
    | RecordsType.unknownRecords => changeTopicPartitions ctRule s topic rest

/-- The loop `for topic, v := range p.records` of `changeTopic`. -/
def changeTopicTopics (rule : TopicRule) (s : State) :
    List (Bytes × GoMap Int Records) → Result (Option State)
  | [] => Result.ok none
  | (topic, v) :: rest =>
    if rule.CheckClientTopicIsRule topic then
      match changeTopicPartitions (rule.GetClientTopicRule topic) s topic v with
      | Result.ok (some s1) => Result.ok (some s1)
      | Result.ok none => changeTopicTopics rule s rest
      | Result.error e => Result.error e
      | Result.panic => Result.panic
    else changeTopicTopics rule s rest

/-- The method `changeTopic`: `ok s1` is a return of nil with the state `s1`. What
`fmt.Println` writes for an unknown `recordsType` is not part of the state. -/
def changeTopic (rule : TopicRule) (s : State) : Result State :=
  match changeTopicTopics rule s (s.2.records.getD []) with
  | Result.ok (some s1) => Result.ok s1
  | Result.ok none => Result.ok s
  | Result.error e => Result.error e
  | Result.panic => Result.panic

/-! ## Version table -/

/-- The `KafkaVersion` constants `requiredVersion` names; their declarations are not in src, so
they are a parameter. -/
structure KafkaVersions (κ : Type) where
  V0_9_0_0 : κ
  V0_10_0_0 : κ
  V0_11_0_0 : κ
  V2_1_0_0 : κ
  MinVersion : κ

/-- The method `requiredVersion`. -/
def requiredVersion {κ : Type} (kv : KafkaVersions κ) (r : ProduceRequest) : κ :=
  if r.Version = 1 then kv.V0_9_0_0
  else if r.Version = 2 then kv.V0_10_0_0
  else if r.Version = 3 then kv.V0_11_0_0
  else if r.Version = 7 then kv.V2_1_0_0
  else kv.MinVersion

/-! ## Encoding cursor -/

/-- Two bytes, big-endian, of a 16-bit integer (two's complement). -/
def be16 (x : Int) : Bytes :=
  let u := (x % 65536).toNat
  [u / 256, u % 256]

/-- Four bytes, big-endian, of a 32-bit integer (two's complement). -/
def be32 (x : Int) : Bytes :=
  let u := (x % 4294967296).toNat
  [u / 16777216, u / 65536 % 256, u / 256 % 256, u % 256]

/-- The signed 16-bit integer held in two big-endian bytes. -/
def int16OfBytes (b0 b1 : Nat) : Int :=
  let u := b0 * 256 + b1
  if u < 32768 then (u : Int) else (u : Int) - 65536

/-- The signed 32-bit integer held in four big-endian bytes. -/
def int32OfBytes (b0 b1 b2 b3 : Nat) : Int :=
  let u := b0 * 16777216 + b1 * 65536 + b2 * 256 + b3
  if u < 2147483648 then (u : Int) else (u : Int) - 4294967296

/-- Modelled from the spec: the encoding cursor (`packetEncoder`, not in src): the bytes written
so far and the start offsets of the open length-field sections. -/
structure packetEncoder where
  raw : Bytes
  stack : List Nat
deriving DecidableEq, Repr

namespace packetEncoder

/-- Modelled from the spec: `pe.offset()`. -/
def offset (pe : packetEncoder) : Nat := pe.raw.length

/-- Bytes appended by the write of a value. -/
def write (pe : packetEncoder) (bs : Bytes) : packetEncoder := { pe with raw := pe.raw ++ bs }

/-- Modelled from the spec: `pe.putInt16`. -/
def putInt16 (pe : packetEncoder) (x : Int) : packetEncoder := pe.write (be16 x)

/-- Modelled from the spec: `pe.putInt32`. -/
def putInt32 (pe : packetEncoder) (x : Int) : packetEncoder := pe.write (be32 x)

/-- Modelled from the spec: `pe.putArrayLength`, a signed 32-bit count; a count that does not fit
is a write failure. -/
def putArrayLength (pe : packetEncoder) (n : Nat) : Result packetEncoder :=
  if n > 2147483647 then Result.error "array too long" else Result.ok (pe.putInt32 n)

/-- Modelled from the spec: `pe.putString`, a 16-bit length then the bytes; a length that does
not fit is a write failure. -/
def putString (pe : packetEncoder) (str : Bytes) : Result packetEncoder :=
  if str.length > 32767 then Result.error "string too long"
  else Result.ok ((pe.putInt16 str.length).write str)

/-- Modelled from the spec: `pe.putNullableString`: length -1 and no bytes for nil. -/
def putNullableString (pe : packetEncoder) (str : Option Bytes) : Result packetEncoder :=
  match str with
  | none => Result.ok (pe.putInt16 (-1))
  | some b => pe.putString b

/-- Modelled from the spec: `pe.push(&lengthField{})`: reserves 4 bytes at the current offset. -/
def push (pe : packetEncoder) : packetEncoder :=
  { raw := pe.raw ++ [0, 0, 0, 0], stack := pe.raw.length :: pe.stack }

/-- Modelled from the spec: `pe.pop()`: backfills the 4 bytes reserved by the matching `push`
with the number of bytes written since. -/
def pop (pe : packetEncoder) : Result packetEncoder :=
  match pe.stack with
  | [] => Result.panic
  | start :: rest =>
    Result.ok
      { raw := pe.raw.take start ++ be32 ((pe.raw.length - start - 4 : Nat) : Int)
          ++ pe.raw.drop (start + 4),
        stack := rest }

end packetEncoder

/-! ## Decoding cursor: the bytes not yet read -/

/-- Modelled from the spec: `pd.getInt16`. -/
def getInt16 : Bytes → Result (Int × Bytes)
  | b0 :: b1 :: rest => Result.ok (int16OfBytes b0 b1, rest)
  | _ => Result.error "insufficient data"

/-- Modelled from the spec: `pd.getInt32`. -/
def getInt32 : Bytes → Result (Int × Bytes)
  | b0 :: b1 :: b2 :: b3 :: rest => Result.ok (int32OfBytes b0 b1 b2 b3, rest)
  | _ => Result.error "insufficient data"

/-- Modelled from the spec: `pd.getArrayLength`; a negative count is a malformed wire. -/
def getArrayLength (bs : Bytes) : Result (Nat × Bytes) :=
  (getInt32 bs).bind fun x =>
    if x.1 < 0 then Result.error "invalid array length" else Result.ok (x.1.toNat, x.2)

/-- Modelled from the spec: a run of `n` bytes; fails when fewer than `n` bytes remain or `n` is
negative. -/
def getRawBytes (bs : Bytes) (n : Int) : Result (Bytes × Bytes) :=
  if n < 0 then Result.error "invalid length"
  else if (bs.length : Int) < n then Result.error "insufficient data"
  else Result.ok (bs.take n.toNat, bs.drop n.toNat)

/-- Modelled from the spec: `pd.getString`. -/
def getString (bs : Bytes) : Result (Bytes × Bytes) :=
  (getInt16 bs).bind fun x => getRawBytes x.2 x.1

/-- Modelled from the spec: `pd.getNullableString`: length -1 is nil. -/
def getNullableString (bs : Bytes) : Result (Option Bytes × Bytes) :=
  (getInt16 bs).bind fun x =>
    if x.1 = -1 then Result.ok (none, x.2)
    else (getRawBytes x.2 x.1).bind fun y => Result.ok (some y.1, y.2)

/-- Modelled from the spec: `pd.getSubset(length)`: a sub-reader of exactly `length` bytes and
the cursor advanced past them. -/
def getSubset (bs : Bytes) (length : Int) : Result (Bytes × Bytes) := getRawBytes bs length

/-! ## Record container codec -/

/-- A `Records` value with its pointers followed: what the container codec reads and builds. -/
structure RecordsVal where
  recordsType : RecordsType
  MsgSet : Option MessageSet
  RecordBatch : Option RecordBatch
deriving DecidableEq, Repr

/-- The container's own codec (`Records.encode`, `Records.decode`; not in src, and a black box in
the spec), as a parameter: `encode` gives the bytes the container writes to the cursor, `decode`
reads a container from a sub-reader. -/
structure RecordsCodec where
  encode : RecordsVal → Result Bytes
  decode : Bytes → Result RecordsVal

/-- The pointees of a `Records` value; an address outside the heap panics. -/
def Records.load (h : Heap) (r : Records) : Result RecordsVal :=
  let ms : Result (Option MessageSet) :=
    match r.MsgSet with
    | none => Result.ok none
    | some a => (h.msgSet (some a)).bind fun x => Result.ok (some x)
  let rb : Result (Option Sarama.RecordBatch) :=
    match r.RecordBatch with
    | none => Result.ok none
    | some a => (h.batch (some a)).bind fun x => Result.ok (some x)
  ms.bind fun x => rb.bind fun y => Result.ok ⟨r.recordsType, x, y⟩

/-- The `Records` value a decode builds: fresh objects for the decoded set and batch. -/
def Heap.store (h : Heap) (v : RecordsVal) : Heap × Records :=
  let (h1, ms) : Heap × Option Nat :=
    match v.MsgSet with
    | none => (h, none)
    | some x => ({ h with msgSets := h.msgSets ++ [x] }, some h.msgSets.length)
  let (h2, rb) : Heap × Option Nat :=
    match v.RecordBatch with
    | none => (h1, none)
    | some x => ({ h1 with batches := h1.batches ++ [x] }, some h1.batches.length)
  (h2, ⟨v.recordsType, ms, rb⟩)

/-- The call `records.encode(pe)`. -/
def Records.encode (codec : RecordsCodec) (h : Heap) (r : Records) (pe : packetEncoder) :
    Result packetEncoder :=
  (r.load h).bind fun v => (codec.encode v).bind fun bs => Result.ok (pe.write bs)

/-! ## Metrics derivation -/

/-- Modelled from the spec: one operation on the metrics sink: a histogram `Update` or a meter
`Mark`, with the metric name and, for a topic-scoped metric, the topic. -/
inductive MetricEvent where
  | histogramUpdate (name : String) (topic : Option Bytes) (value : Int)
  | meterMark (name : String) (topic : Option Bytes) (count : Int)
deriving DecidableEq, Repr

/-- Modelled from the spec: a histogram of the sink, identified by name and topic scope. -/
structure Histogram where
  name : String
  topic : Option Bytes
deriving DecidableEq, Repr

/-- Modelled from the spec: `histogram.Update(value)`, recorded in the log of sink operations. -/
def Histogram.Update (hist : Histogram) (log : List MetricEvent) (value : Int) :
    List MetricEvent :=
  log ++ [MetricEvent.histogramUpdate hist.name hist.topic value]

/-- The float64 expressions of the two compression ratios, as a parameter:
`msgSet u c` is `int64(100 * (float64(u) / float64(c)))` and
`batch l c` is `int64(float64(l) / float64(c) * 100)`. -/
structure Float64Ratio where
  msgSet : Int → Int → Int
  batch : Int → Int → Int

/-- One iteration of the loop of `updateMsgSetMetrics`: the new `topicRecordCount` and log. -/
def updateMsgSetMetricsStep (fl : Float64Ratio)
    (compressionRatioMetric topicCompressionRatioMetric : Histogram)
    (acc : Int × List MetricEvent) (messageBlock : MessageBlock) : Int × List MetricEvent :=
  let topicRecordCount : Int :=
    match messageBlock.Msg.Set with
    | some nested => acc.1 + (nested.length : Int)
    | none => acc.1 + 1
  if messageBlock.Msg.compressedSize ≠ 0 then
    let intCompressionRatio :=
      fl.msgSet (messageBlock.Msg.Value.length : Int) messageBlock.Msg.compressedSize
    (topicRecordCount,
      topicCompressionRatioMetric.Update
        (compressionRatioMetric.Update acc.2 intCompressionRatio) intCompressionRatio)
  else (topicRecordCount, acc.2)

/-- The function `updateMsgSetMetrics`: the returned count and the log after its updates. -/
def updateMsgSetMetrics (fl : Float64Ratio) (h : Heap) (msgSet : Option Nat)
    (compressionRatioMetric topicCompressionRatioMetric : Histogram)
    (log : List MetricEvent) : Result (Int × List MetricEvent) :=
  (h.msgSet msgSet).bind fun set =>
    Result.ok (set.Messages.foldl
      (updateMsgSetMetricsStep fl compressionRatioMetric topicCompressionRatioMetric) (0, log))

/-- The function `updateBatchMetrics`: the returned count and the log after its updates. -/
def updateBatchMetrics (fl : Float64Ratio) (h : Heap) (recordBatch : Option Nat)
    (compressionRatioMetric topicCompressionRatioMetric : Histogram)
    (log : List MetricEvent) : Result (Int × List MetricEvent) :=
  (h.batch recordBatch).bind fun b =>
    match b.compressedRecords with
    | some compressed =>
      let compressionRatio := fl.batch b.recordsLen (compressed.length : Int)
      Result.ok ((b.Records.length : Int),
        topicCompressionRatioMetric.Update
          (compressionRatioMetric.Update log compressionRatio) compressionRatio)
    | none => Result.ok ((b.Records.length : Int), log)

/-! ## Encode -/

/-- The loop `for id, records := range partitions` of `encode`. `metricRegistry` tells whether
`pe.metricRegistry()` is non-nil; `log` collects the sink operations. -/
def encodePartitions (fl : Float64Ratio) (codec : RecordsCodec) (h : Heap) (version : Int)
    (metricRegistry : Bool) (topic : Bytes) :
    List (Int × Records) → packetEncoder → List MetricEvent → Int →
      Result (packetEncoder × List MetricEvent × Int)
  | [], pe, log, topicRecordCount => Result.ok (pe, log, topicRecordCount)
  | (id, records) :: rest, pe, log, topicRecordCount =>
    let startOffset := pe.offset
    (records.encode codec h (pe.putInt32 id).push).bind fun pe1 =>
    pe1.pop.bind fun pe2 =>
    if metricRegistry then
      let compressionRatioMetric : Histogram := ⟨"compression-ratio", none⟩
      let topicCompressionRatioMetric : Histogram := ⟨"compression-ratio", some topic⟩
      (if version ≥ 3 then
          updateBatchMetrics fl h records.RecordBatch
            compressionRatioMetric topicCompressionRatioMetric log
        else
          updateMsgSetMetrics fl h records.MsgSet
            compressionRatioMetric topicCompressionRatioMetric log).bind fun u =>
      let batchSize : Int := (pe2.offset : Int) - (startOffset : Int)
      let log1 := Histogram.Update ⟨"batch-size", none⟩ u.2 batchSize
      let log2 := Histogram.Update ⟨"batch-size", some topic⟩ log1 batchSize
      encodePartitions fl codec h version metricRegistry topic rest pe2 log2
        (topicRecordCount + u.1)
    else
      encodePartitions fl codec h version metricRegistry topic rest pe2 log topicRecordCount

/-- The loop `for topic, partitions := range r.records` of `encode`. -/
def encodeTopics (fl : Float64Ratio) (codec : RecordsCodec) (h : Heap) (version : Int)
    (metricRegistry : Bool) :
    List (Bytes × GoMap Int Records) → packetEncoder → List MetricEvent → Int →
      Result (packetEncoder × List MetricEvent × Int)
  | [], pe, log, totalRecordCount => Result.ok (pe, log, totalRecordCount)
  | (topic, partitions) :: rest, pe, log, totalRecordCount =>
    (pe.putString topic).bind fun pe1 =>
    (pe1.putArrayLength partitions.length).bind fun pe2 =>
    (encodePartitions fl codec h version metricRegistry topic partitions pe2 log 0).bind fun x =>
    if x.2.2 > 0 then
      encodeTopics fl codec h version metricRegistry rest x.1
        (x.2.1 ++ [MetricEvent.meterMark "record-send-rate" (some topic) x.2.2,
          MetricEvent.histogramUpdate "records-per-request" (some topic) x.2.2])
        (totalRecordCount + x.2.2)
    else encodeTopics fl codec h version metricRegistry rest x.1 x.2.1 totalRecordCount

/-- The method `encode`: the cursor and the log of sink operations after the call. -/
def encode (fl : Float64Ratio) (codec : RecordsCodec) (h : Heap) (r : ProduceRequest)
    (metricRegistry : Bool) (pe : packetEncoder) (log : List MetricEvent) :
    Result (packetEncoder × List MetricEvent) :=
  (if r.Version ≥ 3 then pe.putNullableString r.TransactionalID else Result.ok pe).bind fun pe1 =>
  let pe2 := (pe1.putInt16 r.RequiredAcks).putInt32 r.Timeout
  (pe2.putArrayLength (r.records.getD []).length).bind fun pe3 =>
  (encodeTopics fl codec h r.Version metricRegistry (r.records.getD []) pe3 log 0).bind fun x =>
  if x.2.2 > 0 then
    Result.ok (x.1, x.2.1 ++ [MetricEvent.meterMark "record-send-rate" none x.2.2,
      MetricEvent.histogramUpdate "records-per-request" none x.2.2])
  else Result.ok (x.1, x.2.1)

/-! ## Decode -/

/-- The loop `for j := 0; j < partitionCount; j++` of `decode`, with `n` iterations left: the
state and the unread bytes after it. -/
def decodePartitions (codec : RecordsCodec) (topic : Bytes) :
    Nat → Bytes → State → Result (State × Bytes)
  | 0, bs, s => Result.ok (s, bs)
  | n + 1, bs, s =>
    (getInt32 bs).bind fun partition =>
    (getInt32 partition.2).bind fun size =>
    (getSubset size.2 size.1).bind fun recordsDecoder =>
    (codec.decode recordsDecoder.1).bind fun v =>
    (s.2.setAt topic partition.1 (s.1.store v).2).bind fun r1 =>
    decodePartitions codec topic n recordsDecoder.2 ((s.1.store v).1, r1)

/-- The loop `for i := 0; i < topicCount; i++` of `decode`, with `n` iterations left. -/
def decodeTopics (codec : RecordsCodec) : Nat → Bytes → State → Result (State × Bytes)
  | 0, bs, s => Result.ok (s, bs)
  | n + 1, bs, s =>
    (getString bs).bind fun topic =>
    (getArrayLength topic.2).bind fun partitionCount =>
    (s.2.setTopic topic.1 []).bind fun r1 =>
    (decodePartitions codec topic.1 partitionCount.1 partitionCount.2 (s.1, r1)).bind fun x =>
    decodeTopics codec n x.2 x.1

/-- The method `decode` on the receiver `s.2`: the state and the unread bytes after a return of
nil. The receiver's fields after a returned error are not modelled. -/
def decode (codec : RecordsCodec) (bs : Bytes) (version : Int) (s : State) :
    Result (State × Bytes) :=
  let r0 : ProduceRequest := { s.2 with Version := version }
  (if version ≥ 3 then
      (getNullableString bs).bind fun id =>
        Result.ok (({ r0 with TransactionalID := id.1 } : ProduceRequest), id.2)
    else Result.ok (r0, bs)).bind fun x =>
  (getInt16 x.2).bind fun requiredAcks =>
  (getInt32 requiredAcks.2).bind fun timeout =>
  (getArrayLength timeout.2).bind fun topicCount =>
  let r1 : ProduceRequest := { x.1 with RequiredAcks := requiredAcks.1, Timeout := timeout.1 }
  if topicCount.1 = 0 then Result.ok ((s.1, r1), topicCount.2)
  else decodeTopics codec topicCount.1 topicCount.2 (s.1, { r1 with records := some [] })

/-! ## Vocabulary of the statements -/

/-- Range of a Go `int16`. -/
def isInt16 (x : Int) : Prop := -32768 ≤ x ∧ x ≤ 32767

/-- Range of a Go `int32`. -/
def isInt32 (x : Int) : Prop := -2147483648 ≤ x ∧ x ≤ 2147483647

instance (x : Int) : Decidable (isInt16 x) := by unfold isInt16; infer_instance

instance (x : Int) : Decidable (isInt32 x) := by unfold isInt32; infer_instance

/-- The zero `ProduceRequest`, the receiver of a decode into a fresh request. -/
def ProduceRequest.zero : ProduceRequest := ⟨none, 0, 0, 0, none⟩

/-- One attach call on a request. -/
inductive AttachOp where
  | addMessage (topic : Bytes) (partition : Int) (msg : Message)
  | addSet (topic : Bytes) (partition : Int) (set : Option Nat)
  | addBatch (topic : Bytes) (partition : Int) (batch : Option Nat)
deriving DecidableEq, Repr

/-- Runs one attach call. -/
def AttachOp.run (s : State) : AttachOp → Result State
  | addMessage topic partition msg => AddMessage s topic partition msg
  | addSet topic partition set => AddSet s topic partition set
  | addBatch topic partition batch => AddBatch s topic partition batch

/-- Runs a sequence of attach calls, first to last. -/
def attachAll : List AttachOp → State → Result State
  | [], s => Result.ok s
  | op :: rest, s => (op.run s).bind (attachAll rest)

/-- The partition indices of the request are `int32` values and its scalar fields are in the
range of their Go types. -/
def ProduceRequest.wellTyped (r : ProduceRequest) : Prop :=
  isInt16 r.RequiredAcks ∧ isInt32 r.Timeout ∧
    ∀ e ∈ r.records.getD [], ∀ p ∈ e.2, isInt32 p.1

instance (r : ProduceRequest) : Decidable r.wellTyped := by
  unfold ProduceRequest.wellTyped; infer_instance

/-- Every length the request puts on the wire fits its field: strings in a signed 16-bit length
(the transactional id counts from version 3 on, where it is written), arrays in a signed 32-bit
count. -/
def ProduceRequest.fitsWire (r : ProduceRequest) : Prop :=
  (r.Version ≥ 3 → ∀ t ∈ r.TransactionalID, t.length ≤ 32767) ∧
    (r.records.getD []).length ≤ 2147483647 ∧
    ∀ e ∈ r.records.getD [], e.1.length ≤ 32767 ∧ e.2.length ≤ 2147483647

instance (r : ProduceRequest) : Decidable r.fitsWire := by
  unfold ProduceRequest.fitsWire; infer_instance

/-- The codec round-trips on the container `c` of heap `h`: the container loads, its encoding
succeeds with a length that fits the signed 32-bit `record_len` field, and decoding those bytes
gives the container's contents back. -/
def RecordsCodec.roundTripsOn (codec : RecordsCodec) (h : Heap) (c : Records) : Bool :=
  match c.load h with
  | Result.ok v =>
    match codec.encode v with
    | Result.ok bs => decide (bs.length ≤ 2147483647) && decide (codec.decode bs = Result.ok v)
    | _ => false
  | _ => false

/-- The contents of the containers of a partition map, pointers followed. -/
def viewPartitions (h : Heap) (ps : GoMap Int Records) : GoMap Int (Result RecordsVal) :=
  ps.map fun e => (e.1, e.2.load h)

/-- The contents of a records mapping, pointers followed. -/
def viewTopics (h : Heap) (m : GoMap Bytes (GoMap Int Records)) :
    GoMap Bytes (GoMap Int (Result RecordsVal)) :=
  m.map fun e => (e.1, viewPartitions h e.2)

/-- The records mapping of a state up to the addresses of its objects: `none` for a nil map,
else topic by topic and partition by partition the contents of the container. -/
def State.view (s : State) : Option (GoMap Bytes (GoMap Int (Result RecordsVal))) :=
  s.2.records.map (viewTopics s.1)

/-- The bytes the codec writes for container `c` (none when it fails to load or encode). -/
def Records.body (codec : RecordsCodec) (h : Heap) (c : Records) : Bytes :=
  match (c.load h).bind codec.encode with
  | Result.ok bs => bs
  | _ => []

/-- Wire layout of a partition array's elements (spec, section 6): `partition_id`, `record_len`,
then the `record_len` bytes of the container. -/
def wirePartitions : List (Int × Bytes) → Bytes
  | [] => []
  | e :: rest => be32 e.1 ++ be32 (e.2.length : Int) ++ e.2 ++ wirePartitions rest

/-- Wire layout of a topic array's elements (spec, section 6): `name`, then the partitions. -/
def wireTopics : List (Bytes × List (Int × Bytes)) → Bytes
  | [] => []
  | e :: rest =>
    be16 (e.1.length : Int) ++ e.1 ++ be32 (e.2.length : Int) ++ wirePartitions e.2
      ++ wireTopics rest

/-- Wire layout of a nullable string (spec, section 6). -/
def wireNullableString : Option Bytes → Bytes
  | none => be16 (-1)
  | some str => be16 (str.length : Int) ++ str

/-- Wire layout of the request body from `required_acks` on (spec, section 6). -/
def wireBody (acks timeout : Int) (topics : List (Bytes × List (Int × Bytes))) : Bytes :=
  be16 acks ++ be32 timeout ++ be32 (topics.length : Int) ++ wireTopics topics

/-- Wire layout of a produce request of version `version` (spec, section 6). -/
def wireRequest (version : Int) (tid : Option Bytes) (acks timeout : Int)
    (topics : List (Bytes × List (Int × Bytes))) : Bytes :=
  (if version ≥ 3 then wireNullableString tid else []) ++ wireBody acks timeout topics

/-- Topic by topic and partition by partition, the bytes the codec writes for the containers. -/
def bodiesOf (codec : RecordsCodec) (h : Heap) (m : GoMap Bytes (GoMap Int Records)) :
    List (Bytes × List (Int × Bytes)) :=
  m.map fun e => (e.1, e.2.map fun p => (p.1, p.2.body codec h))

/-- Heap `h2` holds every object of `h1` at its address, and possibly newer objects. -/
def Heap.includes (h2 h1 : Heap) : Prop :=
  (∃ a, h2.msgSets = h1.msgSets ++ a) ∧ (∃ b, h2.batches = h1.batches ++ b)

/-- Two partition entries with the same index whose containers both load, to equal contents. -/
def SameContainer (h2 h : Heap) (p2 p : Int × Records) : Prop :=
  p2.1 = p.1 ∧ ∃ v, p2.2.load h2 = Result.ok v ∧ p.2.load h = Result.ok v

/-- Two topic entries with the same name and pairwise equal partition entries. -/
def SameTopic (h2 h : Heap) (e2 e : Bytes × GoMap Int Records) : Prop :=
  e2.1 = e.1 ∧ List.Forall₂ (SameContainer h2 h) e2.2 e.2

/-- No topic key of the records mapping maps to an empty partition mapping. -/
def ProduceRequest.noEmptyTopic (r : ProduceRequest) : Prop :=
  ∀ e ∈ r.records.getD [], e.2 ≠ []

instance (r : ProduceRequest) : Decidable r.noEmptyTopic := by
  unfold ProduceRequest.noEmptyTopic; infer_instance

/-- The lists are maps: no topic occurs twice, and within a topic no partition index occurs
twice. A Go map satisfies this by construction. -/
def ProduceRequest.distinctKeys (r : ProduceRequest) : Prop :=
  (GoMap.keys (r.records.getD [])).Nodup ∧ ∀ e ∈ r.records.getD [], (GoMap.keys e.2).Nodup

instance (r : ProduceRequest) : Decidable r.distinctKeys := by
  unfold ProduceRequest.distinctKeys; infer_instance

/-- A container codec for the examples: a legacy set whose messages each carry a one-byte value
(no key, no nested set, offset 0) is written as the sequence of those bytes. -/
def exampleCodec : RecordsCodec where
  encode := fun v =>
    match v.recordsType, v.MsgSet, v.RecordBatch with
    | RecordsType.legacyRecords, some set, none =>
      if set.Messages.all
          (fun b => decide (b = ⟨0, ⟨[], [b.Msg.Value.headD 0], none, 0⟩⟩)) then
        Result.ok (set.Messages.map fun b => b.Msg.Value.headD 0)
      else Result.error "unsupported container"
    | _, _, _ => Result.error "unsupported container"
  decode := fun bs =>
    Result.ok ⟨RecordsType.legacyRecords, some ⟨bs.map fun b => ⟨0, ⟨[], [b], none, 0⟩⟩⟩, none⟩

/-- A float64 model for the examples: exact integer quotients. -/
def exampleRatio : Float64Ratio := ⟨fun u c => 100 * u / c, fun l c => l * 100 / c⟩

/-! ## Example values -/

/-- Example topic names. -/
def topicOrders : Bytes := ascii "orders"

/-- Example destination topic. -/
def topicOrdersV2 : Bytes := ascii "orders_v2"

/-- Example second topic. -/
def topicAudit : Bytes := ascii "audit"

/-- Example message with the one-byte value `b`. -/
def msgOf (b : Nat) : Message := ⟨[], [b], none, 0⟩

/-- The empty heap. -/
def Heap.empty : Heap := ⟨[], []⟩

/-- A fresh request with its scalar fields set: version 3, transactional id "tx". -/
def exampleRequest : ProduceRequest := ⟨some (ascii "tx"), -1, 1000, 3, none⟩

/-- An attach script over two topics. -/
def exampleOps : List AttachOp :=
  [AttachOp.addMessage topicOrders 0 (msgOf 7), AttachOp.addMessage topicOrders 0 (msgOf 8),
   AttachOp.addMessage topicOrders 1 (msgOf 9), AttachOp.addMessage topicAudit 5 (msgOf 1)]

/-- The state built by the attach script. -/
def exampleState : State :=
  (⟨[⟨[⟨0, msgOf 7⟩, ⟨0, msgOf 8⟩]⟩, ⟨[⟨0, msgOf 9⟩]⟩, ⟨[⟨0, msgOf 1⟩]⟩], []⟩,
   ⟨some (ascii "tx"), -1, 1000, 3, some
      [(topicOrders, [(0, newLegacyRecords (some 0)), (1, newLegacyRecords (some 1))]),
       (topicAudit, [(5, newLegacyRecords (some 2))])]⟩)

/-- Example per-topic rule of topic `t`: a record whose value is the single byte 1 matches with
rule key "k1", and every rule key maps to the topic `t` with the suffix "_v2". -/
def exampleClientRule (t : Bytes) : ClientTopicRule :=
  ⟨fun _ value => (decide (value = [1]), "k1"), fun _ => t ++ ascii "_v2"⟩

/-- Example rule provider with an active rule for "orders" only. -/
def ordersRule : TopicRule :=
  ⟨exampleClientRule, fun t => decide (t = topicOrders), fun _ => []⟩

/-- Example rule provider with an active rule for "orders" and for "audit". -/
def bothRule : TopicRule :=
  ⟨exampleClientRule, fun t => decide (t = topicOrders ∨ t = topicAudit), fun _ => []⟩

/-- Example state: "orders"/0 and "audit"/0 each hold a legacy set with the one message of
value 1. -/
def twoTopicState : State :=
  (⟨[⟨[⟨0, msgOf 1⟩]⟩, ⟨[⟨0, msgOf 1⟩]⟩], []⟩,
   ⟨none, 1, 100, 0, some
      [(topicOrders, [(0, newLegacyRecords (some 0))]),
       (topicAudit, [(0, newLegacyRecords (some 1))])]⟩)

/-- What `changeTopic` needs to scan container `c` without a panic: a legacy container has its
message set and a batch container has its batch, in the heap. -/
def Records.inspectable (h : Heap) (c : Records) : Bool :=
  match c.recordsType with
  | RecordsType.legacyRecords => (h.msgSet c.MsgSet).isOk
  | RecordsType.defaultRecords => (h.batch c.RecordBatch).isOk
  | RecordsType.unknownRecords => true

/-- Some record of container `c` (a message of a legacy set, an entry of a batch) matches the
per-topic rule `ct`. -/
def Records.anyMatch (ct : ClientTopicRule) (h : Heap) (c : Records) : Bool :=
  match c.recordsType with
  | RecordsType.legacyRecords =>
    match h.msgSet c.MsgSet with
    | Result.ok set =>
      set.Messages.any fun msg => (ct.CheckIsReplaceTopic msg.Msg.Key msg.Msg.Value).1
    | _ => false
  | RecordsType.defaultRecords =>
    match h.batch c.RecordBatch with
    | Result.ok b => b.Records.any fun rsd => (ct.CheckIsReplaceTopic rsd.Key rsd.Value).1
    | _ => false
  | RecordsType.unknownRecords => false

/-- Example state: "orders"/0 holds a legacy set with the messages of value 1 and of value 2;
the first one matches the example rule. -/
def twoMessageState : State :=
  (⟨[⟨[⟨0, msgOf 1⟩, ⟨0, msgOf 2⟩]⟩], []⟩,
   ⟨none, 1, 100, 0, some [(topicOrders, [(0, newLegacyRecords (some 0))])]⟩)

/-- Example state before `AddBatch`: the heap holds a batch with one record of value 1, which
matches the example rule; the request of version 3 is empty. -/
def batchHeapState : State :=
  (⟨[], [⟨[⟨[], [1], []⟩], none, 0⟩]⟩, ⟨none, 1, 100, 3, none⟩)

/-- The state `twoTopicState` after the rewrite pass with `ordersRule`. -/
def relocatedState : State :=
  (twoTopicState.1,
   ⟨none, 1, 100, 0, some
      [(topicAudit, [(0, newLegacyRecords (some 1))]),
       (topicOrdersV2, [(0, newLegacyRecords (some 0))])]⟩)

/-- The sizes in a well-formed array of partitions on the wire: indices are `int32` values and
every body has a length that fits the signed 32-bit `record_len` field. -/
def partitionsFit (ps : List (Int × Bytes)) : Prop :=
  ∀ p ∈ ps, isInt32 p.1 ∧ p.2.length ≤ 2147483647

/-- The sizes in a well-formed array of topics on the wire. -/
def topicsFit (ts : List (Bytes × List (Int × Bytes))) : Prop :=
  ∀ e ∈ ts, e.1.length ≤ 32767 ∧ e.2.length ≤ 2147483647 ∧ partitionsFit e.2

instance (ps : List (Int × Bytes)) : Decidable (partitionsFit ps) := by
  unfold partitionsFit; infer_instance

instance (ts : List (Bytes × List (Int × Bytes))) : Decidable (topicsFit ts) := by
  unfold topicsFit; infer_instance

/-- The decode loop over the partitions of `topic` can store into state `s`: the outer map and
the inner map of `topic` exist. -/
def readyFor (topic : Bytes) (s : State) : Prop :=
  ∃ m inner, s.2.records = some m ∧ GoMap.get? m topic = some inner

/-- Example table of version constants. -/
def exampleVersions : KafkaVersions (List Nat) :=
  ⟨[0, 9, 0, 0], [0, 10, 0, 0], [0, 11, 0, 0], [2, 1, 0, 0], [0, 8, 2, 0]⟩


/-! ## Vocabulary of the later statements -/

/-- The calls `AddMessage(topic, partition, m)` for the messages `m` of a list, in order. -/
def addMessages (topic : Bytes) (partition : Int) : List Message → State → Result State
  | [], s => Result.ok s
  | msg :: rest, s => (AddMessage s topic partition msg).bind (addMessages topic partition rest)

/-- Example state: "orders"/0 holds a default record batch (attached with `AddBatch`) with one
record of value 1. -/
def batchState : State :=
  (batchHeapState.1, ⟨none, 1, 100, 3, some [(topicOrders, [(0, newDefaultRecords (some 0))])]⟩)

/-- The records one message block stands for: the messages of the nested set when the block's
message wraps one, else 1. -/
def blockCount (messageBlock : MessageBlock) : Int :=
  match messageBlock.Msg.Set with
  | some nested => (nested.length : Int)
  | none => 1

/-- The sum of `blockCount` over the blocks of a message set. -/
def legacyCount (msgs : List MessageBlock) : Int :=
  match msgs with
  | [] => 0
  | b :: rest => blockCount b + legacyCount rest

/-- The histogram updates one message block causes in `updateMsgSetMetrics`: none when its
`compressedSize` is 0, else the value `v` first on the global histogram, then on the topic's. -/
def blockUpdates (fl : Float64Ratio) (compressionRatioMetric topicCompressionRatioMetric : Histogram)
    (messageBlock : MessageBlock) : List MetricEvent :=
  if messageBlock.Msg.compressedSize ≠ 0 then
    [MetricEvent.histogramUpdate compressionRatioMetric.name compressionRatioMetric.topic
        (fl.msgSet (messageBlock.Msg.Value.length : Int) messageBlock.Msg.compressedSize),
     MetricEvent.histogramUpdate topicCompressionRatioMetric.name
        topicCompressionRatioMetric.topic
        (fl.msgSet (messageBlock.Msg.Value.length : Int) messageBlock.Msg.compressedSize)]
  else []

/-- The histogram updates of all blocks of a message set, in order. -/
def legacyUpdates (fl : Float64Ratio) (compressionRatioMetric topicCompressionRatioMetric : Histogram) :
    List MessageBlock → List MetricEvent
  | [] => []
  | b :: rest =>
    blockUpdates fl compressionRatioMetric topicCompressionRatioMetric b
      ++ legacyUpdates fl compressionRatioMetric topicCompressionRatioMetric rest

/-- Example set: one wrapper message whose nested set has 3 messages. -/
def wrapperSet : MessageSet :=
  ⟨[⟨0, ⟨[], [9, 9], some [⟨[], [1]⟩, ⟨[], [2]⟩, ⟨[], [3]⟩], 0⟩⟩]⟩

/-- Example set: two ordinary uncompressed messages. -/
def plainSet : MessageSet := ⟨[⟨0, msgOf 1⟩, ⟨0, msgOf 2⟩]⟩

/-- Example batch: two records, no compressed buffer. -/
def twoRecordBatch : RecordBatch := ⟨[⟨[], [1], []⟩, ⟨[], [2], []⟩], none, 0⟩

/-- Example heap holding the example sets at addresses 0 and 1 and the example batch. -/
def countingHeap : Heap := ⟨[wrapperSet, plainSet], [twoRecordBatch]⟩

/-! ## float64 arithmetic of the compression ratios -/

/-- Modelled from the Go language specification (float64 is IEEE-754 binary64): a finite
float64 value, as a sign and the magnitude `num / den`. -/
structure F64 where
  neg : Bool
  num : Nat
  den : Nat
deriving DecidableEq, Repr

/-- The position of the highest set bit of `n` (0 for `n < 2`), found in at most `fuel`
halvings. -/
def bitLog (fuel n : Nat) : Nat :=
  match fuel with
  | 0 => 0
  | f + 1 => if n ≥ 2 then bitLog f (n / 2) + 1 else 0

/-- Modelled from the Go language specification: the binary64 nearest to the positive rational
`n / d` (53 significant bits, round to nearest, ties to even), as numerator and denominator.
Exponent overflow and subnormal results do not arise for quotients and products of 64-bit
integers and are not modelled. -/
def roundBinary64 (n d : Nat) : Nat × Nat :=
  if n = 0 ∨ d = 0 then (0, 1)
  else
    let s0 : Int := 52 - ((bitLog n n : Int) - (bitLog d d : Int))
    let n0 : Nat := if s0 ≥ 0 then n * 2 ^ s0.toNat else n
    let d0 : Nat := if s0 ≥ 0 then d else d * 2 ^ (-s0).toNat
    let n1 : Nat := if n0 / d0 < 2 ^ 52 then 2 * n0 else n0
    let s : Int := if n0 / d0 < 2 ^ 52 then s0 + 1 else s0
    let q : Nat := n1 / d0
    let r : Nat := n1 % d0
    let q1 : Nat := if 2 * r > d0 ∨ (2 * r = d0 ∧ q % 2 = 1) then q + 1 else q
    if s ≥ 0 then (q1, 2 ^ s.toNat) else (q1 * 2 ^ (-s).toNat, 1)

namespace F64

/-- The conversion `float64(x)` of an integer. -/
def ofInt (x : Int) : F64 :=
  ⟨decide (x < 0), (roundBinary64 x.natAbs 1).1, (roundBinary64 x.natAbs 1).2⟩

/-- The float64 quotient `a / b` for a divisor that is not zero. -/
def div (a b : F64) : F64 :=
  ⟨xor a.neg b.neg, (roundBinary64 (a.num * b.den) (a.den * b.num)).1,
    (roundBinary64 (a.num * b.den) (a.den * b.num)).2⟩

/-- The float64 product `a * b`. -/
def mul (a b : F64) : F64 :=
  ⟨xor a.neg b.neg, (roundBinary64 (a.num * b.num) (a.den * b.den)).1,
    (roundBinary64 (a.num * b.num) (a.den * b.den)).2⟩

/-- The integer part of the value: the fraction is dropped (truncation toward zero). -/
def trunc (a : F64) : Int :=
  if a.neg then -((a.num / a.den : Nat) : Int) else ((a.num / a.den : Nat) : Int)

end F64

/-- The conversion `int64(f)`: the truncated value when it is an `int64`; otherwise (and for
the non-finite quotient by zero) the result is implementation-dependent in Go and is the
parameter `undef`. -/
def toInt64 (undef : Int) (v : Int) : Int :=
  if -9223372036854775808 ≤ v ∧ v ≤ 9223372036854775807 then v else undef

/-- The two ratio expressions of the source in float64 arithmetic:
`int64(100 * (float64(u) / float64(c)))` and `int64(float64(l) / float64(c) * 100)`. -/
def binary64Ratio (undef : Int) : Float64Ratio :=
  ⟨fun u c =>
      if c = 0 then undef
      else toInt64 undef
        (F64.trunc (F64.mul (F64.ofInt 100) (F64.div (F64.ofInt u) (F64.ofInt c)))),
   fun l c =>
      if c = 0 then undef
      else toInt64 undef
        (F64.trunc (F64.mul (F64.div (F64.ofInt l) (F64.ofInt c)) (F64.ofInt 100)))⟩

/-- The ratio integer in the words of the spec: `round(100 × u / c)`. -/
def specRatio (u c : Int) : Int := round ((100 * u : ℚ) / c)

/-- Example heap for the ratios: set 0 holds one message whose value has 2 bytes and whose
`compressedSize` is 3; set 1 holds one message whose value has 300 bytes and whose
`compressedSize` is 100; batch 0 has a compressed buffer that is present and empty. -/
def ratioHeap : Heap :=
  ⟨[⟨[⟨0, ⟨[], [1, 1], none, 3⟩⟩]⟩, ⟨[⟨0, ⟨[], List.replicate 300 0, none, 100⟩⟩]⟩],
   [⟨[⟨[], [1], []⟩], some [], 10⟩]⟩

/-- Example state with the destination present: "orders"/0 holds a legacy set with the messages
of value 1 and of value 2, and "orders_v2"/0 already holds a legacy set, another object, with
the message of value 5. -/
def existingDestinationState : State :=
  (⟨[⟨[⟨0, msgOf 1⟩, ⟨0, msgOf 2⟩]⟩, ⟨[⟨0, msgOf 5⟩]⟩], []⟩,
   ⟨none, 1, 100, 0, some
      [(topicOrders, [(0, newLegacyRecords (some 0))]),
       (topicOrdersV2, [(0, newLegacyRecords (some 1))])]⟩)

/-- The messages held across all topic/partition entries of the request, entry by entry in
iteration order: the messages of the legacy set each entry points to. An entry without a
readable message set holds none. -/
def heldMessages (s : State) : List MessageBlock :=
  ((s.2.records.getD []).map fun e =>
    (e.2.map fun p =>
      match s.1.msgSet p.2.MsgSet with
      | Result.ok set => set.Messages
      | _ => []).flatten).flatten

/-- What the caller of `encode` observes apart from the metrics sink: the cursor after a return
of nil, or the error, or the fault. -/
def wireOutcome {α : Type} (x : Result (packetEncoder × α)) : Result packetEncoder :=
  match x with
  | Result.ok out => Result.ok out.1
  | Result.error e => Result.error e
  | Result.panic => Result.panic

/-- The container holds the object that the metrics path of a request of version `version`
reads: a record batch from version 3 on, a legacy message set before. -/
def Records.matchesVersion (h : Heap) (version : Int) (c : Records) : Bool :=
  if version ≥ 3 then (h.batch c.RecordBatch).isOk else (h.msgSet c.MsgSet).isOk

/-- Every container of the request holds the object its version stands for. -/
def ProduceRequest.variantsMatchVersion (h : Heap) (r : ProduceRequest) : Prop :=
  ∀ e ∈ r.records.getD [], ∀ p ∈ e.2, p.2.matchesVersion h r.Version = true

instance (h : Heap) (r : ProduceRequest) : Decidable (r.variantsMatchVersion h) := by
  unfold ProduceRequest.variantsMatchVersion; infer_instance

/-- Example state in which two entries hold the same `*MessageSet`: the heap has one set with
the messages of value 1 and of value 2, attached with `AddSet` under "orders"/0 and under
"orders_v2"/0. -/
def sharedSetState : State :=
  (⟨[⟨[⟨0, msgOf 1⟩, ⟨0, msgOf 2⟩]⟩], []⟩,
   ⟨none, 1, 100, 0, some
      [(topicOrders, [(0, newLegacyRecords (some 0))]),
       (topicOrdersV2, [(0, newLegacyRecords (some 0))])]⟩)

/-- Example state after `AddSet("orders", 0, nil)`: the entry holds a legacy container whose
`MsgSet` is nil. -/
def nilSetState : State :=
  (Heap.empty, ⟨none, 1, 100, 0, some [(topicOrders, [(0, newLegacyRecords none)])]⟩)

/-! ## Message slices over backing arrays

`Heap` keeps, for every message set, the sequence of its messages. That is the whole of a Go
heap in which the `Messages` slice of a set shares its backing array with no other set. The
definitions below model the slices themselves, for the statements in which sharing matters. -/

/-- A Go slice header of type `[]*MessageBlock`: the address of the backing array, the offset
of the slice in it, its length and its capacity. -/
structure Slice where
  arr : Nat
  off : Nat
  len : Nat
  cap : Nat
deriving DecidableEq, Repr

/-- The heap at the level of slices: the backing arrays of `*MessageBlock` slots (`none` is a
nil slot) and, for every `*MessageSet` address, the header of its `Messages` field. -/
structure SliceHeap where
  arrays : List (List (Option MessageBlock))
  sets : List Slice
deriving DecidableEq, Repr

/-- The slot `i` of the backing array at address `arr`. -/
def SliceHeap.slot (h : SliceHeap) (arr i : Nat) : Option MessageBlock :=
  match h.arrays[arr]? with
  | some A => (A[i]?).join
  | none => none

/-- The elements seen through a slice header: the slots `off`, ..., `off + len - 1`. -/
def SliceHeap.view (h : SliceHeap) (sl : Slice) : List (Option MessageBlock) :=
  (List.range sl.len).map fun i => h.slot sl.arr (sl.off + i)

/-- The sequences seen through the `Messages` fields, set by set. -/
def SliceHeap.views (h : SliceHeap) : List (List (Option MessageBlock)) :=
  h.sets.map h.view

/-- The sequences of messages of the sets of a `Heap`, set by set. -/
def Heap.views (h : Heap) : List (List (Option MessageBlock)) :=
  h.msgSets.map fun m => m.Messages.map some

/-- Every header lies inside its backing array: `len <= cap`, and a slice of capacity other
than 0 has an array that holds `off + cap` slots. -/
def SliceHeap.wellFormed (h : SliceHeap) : Prop :=
  ∀ sl ∈ h.sets, sl.len ≤ sl.cap ∧
    (sl.cap = 0 ∨ sl.off + sl.cap ≤ ((h.arrays[sl.arr]?).getD []).length)

instance (h : SliceHeap) : Decidable h.wellFormed := by
  unfold SliceHeap.wellFormed; infer_instance

/-- The message set at address `a` shares its backing array with no other message set. -/
def SliceHeap.ownsArray (h : SliceHeap) (a : Nat) : Prop :=
  ∀ i ∈ List.range h.sets.length, i ≠ a →
    (h.sets[i]?).map Slice.arr ≠ (h.sets[a]?).map Slice.arr

instance (h : SliceHeap) (a : Nat) : Decidable (h.ownsArray a) := by
  unfold SliceHeap.ownsArray; infer_instance

/-- The copy inside one array made by `append(s[:mi], s[mi+1:]...)`: the slots `lo`, ...,
`hi - 1` take the values their right neighbours had. -/
def shiftLeft (A : List (Option MessageBlock)) (lo hi : Nat) : List (Option MessageBlock) :=
  (List.range A.length).map fun j =>
    if lo ≤ j ∧ j < hi then (A[j + 1]?).join else (A[j]?).join

/-- Line 47 on the slices, for the set at address `a`:
`set.Messages = append(set.Messages[:mi], set.Messages[mi+1:]...)`. The elements after `mi`
move one slot to the left inside the backing array, which every slice over that array sees,
and the header of the set keeps its array, offset and capacity with the length one less. -/
def SliceHeap.removeAt (h : SliceHeap) (a mi : Nat) : Option SliceHeap :=
  match h.sets[a]? with
  | none => none
  | some sl =>
    if mi < sl.len then
      match h.arrays[sl.arr]? with
      | none => none
      | some A =>
        some ⟨h.arrays.set sl.arr (shiftLeft A (sl.off + mi) (sl.off + sl.len - 1)),
          h.sets.set a ⟨sl.arr, sl.off, sl.len - 1, sl.cap⟩⟩
    else none

/-- Line 63 on the slices, for the set at address `b`:
`set.Messages = append(set.Messages, msg)`. With spare capacity the message is written into the
slot after the slice, in place; without, the elements are copied to a new array with `grow`
spare slots (the growth is the runtime's choice). -/
def SliceHeap.appendTo (grow : Nat) (h : SliceHeap) (b : Nat) (msg : MessageBlock) :
    Option SliceHeap :=
  match h.sets[b]? with
  | none => none
  | some sl =>
    if sl.len < sl.cap then
      match h.arrays[sl.arr]? with
      | none => none
      | some A =>
        some ⟨h.arrays.set sl.arr (A.set (sl.off + sl.len) (some msg)),
          h.sets.set b ⟨sl.arr, sl.off, sl.len + 1, sl.cap⟩⟩
    else
      some ⟨h.arrays ++ [h.view sl ++ some msg :: List.replicate grow none],
        h.sets.set b ⟨h.arrays.length, 0, sl.len + 1, sl.len + 1 + grow⟩⟩

/-- Lines 47 and 63 on the slices: the hit at index `mi` leaves the set at `a` and is appended
to the set at `b`. -/
def SliceHeap.relocate (grow : Nat) (h : SliceHeap) (a mi b : Nat) (msg : MessageBlock) :
    Option SliceHeap :=
  (h.removeAt a mi).bind fun h1 => h1.appendTo grow b msg

/-- The slices of `existingDestinationState`: each set has its own array. -/
def existingDestinationSlices : SliceHeap :=
  ⟨[[some ⟨0, msgOf 1⟩, some ⟨0, msgOf 2⟩], [some ⟨0, msgOf 5⟩]], [⟨0, 0, 2, 2⟩, ⟨1, 0, 1, 1⟩]⟩

/-- Two message sets, different objects, whose `Messages` are slices over one array holding
the messages of value 1 and of value 2. -/
def sharedArraySlices : SliceHeap :=
  ⟨[[some ⟨0, msgOf 1⟩, some ⟨0, msgOf 2⟩]], [⟨0, 0, 2, 2⟩, ⟨0, 0, 2, 2⟩]⟩

set_option maxRecDepth 100000

theorem int16OfBytes_be16 (x : Int) (hx : isInt16 x) :
    int16OfBytes ((x % 65536).toNat / 256) ((x % 65536).toNat % 256) = x := by
  unfold isInt16 at hx
  unfold int16OfBytes
  simp only
  have h1 : (x % 65536).toNat / 256 * 256 + (x % 65536).toNat % 256 = (x % 65536).toNat := by
    omega
  rw [h1]
  split <;> omega

theorem getInt16_be16 (x : Int) (hx : isInt16 x) (rest : Bytes) :
    getInt16 (be16 x ++ rest) = Result.ok (x, rest) := by
  simp only [be16, getInt16, List.cons_append, List.nil_append]
  rw [int16OfBytes_be16 x hx]

theorem int32OfBytes_be32 (x : Int) (hx : isInt32 x) :
    int32OfBytes ((x % 4294967296).toNat / 16777216) ((x % 4294967296).toNat / 65536 % 256)
      ((x % 4294967296).toNat / 256 % 256) ((x % 4294967296).toNat % 256) = x := by
  unfold isInt32 at hx
  unfold int32OfBytes
  simp only
  have h1 : (x % 4294967296).toNat / 16777216 * 16777216
      + (x % 4294967296).toNat / 65536 % 256 * 65536
      + (x % 4294967296).toNat / 256 % 256 * 256 + (x % 4294967296).toNat % 256
      = (x % 4294967296).toNat := by
    omega
  rw [h1]
  split <;> omega

theorem getInt32_be32 (x : Int) (hx : isInt32 x) (rest : Bytes) :
    getInt32 (be32 x ++ rest) = Result.ok (x, rest) := by
  simp only [be32, getInt32, List.cons_append, List.nil_append]
  rw [int32OfBytes_be32 x hx]


/-! ## Sequencing of outcomes -/

@[simp] theorem Result.bind_ok {α β : Type} (a : α) (f : α → Result β) :
    (Result.ok a).bind f = f a := rfl

@[simp] theorem Result.bind_error {α β : Type} (e : String) (f : α → Result β) :
    (Result.error e : Result α).bind f = Result.error e := rfl

@[simp] theorem Result.bind_panic {α β : Type} (f : α → Result β) :
    (Result.panic : Result α).bind f = Result.panic := rfl

/-! ## The cursor: what is written is what is read -/

theorem getArrayLength_be32 (n : Nat) (hn : n ≤ 2147483647) (rest : Bytes) :
    getArrayLength (be32 (n : Int) ++ rest) = Result.ok (n, rest) := by
  unfold getArrayLength
  rw [getInt32_be32 (n : Int) (by unfold isInt32; omega)]
  simp

theorem getRawBytes_append (body rest : Bytes) (hb : body.length ≤ 2147483647) :
    getRawBytes (body ++ rest) (body.length : Int) = Result.ok (body, rest) := by
  unfold getRawBytes
  have h1 : ¬ ((body.length : Int) < 0) := by omega
  have h2 : ¬ (((body ++ rest).length : Int) < (body.length : Int)) := by
    simp only [List.length_append]; omega
  simp only [h1, h2, if_false, Int.toNat_ofNat, List.take_left', List.drop_left']

theorem getString_wire (str rest : Bytes) (hs : str.length ≤ 32767) :
    getString (be16 (str.length : Int) ++ str ++ rest) = Result.ok (str, rest) := by
  unfold getString
  rw [List.append_assoc, getInt16_be16 (str.length : Int) (by unfold isInt16; omega)]
  simp only [Result.bind_ok]
  exact getRawBytes_append str rest (by omega)

theorem getNullableString_wire (str : Option Bytes) (rest : Bytes)
    (hs : ∀ t ∈ str, t.length ≤ 32767) :
    getNullableString (wireNullableString str ++ rest) = Result.ok (str, rest) := by
  unfold getNullableString
  cases str with
  | none =>
    simp only [wireNullableString]
    rw [getInt16_be16 (-1) (by unfold isInt16; omega)]
    simp
  | some t =>
    have ht : t.length ≤ 32767 := hs t rfl
    simp only [wireNullableString]
    rw [List.append_assoc, getInt16_be16 (t.length : Int) (by unfold isInt16; omega)]
    have h1 : ¬ ((t.length : Int) = -1) := by omega
    simp only [Result.bind_ok, h1, if_false]
    rw [getRawBytes_append t rest (by omega)]
    simp

theorem pop_push_write (pe : packetEncoder) (body : Bytes) :
    (pe.push.write body).pop
      = Result.ok { raw := pe.raw ++ be32 (body.length : Int) ++ body, stack := pe.stack } := by
  simp only [packetEncoder.pop, packetEncoder.push, packetEncoder.write]
  have h1 : (pe.raw ++ [0, 0, 0, 0] ++ body).length - pe.raw.length - 4 = body.length := by
    simp only [List.length_append, List.length_cons, List.length_nil]; omega
  have h2 : List.take pe.raw.length (pe.raw ++ [0, 0, 0, 0] ++ body) = pe.raw := by
    rw [List.append_assoc, List.take_left']
    rfl
  have h3 : List.drop (pe.raw.length + 4) (pe.raw ++ [0, 0, 0, 0] ++ body) = body := by
    have : pe.raw.length + 4 = (pe.raw ++ [0, 0, 0, 0]).length := by simp
    rw [this, List.drop_left']
    rfl
  rw [h1, h2, h3]

/-! ## Encode writes the wire layout -/

theorem roundTripsOn_spec (codec : RecordsCodec) (h : Heap) (c : Records)
    (hc : codec.roundTripsOn h c = true) :
    ∃ v, c.load h = Result.ok v ∧ codec.encode v = Result.ok (c.body codec h) ∧
      (c.body codec h).length ≤ 2147483647 ∧ codec.decode (c.body codec h) = Result.ok v := by
  unfold RecordsCodec.roundTripsOn at hc
  cases hl : c.load h with
  | ok v =>
    rw [hl] at hc
    simp only at hc
    cases he : codec.encode v with
    | ok bs =>
      rw [he] at hc
      simp only [Bool.and_eq_true, decide_eq_true_eq] at hc
      refine ⟨v, rfl, ?_, ?_, ?_⟩
      · simp [Records.body, hl, he]
      · simpa [Records.body, hl, he] using hc.1
      · simpa [Records.body, hl, he] using hc.2
    | error e => rw [he] at hc; simp at hc
    | panic => rw [he] at hc; simp at hc
  | error e => rw [hl] at hc; simp at hc
  | panic => rw [hl] at hc; simp at hc

theorem write_write (pe : packetEncoder) (a b : Bytes) :
    (pe.write a).write b = pe.write (a ++ b) := by
  simp [packetEncoder.write, List.append_assoc]

theorem write_nil (pe : packetEncoder) : pe.write [] = pe := by
  simp [packetEncoder.write]

/-- One partition of the encode loop: partition index, backfilled length, container bytes. -/
theorem encode_one_partition (codec : RecordsCodec) (h : Heap) (c : Records) (id : Int)
    (pe : packetEncoder) (hc : codec.roundTripsOn h c = true) :
    ((c.encode codec h (pe.putInt32 id).push).bind fun pe1 => pe1.pop)
      = Result.ok (pe.write (be32 id ++ be32 ((c.body codec h).length : Int) ++ c.body codec h)) := by
  obtain ⟨v, hl, he, -, -⟩ := roundTripsOn_spec codec h c hc
  simp only [Records.encode, hl, he, Result.bind_ok, pop_push_write]
  simp [packetEncoder.putInt32, packetEncoder.write, List.append_assoc]

theorem encodePartitions_wire (fl : Float64Ratio) (codec : RecordsCodec) (h : Heap)
    (version : Int) (topic : Bytes) (ps : List (Int × Records))
    (hps : ∀ p ∈ ps, codec.roundTripsOn h p.2 = true)
    (pe : packetEncoder) (log : List MetricEvent) (n : Int) :
    encodePartitions fl codec h version false topic ps pe log n
      = Result.ok (pe.write (wirePartitions (ps.map fun p => (p.1, p.2.body codec h))), log, n) := by
  induction ps generalizing pe with
  | nil => simp [encodePartitions, wirePartitions, write_nil]
  | cons p rest ih =>
    obtain ⟨id, c⟩ := p
    have hc : codec.roundTripsOn h c = true := hps (id, c) (List.mem_cons_self _ _)
    have h1 := encode_one_partition codec h c id pe hc
    cases hr : c.encode codec h (pe.putInt32 id).push with
    | ok pe1 =>
      rw [hr] at h1
      simp only [Result.bind_ok] at h1
      simp only [encodePartitions, hr, Result.bind_ok, h1, Bool.false_eq_true, if_false]
      rw [ih (fun p hp => hps p (List.mem_cons_of_mem _ hp))]
      simp [write_write, wirePartitions, List.append_assoc]
    | error e => rw [hr] at h1; simp at h1
    | panic => rw [hr] at h1; simp at h1

theorem encodeTopics_wire (fl : Float64Ratio) (codec : RecordsCodec) (h : Heap)
    (version : Int) (m : GoMap Bytes (GoMap Int Records))
    (hm : ∀ e ∈ m, ∀ p ∈ e.2, codec.roundTripsOn h p.2 = true)
    (hfit : ∀ e ∈ m, e.1.length ≤ 32767 ∧ e.2.length ≤ 2147483647)
    (pe : packetEncoder) (log : List MetricEvent) (n : Int) :
    encodeTopics fl codec h version false m pe log n
      = Result.ok (pe.write (wireTopics (bodiesOf codec h m)), log, n) := by
  induction m generalizing pe with
  | nil => simp [encodeTopics, wireTopics, bodiesOf, write_nil]
  | cons e rest ih =>
    obtain ⟨topic, ps⟩ := e
    have hf := hfit (topic, ps) (List.mem_cons_self _ _)
    have h1 : ¬ (topic.length > 32767) := by have := hf.1; simp only at this; omega
    have h2 : ¬ (ps.length > 2147483647) := by have := hf.2; simp only at this; omega
    simp only [encodeTopics, packetEncoder.putString, packetEncoder.putArrayLength, h1, h2,
      if_false, Result.bind_ok]
    rw [encodePartitions_wire fl codec h version topic ps
      (fun p hp => hm (topic, ps) (List.mem_cons_self _ _) p hp)]
    simp only [Result.bind_ok, gt_iff_lt, lt_self_iff_false, if_false]
    rw [ih (fun e he => hm e (List.mem_cons_of_mem _ he))
      (fun e he => hfit e (List.mem_cons_of_mem _ he))]
    simp [write_write, wireTopics, bodiesOf, packetEncoder.putInt16, packetEncoder.putInt32,
      List.append_assoc]

/-- Without a metrics registry, `encode` appends the wire layout of the request to the cursor,
leaves the open length fields alone and performs no sink operation. -/
theorem encode_wire (fl : Float64Ratio) (codec : RecordsCodec) (h : Heap) (r : ProduceRequest)
    (hm : ∀ e ∈ r.records.getD [], ∀ p ∈ e.2, codec.roundTripsOn h p.2 = true)
    (hfit : r.fitsWire) (pe : packetEncoder) (log : List MetricEvent) :
    encode fl codec h r false pe log
      = Result.ok (pe.write (wireRequest r.Version r.TransactionalID r.RequiredAcks r.Timeout
          (bodiesOf codec h (r.records.getD []))), log) := by
  obtain ⟨htid, hlen, hfit2⟩ := hfit
  have h2 : ¬ ((r.records.getD []).length > 2147483647) := by omega
  have hns : r.Version ≥ 3 → ∀ pe0 : packetEncoder, pe0.putNullableString r.TransactionalID
      = Result.ok (pe0.write (wireNullableString r.TransactionalID)) := by
    intro hv3 pe0
    cases ht : r.TransactionalID with
    | none => simp [packetEncoder.putNullableString, wireNullableString, packetEncoder.putInt16]
    | some t =>
      have : ¬ (t.length > 32767) := by have := htid hv3 t ht; omega
      simp [packetEncoder.putNullableString, packetEncoder.putString, wireNullableString,
        packetEncoder.putInt16, write_write, this]
  unfold encode
  by_cases hv : r.Version ≥ 3
  · simp only [hv, if_true, hns hv, Result.bind_ok, packetEncoder.putArrayLength, h2, if_false]
    rw [encodeTopics_wire fl codec h r.Version _ hm hfit2]
    simp [write_write, wireRequest, wireBody, hv, packetEncoder.putInt16, packetEncoder.putInt32,
      List.append_assoc, bodiesOf]
  · simp only [hv, if_false, Result.bind_ok, packetEncoder.putArrayLength, h2]
    rw [encodeTopics_wire fl codec h r.Version _ hm hfit2]
    simp [write_write, wireRequest, wireBody, hv, packetEncoder.putInt16, packetEncoder.putInt32,
      List.append_assoc, bodiesOf]

/-! ## Association lists -/

theorem GoMap.set_of_not_mem {κ ν : Type} [DecidableEq κ] (m : GoMap κ ν) (k : κ) (v : ν)
    (hk : k ∉ m.keys) : m.set k v = m ++ [(k, v)] := by
  induction m with
  | nil => rfl
  | cons e rest ih =>
    obtain ⟨k1, v1⟩ := e
    simp only [GoMap.keys, List.map_cons, List.mem_cons, not_or] at hk
    have h1 : ¬ (k1 = k) := fun h => hk.1 h.symm
    simp only [GoMap.set, h1, if_false, List.cons_append]
    rw [ih hk.2]

theorem GoMap.get?_append_last {κ ν : Type} [DecidableEq κ] (m : GoMap κ ν) (k : κ) (v : ν)
    (hk : k ∉ m.keys) : GoMap.get? (m ++ [(k, v)]) k = some v := by
  induction m with
  | nil => simp [GoMap.get?]
  | cons e rest ih =>
    obtain ⟨k1, v1⟩ := e
    simp only [GoMap.keys, List.map_cons, List.mem_cons, not_or] at hk
    have h1 : ¬ (k1 = k) := fun h => hk.1 h.symm
    simp only [List.cons_append, GoMap.get?, h1, if_false]
    exact ih hk.2

theorem GoMap.set_append_last {κ ν : Type} [DecidableEq κ] (m : GoMap κ ν) (k : κ) (v w : ν)
    (hk : k ∉ m.keys) : GoMap.set (m ++ [(k, v)]) k w = m ++ [(k, w)] := by
  induction m with
  | nil => simp [GoMap.set]
  | cons e rest ih =>
    obtain ⟨k1, v1⟩ := e
    simp only [GoMap.keys, List.map_cons, List.mem_cons, not_or] at hk
    have h1 : ¬ (k1 = k) := fun h => hk.1 h.symm
    simp only [List.cons_append, GoMap.set, h1, if_false]
    exact congrArg _ (ih hk.2)

theorem GoMap.keys_append {κ ν : Type} (m n : GoMap κ ν) :
    GoMap.keys (m ++ n) = GoMap.keys m ++ GoMap.keys n := by
  simp [GoMap.keys]

/-! ## Heap extension keeps what was loaded -/

theorem Heap.includes_refl (h : Heap) : h.includes h :=
  ⟨⟨[], by simp⟩, ⟨[], by simp⟩⟩

theorem Heap.includes_trans {h3 h2 h1 : Heap} (h32 : h3.includes h2) (h21 : h2.includes h1) :
    h3.includes h1 := by
  obtain ⟨⟨a, ha⟩, ⟨b, hb⟩⟩ := h32
  obtain ⟨⟨c, hc⟩, ⟨d, hd⟩⟩ := h21
  exact ⟨⟨c ++ a, by rw [ha, hc, List.append_assoc]⟩, ⟨d ++ b, by rw [hb, hd, List.append_assoc]⟩⟩

theorem Heap.msgSet_includes {h2 h1 : Heap} (hx : h2.includes h1) (p : Option Nat)
    (s : MessageSet) (hp : h1.msgSet p = Result.ok s) : h2.msgSet p = Result.ok s := by
  obtain ⟨⟨a, ha⟩, -⟩ := hx
  cases p with
  | none => simp [Heap.msgSet] at hp
  | some i =>
    simp only [Heap.msgSet] at hp ⊢
    cases hg : h1.msgSets[i]? with
    | none => rw [hg] at hp; simp at hp
    | some s1 =>
      rw [hg] at hp
      have hlt : i < h1.msgSets.length := by
        by_contra hc
        rw [List.getElem?_eq_none (by omega)] at hg
        simp at hg
      have : h2.msgSets[i]? = some s1 := by
        rw [ha, List.getElem?_append_left hlt]; exact hg
      rw [this]; exact hp

theorem Heap.batch_includes {h2 h1 : Heap} (hx : h2.includes h1) (p : Option Nat)
    (b : RecordBatch) (hp : h1.batch p = Result.ok b) : h2.batch p = Result.ok b := by
  obtain ⟨-, ⟨a, ha⟩⟩ := hx
  cases p with
  | none => simp [Heap.batch] at hp
  | some i =>
    simp only [Heap.batch] at hp ⊢
    cases hg : h1.batches[i]? with
    | none => rw [hg] at hp; simp at hp
    | some s1 =>
      rw [hg] at hp
      have hlt : i < h1.batches.length := by
        by_contra hc
        rw [List.getElem?_eq_none (by omega)] at hg
        simp at hg
      have : h2.batches[i]? = some s1 := by
        rw [ha, List.getElem?_append_left hlt]; exact hg
      rw [this]; exact hp

theorem Records.load_includes {h2 h1 : Heap} (hx : h2.includes h1) (c : Records) (v : RecordsVal)
    (hl : c.load h1 = Result.ok v) : c.load h2 = Result.ok v := by
  obtain ⟨t, ms, rb⟩ := c
  cases ms with
  | none =>
    cases rb with
    | none => simpa [Records.load] using hl
    | some b =>
      simp only [Records.load, Result.bind_ok] at hl ⊢
      cases hb : h1.batch (some b) with
      | ok x => rw [Heap.batch_includes hx _ _ hb]; rw [hb] at hl; exact hl
      | error e => rw [hb] at hl; simp at hl
      | panic => rw [hb] at hl; simp at hl
  | some a =>
    simp only [Records.load] at hl ⊢
    cases ha : h1.msgSet (some a) with
    | ok x =>
      rw [Heap.msgSet_includes hx _ _ ha]; rw [ha] at hl
      cases rb with
      | none => exact hl
      | some b =>
        simp only [Result.bind_ok] at hl ⊢
        cases hb : h1.batch (some b) with
        | ok y => rw [Heap.batch_includes hx _ _ hb]; rw [hb] at hl; exact hl
        | error e => rw [hb] at hl; simp at hl
        | panic => rw [hb] at hl; simp at hl
    | error e => rw [ha] at hl; simp at hl
    | panic => rw [ha] at hl; simp at hl

theorem Heap.store_includes (h : Heap) (v : RecordsVal) : (h.store v).1.includes h := by
  obtain ⟨t, ms, rb⟩ := v
  cases ms <;> cases rb <;> simp [Heap.store, Heap.includes]

theorem Heap.store_load (h : Heap) (v : RecordsVal) :
    (h.store v).2.load (h.store v).1 = Result.ok v := by
  obtain ⟨t, ms, rb⟩ := v
  cases ms <;> cases rb <;> simp [Heap.store, Records.load, Heap.msgSet, Heap.batch]

/-! ## Decode reads the wire layout back -/

theorem sameContainer_includes {h3 h2 h : Heap} (hx : h3.includes h2) {p2 p : Int × Records}
    (hs : SameContainer h2 h p2 p) : SameContainer h3 h p2 p := by
  obtain ⟨hk, v, h1, h2'⟩ := hs
  exact ⟨hk, v, Records.load_includes hx _ _ h1, h2'⟩

theorem setAt_last (r : ProduceRequest) (M : GoMap Bytes (GoMap Int Records)) (topic : Bytes)
    (inner : GoMap Int Records) (id : Int) (c : Records) (hM : topic ∉ GoMap.keys M) :
    ProduceRequest.setAt { r with records := some (M ++ [(topic, inner)]) } topic id c
      = Result.ok { r with records := some (M ++ [(topic, GoMap.set inner id c)]) } := by
  simp only [ProduceRequest.setAt, GoMap.get?_append_last M topic inner hM,
    GoMap.set_append_last M topic _ _ hM]

/-- The decode loop over partitions reads back what the encode loop wrote: it consumes exactly
the wire bytes of the partitions and adds, in order, one entry per partition whose container
has the contents of the original. -/
theorem decodePartitions_wire (codec : RecordsCodec) (h : Heap) (topic : Bytes) (rest : Bytes)
    (ps : List (Int × Records))
    (hps : ∀ p ∈ ps, codec.roundTripsOn h p.2 = true)
    (hid : ∀ p ∈ ps, isInt32 p.1)
    (hnd : (GoMap.keys ps).Nodup)
    (r : ProduceRequest) (M : GoMap Bytes (GoMap Int Records)) (hM : topic ∉ GoMap.keys M)
    (h1 : Heap) (inner : GoMap Int Records) (hin : ∀ p ∈ ps, p.1 ∉ GoMap.keys inner) :
    ∃ h2 ps2,
      decodePartitions codec topic ps.length
          (wirePartitions (ps.map fun p => (p.1, p.2.body codec h)) ++ rest)
          (h1, { r with records := some (M ++ [(topic, inner)]) })
        = Result.ok ((h2, { r with records := some (M ++ [(topic, inner ++ ps2)]) }), rest) ∧
      List.Forall₂ (SameContainer h2 h) ps2 ps ∧ h2.includes h1 := by
  induction ps generalizing h1 inner with
  | nil =>
    exact ⟨h1, [], by simp [decodePartitions, wirePartitions], List.Forall₂.nil,
      Heap.includes_refl h1⟩
  | cons p tl ih =>
    obtain ⟨id, c⟩ := p
    obtain ⟨v, hl, -, hlen, hdec⟩ := roundTripsOn_spec codec h c (hps (id, c) (List.mem_cons_self _ _))
    have hidc : isInt32 id := hid (id, c) (List.mem_cons_self _ _)
    have hnotin : id ∉ GoMap.keys inner := hin (id, c) (List.mem_cons_self _ _)
    simp only [GoMap.keys, List.map_cons, List.nodup_cons] at hnd
    have hin2 : ∀ p ∈ tl, p.1 ∉ GoMap.keys (inner ++ [(id, (h1.store v).2)]) := by
      intro p hp
      rw [GoMap.keys_append]
      simp only [GoMap.keys, List.map_cons, List.map_nil, List.mem_append, List.mem_singleton,
        not_or]
      refine ⟨hin p (List.mem_cons_of_mem _ hp), ?_⟩
      intro heq
      exact hnd.1 (heq ▸ List.mem_map_of_mem Prod.fst hp)
    obtain ⟨h3, ps3, hdecode, hsame, hext⟩ :=
      ih (fun p hp => hps p (List.mem_cons_of_mem _ hp))
        (fun p hp => hid p (List.mem_cons_of_mem _ hp)) hnd.2
        (h1.store v).1 (inner ++ [(id, (h1.store v).2)]) hin2
    refine ⟨h3, (id, (h1.store v).2) :: ps3, ?_, ?_, ?_⟩
    · simp only [List.map_cons, wirePartitions, List.length_cons, decodePartitions,
        List.append_assoc]
      rw [getInt32_be32 id hidc]
      simp only [Result.bind_ok]
      rw [getInt32_be32 _ (by unfold isInt32; omega)]
      simp only [Result.bind_ok, getSubset]
      rw [getRawBytes_append _ _ hlen]
      simp only [Result.bind_ok, hdec]
      rw [setAt_last r M topic inner id _ hM]
      simp only [Result.bind_ok, GoMap.set_of_not_mem inner id _ hnotin]
      rw [hdecode]
      simp [List.append_assoc]
    · refine List.Forall₂.cons ⟨rfl, v, ?_, hl⟩ hsame
      exact Records.load_includes hext _ _ (Heap.store_load h1 v)
    · exact Heap.includes_trans hext (Heap.store_includes h1 v)

theorem sameTopic_includes {h3 h2 h : Heap} (hx : h3.includes h2)
    {e2 e : Bytes × GoMap Int Records} (hs : SameTopic h2 h e2 e) : SameTopic h3 h e2 e :=
  ⟨hs.1, hs.2.imp fun _ _ hc => sameContainer_includes hx hc⟩

/-- The decode loop over topics reads back what the encode loop wrote. -/
theorem decodeTopics_wire (codec : RecordsCodec) (h : Heap) (rest : Bytes)
    (m : GoMap Bytes (GoMap Int Records))
    (hm : ∀ e ∈ m, ∀ p ∈ e.2, codec.roundTripsOn h p.2 = true)
    (hid : ∀ e ∈ m, ∀ p ∈ e.2, isInt32 p.1)
    (hfit : ∀ e ∈ m, e.1.length ≤ 32767 ∧ e.2.length ≤ 2147483647)
    (hnd : (GoMap.keys m).Nodup)
    (hndp : ∀ e ∈ m, (GoMap.keys e.2).Nodup)
    (r : ProduceRequest) (h1 : Heap) (M : GoMap Bytes (GoMap Int Records))
    (hM : ∀ e ∈ m, e.1 ∉ GoMap.keys M) :
    ∃ h2 m2,
      decodeTopics codec m.length (wireTopics (bodiesOf codec h m) ++ rest)
          (h1, { r with records := some M })
        = Result.ok ((h2, { r with records := some (M ++ m2) }), rest) ∧
      List.Forall₂ (SameTopic h2 h) m2 m ∧ h2.includes h1 := by
  induction m generalizing h1 M with
  | nil =>
    exact ⟨h1, [], by simp [decodeTopics, wireTopics, bodiesOf], List.Forall₂.nil,
      Heap.includes_refl h1⟩
  | cons e tl ih =>
    obtain ⟨topic, ps⟩ := e
    have hf := hfit (topic, ps) (List.mem_cons_self _ _)
    have hnotin : topic ∉ GoMap.keys M := hM (topic, ps) (List.mem_cons_self _ _)
    simp only [GoMap.keys, List.map_cons, List.nodup_cons] at hnd
    obtain ⟨h2, ps2, hdp, hsame, hext⟩ :=
      decodePartitions_wire codec h topic (wireTopics (bodiesOf codec h tl) ++ rest) ps
        (hm (topic, ps) (List.mem_cons_self _ _)) (hid (topic, ps) (List.mem_cons_self _ _))
        (hndp (topic, ps) (List.mem_cons_self _ _)) r M hnotin h1 []
        (fun _ _ => by simp [GoMap.keys])
    have hM2 : ∀ e ∈ tl, e.1 ∉ GoMap.keys (M ++ [(topic, ps2)]) := by
      intro e he
      rw [GoMap.keys_append]
      simp only [GoMap.keys, List.map_cons, List.map_nil, List.mem_append, List.mem_singleton,
        not_or]
      refine ⟨hM e (List.mem_cons_of_mem _ he), ?_⟩
      intro heq
      exact hnd.1 (heq ▸ List.mem_map_of_mem Prod.fst he)
    obtain ⟨h3, m3, hdt, hsame3, hext3⟩ :=
      ih (fun e he => hm e (List.mem_cons_of_mem _ he))
        (fun e he => hid e (List.mem_cons_of_mem _ he))
        (fun e he => hfit e (List.mem_cons_of_mem _ he)) hnd.2
        (fun e he => hndp e (List.mem_cons_of_mem _ he)) h2 (M ++ [(topic, ps2)]) hM2
    refine ⟨h3, (topic, ps2) :: m3, ?_, ?_, Heap.includes_trans hext3 hext⟩
    · simp only [bodiesOf, List.map_cons, wireTopics, List.length_cons, decodeTopics,
        List.append_assoc]
      have hgs := getString_wire topic
        (be32 (ps.length : Int) ++ (wirePartitions (ps.map fun p => (p.1, p.2.body codec h))
          ++ (wireTopics (bodiesOf codec h tl) ++ rest))) hf.1
      simp only [List.append_assoc, List.length_map, bodiesOf] at hgs ⊢
      rw [hgs]
      simp only [Result.bind_ok]
      rw [getArrayLength_be32 _ hf.2]
      simp only [Result.bind_ok, ProduceRequest.setTopic, GoMap.set_of_not_mem M topic _ hnotin]
      simp only [List.nil_append, bodiesOf] at hdp
      rw [hdp]
      simp only [Result.bind_ok]
      simp only [bodiesOf] at hdt
      rw [hdt]
      simp [List.append_assoc]
    · exact List.Forall₂.cons (sameTopic_includes hext3 ⟨rfl, hsame⟩) hsame3

theorem viewPartitions_of_same {h2 h : Heap} {ps2 ps : GoMap Int Records}
    (hs : List.Forall₂ (SameContainer h2 h) ps2 ps) :
    viewPartitions h2 ps2 = viewPartitions h ps := by
  induction hs with
  | nil => rfl
  | cons hd _ ih =>
    obtain ⟨hk, v, ha, hb⟩ := hd
    simp only [viewPartitions, List.map_cons] at ih ⊢
    rw [ih, hk, ha, hb]

theorem viewTopics_of_same {h2 h : Heap} {m2 m : GoMap Bytes (GoMap Int Records)}
    (hs : List.Forall₂ (SameTopic h2 h) m2 m) : viewTopics h2 m2 = viewTopics h m := by
  induction hs with
  | nil => rfl
  | cons hd _ ih =>
    simp only [viewTopics, List.map_cons] at ih ⊢
    rw [ih, hd.1, viewPartitions_of_same hd.2]

/-! ## Attaching keeps the mapping a map -/

theorem GoMap.get?_set_self {κ ν : Type} [DecidableEq κ] (m : GoMap κ ν) (k : κ) (v : ν) :
    GoMap.get? (GoMap.set m k v) k = some v := by
  induction m with
  | nil => simp [GoMap.set, GoMap.get?]
  | cons e rest ih =>
    obtain ⟨k1, v1⟩ := e
    by_cases h : k1 = k
    · simp [GoMap.set, GoMap.get?, h]
    · simp [GoMap.set, GoMap.get?, h, ih]

theorem GoMap.set_set {κ ν : Type} [DecidableEq κ] (m : GoMap κ ν) (k : κ) (v w : ν) :
    GoMap.set (GoMap.set m k v) k w = GoMap.set m k w := by
  induction m with
  | nil => simp [GoMap.set]
  | cons e rest ih =>
    obtain ⟨k1, v1⟩ := e
    by_cases h : k1 = k
    · simp [GoMap.set, h]
    · simp [GoMap.set, h, ih]

theorem GoMap.mem_of_get? {κ ν : Type} [DecidableEq κ] (m : GoMap κ ν) (k : κ) (v : ν)
    (h : GoMap.get? m k = some v) : (k, v) ∈ m := by
  induction m with
  | nil => simp [GoMap.get?] at h
  | cons e rest ih =>
    obtain ⟨k1, v1⟩ := e
    by_cases hk : k1 = k
    · simp only [GoMap.get?, hk, if_true, Option.some.injEq] at h
      simp [hk, h]
    · simp only [GoMap.get?, hk, if_false] at h
      exact List.mem_cons_of_mem _ (ih h)

theorem GoMap.mem_set {κ ν : Type} [DecidableEq κ] (m : GoMap κ ν) (k : κ) (v : ν)
    (e : κ × ν) (h : e ∈ GoMap.set m k v) : e = (k, v) ∨ e ∈ m := by
  induction m with
  | nil => simpa [GoMap.set] using h
  | cons e1 rest ih =>
    obtain ⟨k1, v1⟩ := e1
    by_cases hk : k1 = k
    · simp only [GoMap.set, hk, if_true, List.mem_cons] at h
      rcases h with h | h
      · exact Or.inl h
      · exact Or.inr (List.mem_cons_of_mem _ h)
    · simp only [GoMap.set, hk, if_false, List.mem_cons] at h
      rcases h with h | h
      · exact Or.inr (h ▸ List.mem_cons_self _ _)
      · rcases ih h with h2 | h2
        · exact Or.inl h2
        · exact Or.inr (List.mem_cons_of_mem _ h2)

theorem GoMap.mem_keys_set {κ ν : Type} [DecidableEq κ] (m : GoMap κ ν) (k : κ) (v : ν)
    (x : κ) (h : x ∈ GoMap.keys (GoMap.set m k v)) : x = k ∨ x ∈ GoMap.keys m := by
  simp only [GoMap.keys, List.mem_map] at h ⊢
  obtain ⟨e, he, hx⟩ := h
  rcases GoMap.mem_set m k v e he with h1 | h1
  · exact Or.inl (by rw [← hx, h1])
  · exact Or.inr ⟨e, h1, hx⟩

theorem GoMap.nodup_keys_set {κ ν : Type} [DecidableEq κ] (m : GoMap κ ν) (k : κ) (v : ν)
    (h : (GoMap.keys m).Nodup) : (GoMap.keys (GoMap.set m k v)).Nodup := by
  induction m with
  | nil => simp [GoMap.set, GoMap.keys]
  | cons e rest ih =>
    obtain ⟨k1, v1⟩ := e
    simp only [GoMap.keys, List.map_cons, List.nodup_cons] at h
    by_cases hk : k1 = k
    · simp only [GoMap.set, hk, if_true, GoMap.keys, List.map_cons, List.nodup_cons]
      exact ⟨hk ▸ h.1, h.2⟩
    · simp only [GoMap.set, hk, if_false, GoMap.keys, List.map_cons, List.nodup_cons]
      refine ⟨?_, ih h.2⟩
      intro hmem
      rcases GoMap.mem_keys_set rest k v k1 hmem with h1 | h1
      · exact hk h1
      · exact h.1 h1

theorem GoMap.set_ne_nil {κ ν : Type} [DecidableEq κ] (m : GoMap κ ν) (k : κ) (v : ν) :
    GoMap.set m k v ≠ [] := by
  cases m with
  | nil => simp [GoMap.set]
  | cons e rest =>
    obtain ⟨k1, v1⟩ := e
    by_cases hk : k1 = k <;> simp [GoMap.set, hk]

/-- The effect on the request of `ensureRecords` followed by `r.records[topic][partition] = recs`,
the common part of the three attach methods. -/
theorem ensure_setAt (r : ProduceRequest) (topic : Bytes) (partition : Int) (recs : Records) :
    (ensureRecords r topic partition).setAt topic partition recs
      = Result.ok { r with records := some (GoMap.set (r.records.getD []) topic
          (GoMap.set ((GoMap.get? (r.records.getD []) topic).getD []) partition recs)) } := by
  cases hg : GoMap.get? (r.records.getD []) topic with
  | some inner => simp [ensureRecords, ProduceRequest.setAt, hg]
  | none => simp [ensureRecords, ProduceRequest.setAt, hg, GoMap.get?_set_self, GoMap.set_set]

/-- The invariants of an attach: the mapping stays a map, is not the empty non-nil map, and
no topic is left without partitions. -/
theorem set_set_invariants (r : ProduceRequest) (topic : Bytes) (partition : Int)
    (recs : Records) (r1 : ProduceRequest)
    (h1 : r1 = { r with records := some (GoMap.set (r.records.getD []) topic
          (GoMap.set ((GoMap.get? (r.records.getD []) topic).getD []) partition recs)) }) :
    r1.records ≠ some [] ∧ (r.distinctKeys → r1.distinctKeys) ∧
      (r.noEmptyTopic → r1.noEmptyTopic) := by
  subst h1
  refine ⟨?_, ?_, ?_⟩
  · simp [GoMap.set_ne_nil]
  · intro hd
    refine ⟨GoMap.nodup_keys_set _ _ _ hd.1, ?_⟩
    intro e he
    simp only [Option.getD_some] at he
    rcases GoMap.mem_set _ _ _ e he with h2 | h2
    · rw [h2]
      apply GoMap.nodup_keys_set
      cases hg : GoMap.get? (r.records.getD []) topic with
      | none => simp [GoMap.keys]
      | some inner => exact hd.2 _ (GoMap.mem_of_get? _ _ _ hg)
    · exact hd.2 e h2
  · intro hn e he
    simp only [Option.getD_some] at he
    rcases GoMap.mem_set _ _ _ e he with h2 | h2
    · rw [h2]; exact GoMap.set_ne_nil _ _ _
    · exact hn e h2

theorem ensureRecords_of_msgSet (r : ProduceRequest) (topic : Bytes) (partition : Int) (a : Nat)
    (h : ((ensureRecords r topic partition).atD topic partition).MsgSet = some a) :
    ensureRecords r topic partition = r ∧ r.records ≠ some [] := by
  cases hrec : r.records with
  | none =>
    simp [ensureRecords, hrec, GoMap.get?, ProduceRequest.atD, ProduceRequest.at?,
      ProduceRequest.partitionsOf, GoMap.set, Records.zero] at h
  | some m =>
    cases hg : GoMap.get? m topic with
    | none =>
      simp [ensureRecords, hrec, hg, ProduceRequest.atD, ProduceRequest.at?,
        ProduceRequest.partitionsOf, GoMap.get?_set_self, GoMap.get?, Records.zero] at h
    | some inner =>
      refine ⟨?_, ?_⟩
      · simp only [ensureRecords, hrec, Option.getD_some, hg]
        rw [← hrec]
      · intro hnil
        rw [Option.some.injEq] at hnil
        rw [hnil] at hg
        simp [GoMap.get?] at hg

/-- What one attach call keeps: the mapping is not the empty non-nil map afterwards, it stays a
map, no topic is left without partitions, and the scalar fields are untouched. -/
theorem attach_invariants (op : AttachOp) (s s1 : State) (h : op.run s = Result.ok s1) :
    s1.2.records ≠ some [] ∧ (s.2.distinctKeys → s1.2.distinctKeys) ∧
      (s.2.noEmptyTopic → s1.2.noEmptyTopic) := by
  cases op with
  | addSet topic partition set =>
    simp only [AttachOp.run, AddSet, bind, ensure_setAt, Result.bind_ok, pure,
      Result.ok.injEq] at h
    exact set_set_invariants s.2 topic partition _ s1.2 (by rw [← h])
  | addBatch topic partition batch =>
    simp only [AttachOp.run, AddBatch, bind, ensure_setAt, Result.bind_ok, pure,
      Result.ok.injEq] at h
    exact set_set_invariants s.2 topic partition _ s1.2 (by rw [← h])
  | addMessage topic partition msg =>
    simp only [AttachOp.run, AddMessage, bind, pure] at h
    cases hset : ((ensureRecords s.2 topic partition).atD topic partition).MsgSet with
    | none =>
      rw [hset] at h
      simp only [ensure_setAt, Result.bind_ok] at h
      cases hadd : addMessage s.1.newMessageSet.1 s.1.newMessageSet.2 msg with
      | ok h2 =>
        rw [hadd] at h
        simp only [Result.bind_ok, Result.ok.injEq] at h
        exact set_set_invariants s.2 topic partition _ s1.2 (by rw [← h])
      | error e => rw [hadd] at h; simp at h
      | panic => rw [hadd] at h; simp at h
    | some a =>
      rw [hset] at h
      simp only at h
      obtain ⟨he, hne⟩ := ensureRecords_of_msgSet s.2 topic partition a hset
      cases hadd : addMessage s.1 (some a) msg with
      | ok h2 =>
        rw [hadd] at h
        simp only [Result.bind_ok, Result.ok.injEq] at h
        rw [← h, he]
        exact ⟨hne, id, id⟩
      | error e => rw [hadd] at h; simp at h
      | panic => rw [hadd] at h; simp at h

theorem attachAll_invariants (ops : List AttachOp) (s s1 : State)
    (h : attachAll ops s = Result.ok s1) :
    (s.2.records ≠ some [] → s1.2.records ≠ some []) ∧
      (s.2.distinctKeys → s1.2.distinctKeys) ∧ (s.2.noEmptyTopic → s1.2.noEmptyTopic) := by
  induction ops generalizing s with
  | nil =>
    simp only [attachAll, Result.ok.injEq] at h
    subst h
    exact ⟨id, id, id⟩
  | cons op rest ih =>
    simp only [attachAll] at h
    cases hop : op.run s with
    | ok s2 =>
      rw [hop] at h
      simp only [Result.bind_ok] at h
      obtain ⟨a1, a2, a3⟩ := attach_invariants op s s2 hop
      obtain ⟨b1, b2, b3⟩ := ih s2 h
      exact ⟨fun _ => b1 a1, fun hd => b2 (a2 hd), fun hn => b3 (a3 hn)⟩
    | error e => rw [hop] at h; simp at h
    | panic => rw [hop] at h; simp at h

/-- Decode of the wire layout of a request, into a fresh request living in any heap `h1`:
succeeds, consumes exactly the layout, and rebuilds the mapping and the scalar fields. -/
theorem decode_wire (codec : RecordsCodec) (h : Heap) (r : ProduceRequest)
    (hcodec : ∀ e ∈ r.records.getD [], ∀ p ∈ e.2, codec.roundTripsOn h p.2 = true)
    (htyped : r.wellTyped) (hfit : r.fitsWire) (hkeys : r.distinctKeys)
    (hne : r.records ≠ some []) (h1 : Heap) (rest : Bytes) :
    ∃ s1 : State,
      decode codec (wireRequest r.Version r.TransactionalID r.RequiredAcks r.Timeout
          (bodiesOf codec h (r.records.getD [])) ++ rest) r.Version (h1, ProduceRequest.zero)
        = Result.ok (s1, rest) ∧
      s1.view = State.view (h, r) ∧ s1.2.RequiredAcks = r.RequiredAcks ∧
      s1.2.Timeout = r.Timeout ∧ s1.2.Version = r.Version ∧
      (r.Version ≥ 3 → s1.2.TransactionalID = r.TransactionalID) := by
  obtain ⟨hacks, htimeout, hids⟩ := htyped
  obtain ⟨htid, hlen, hfit2⟩ := hfit
  -- the part of decode after the optional transactional id
  have tail : ∀ r0 : ProduceRequest, r0.records = none →
      ∃ s1 : State,
        ((getInt16 (wireBody r.RequiredAcks r.Timeout (bodiesOf codec h (r.records.getD []))
            ++ rest)).bind fun requiredAcks =>
          (getInt32 requiredAcks.2).bind fun timeout =>
          (getArrayLength timeout.2).bind fun topicCount =>
          if topicCount.1 = 0 then
            Result.ok ((h1, ({ r0 with RequiredAcks := requiredAcks.1, Timeout := timeout.1 }
              : ProduceRequest)), topicCount.2)
          else decodeTopics codec topicCount.1 topicCount.2
            (h1, { r0 with RequiredAcks := requiredAcks.1, Timeout := timeout.1,
                           records := some [] }))
          = Result.ok (s1, rest) ∧
        s1.view = State.view (h, r) ∧ s1.2.RequiredAcks = r.RequiredAcks ∧
        s1.2.Timeout = r.Timeout ∧ s1.2.Version = r0.Version ∧
        s1.2.TransactionalID = r0.TransactionalID := by
    intro r0 hr0
    simp only [wireBody, List.append_assoc]
    rw [getInt16_be16 _ hacks]
    simp only [Result.bind_ok]
    rw [getInt32_be32 _ htimeout]
    simp only [Result.bind_ok, bodiesOf, List.length_map]
    rw [getArrayLength_be32 _ hlen]
    simp only [Result.bind_ok]
    cases hm : r.records.getD [] with
    | nil =>
      have hnone : r.records = none := by
        cases hrec : r.records with
        | none => rfl
        | some m =>
          rw [hrec] at hm hne
          simp only [Option.getD_some] at hm
          exact absurd (by rw [hm]) hne
      refine ⟨(h1, { r0 with RequiredAcks := r.RequiredAcks, Timeout := r.Timeout }), ?_, ?_,
        rfl, rfl, rfl, rfl⟩
      · simp [wireTopics]
      · simp [State.view, hr0, hnone]
    | cons e tl =>
      obtain ⟨h2, m2, hdt, hsame, -⟩ :=
        decodeTopics_wire codec h rest (e :: tl) (hm ▸ hcodec) (hm ▸ hids) (hm ▸ hfit2)
          (hm ▸ hkeys.1) (hm ▸ hkeys.2)
          { r0 with RequiredAcks := r.RequiredAcks, Timeout := r.Timeout } h1 []
          (fun _ _ => by simp [GoMap.keys])
      refine ⟨(h2, { r0 with RequiredAcks := r.RequiredAcks, Timeout := r.Timeout,
                             records := some ([] ++ m2) }), ?_, ?_, rfl, rfl, rfl, rfl⟩
      · simp only [List.length_cons, Nat.succ_ne_zero, if_false]
        simp only [bodiesOf, List.length_cons] at hdt
        exact hdt
      · have hsome : r.records = some (e :: tl) := by
          cases hrec : r.records with
          | none => rw [hrec] at hm; simp at hm
          | some m => rw [hrec] at hm; simpa using hm
        simp only [State.view, List.nil_append, Option.map_some', hsome]
        rw [viewTopics_of_same hsame]
  unfold decode wireRequest
  by_cases hv : r.Version ≥ 3
  · simp only [hv, if_true, List.append_assoc]
    rw [getNullableString_wire _ _ (htid hv)]
    simp only [Result.bind_ok]
    obtain ⟨s1, hd, hview, ha, ht, hver, htx⟩ :=
      tail { ProduceRequest.zero with Version := r.Version, TransactionalID := r.TransactionalID }
        rfl
    exact ⟨s1, hd, hview, ha, ht, hver, fun _ => htx⟩
  · simp only [hv, if_false, List.nil_append, Result.bind_ok]
    obtain ⟨s1, hd, hview, ha, ht, hver, -⟩ :=
      tail { ProduceRequest.zero with Version := r.Version } rfl
    exact ⟨s1, hd, hview, ha, ht, hver, fun h3 => h3.elim⟩

/-! ## More on association lists -/

theorem GoMap.not_mem_keys_of_get? {κ ν : Type} [DecidableEq κ] (m : GoMap κ ν) (k : κ)
    (h : GoMap.get? m k = none) : k ∉ GoMap.keys m := by
  induction m with
  | nil => simp [GoMap.keys]
  | cons e rest ih =>
    obtain ⟨k1, v1⟩ := e
    by_cases hk : k1 = k
    · simp [GoMap.get?, hk] at h
    · simp only [GoMap.get?, hk, if_false] at h
      simp only [GoMap.keys, List.map_cons, List.mem_cons, not_or]
      exact ⟨fun h2 => hk h2.symm, ih h⟩

theorem GoMap.get?_delete_of_ne {κ ν : Type} [DecidableEq κ] (m : GoMap κ ν) (k x : κ)
    (hx : x ≠ k) : GoMap.get? (GoMap.delete m k) x = GoMap.get? m x := by
  induction m with
  | nil => rfl
  | cons e rest ih =>
    obtain ⟨k1, v1⟩ := e
    by_cases hk : k1 = k
    · have h1 : ¬ (k1 = x) := fun h2 => hx (h2 ▸ hk)
      simp only [GoMap.delete, List.filter, hk, ne_eq, not_true_eq_false, decide_False,
        GoMap.get?]
      rw [← hk]
      simp only [h1, if_false]
      simpa [GoMap.delete, hk] using ih
    · simp only [GoMap.delete, List.filter, hk, ne_eq, not_false_eq_true, decide_True,
        GoMap.get?]
      by_cases h1 : k1 = x
      · simp [h1]
      · simp only [h1, if_false]
        simpa [GoMap.delete] using ih

theorem GoMap.get?_delete_self {κ ν : Type} [DecidableEq κ] (m : GoMap κ ν) (k : κ) :
    GoMap.get? (GoMap.delete m k) k = none := by
  induction m with
  | nil => rfl
  | cons e rest ih =>
    obtain ⟨k1, v1⟩ := e
    by_cases hk : k1 = k
    · simpa [GoMap.delete, List.filter, hk] using ih
    · simp only [GoMap.delete, List.filter, hk, ne_eq, not_false_eq_true, decide_True,
        GoMap.get?, if_false]
      simpa [GoMap.delete] using ih

theorem GoMap.delete_set_self {κ ν : Type} [DecidableEq κ] (m : GoMap κ ν) (k : κ) (v : ν) :
    GoMap.delete (GoMap.set m k v) k = GoMap.delete m k := by
  induction m with
  | nil => simp [GoMap.set, GoMap.delete, List.filter]
  | cons e rest ih =>
    obtain ⟨k1, v1⟩ := e
    by_cases hk : k1 = k
    · simp [GoMap.set, GoMap.delete, List.filter, hk]
    · simp only [GoMap.set, hk, if_false, GoMap.delete, List.filter, ne_eq, not_false_eq_true,
        decide_True, List.cons.injEq, true_and]
      simpa [GoMap.delete] using ih

theorem GoMap.mem_delete {κ ν : Type} [DecidableEq κ] (m : GoMap κ ν) (k : κ) (e : κ × ν)
    (h : e ∈ GoMap.delete m k) : e ∈ m ∧ e.1 ≠ k := by
  simpa [GoMap.delete] using h

theorem GoMap.get?_set_of_ne {κ ν : Type} [DecidableEq κ] (m : GoMap κ ν) (k x : κ) (v : ν)
    (hx : x ≠ k) : GoMap.get? (GoMap.set m k v) x = GoMap.get? m x := by
  induction m with
  | nil =>
    have h1 : ¬ (k = x) := fun h2 => hx h2.symm
    simp [GoMap.set, GoMap.get?, h1]
  | cons e rest ih =>
    obtain ⟨k1, v1⟩ := e
    by_cases hk : k1 = k
    · have h1 : ¬ (k = x) := fun h2 => hx h2.symm
      have h2 : ¬ (k1 = x) := fun h3 => hx (h3 ▸ hk)
      simp [GoMap.set, GoMap.get?, hk, h1]
    · by_cases h1 : k1 = x
      · subst h1
        simp [GoMap.set, GoMap.get?, hk]
      · simp [GoMap.set, GoMap.get?, hk, h1, ih]

theorem List.set_eq_self_of_getElem? {α : Type} (l : List α) (a : Nat) (x : α)
    (h : l[a]? = some x) : l.set a x = l := by
  apply List.ext_getElem?
  intro i
  have hlt : a < l.length := by
    by_contra hc
    rw [List.getElem?_eq_none (by omega)] at h
    simp at h
  by_cases hi : a = i
  · subst hi
    rw [List.getElem?_set_self hlt, h]
  · rw [List.getElem?_set_ne hi]

/-! ## The rewrite pass on a single matching message -/

/-- The topic loop passes over topics without an active rule and returns what the partition
loop of the first topic with an active rule returns, when that loop relocated a record. -/
theorem changeTopicTopics_first_active (rule : TopicRule) (s s1 : State) (T : Bytes)
    (l : List (Bytes × GoMap Int Records)) (v : GoMap Int Records)
    (honly : ∀ t ∈ GoMap.keys l, t ≠ T → rule.CheckClientTopicIsRule t = false)
    (hactive : rule.CheckClientTopicIsRule T = true)
    (hget : GoMap.get? l T = some v)
    (hp : changeTopicPartitions (rule.GetClientTopicRule T) s T v = Result.ok (some s1)) :
    changeTopicTopics rule s l = Result.ok (some s1) := by
  induction l with
  | nil => simp [GoMap.get?] at hget
  | cons e rest ih =>
    obtain ⟨t, w⟩ := e
    by_cases ht : t = T
    · subst ht
      simp only [GoMap.get?, if_true, Option.some.injEq] at hget
      subst hget
      simp only [changeTopicTopics, hactive, if_true, hp]
    · have hin : rule.CheckClientTopicIsRule t = false :=
        honly t (by simp [GoMap.keys]) ht
      simp only [GoMap.get?, ht, if_false] at hget
      simp only [changeTopicTopics, hin, Bool.false_eq_true, if_false]
      exact ih (fun x hx hne => honly x (by
        simp only [GoMap.keys, List.map_cons, List.mem_cons]
        exact Or.inr hx) hne) hget

/-- Relocation of the only message of the only partition of topic `T` to the absent topic `D`:
the heap is left as it was, `T` is removed and `D` holds the container under the same index. -/
theorem relocateMsg_single (ct : ClientTopicRule) (s : State)
    (m : GoMap Bytes (GoMap Int Records)) (T D : Bytes) (P : Int) (a : Nat)
    (msg : MessageBlock) (c : Records) (k : String)
    (hrec : s.2.records = some m) (hT : GoMap.get? m T = some [(P, c)])
    (hset : c.MsgSet = some a) (ha : s.1.msgSets[a]? = some ⟨[msg]⟩)
    (hD : ct.BrokerTopic k = D) (hDT : D ≠ T) (hDabs : GoMap.get? m D = none) :
    relocateMsg ct s T P c [msg] 0 msg k
      = Result.ok (s.1, { s.2 with records := some (GoMap.delete m T ++ [(D, [(P, c)])]) }) := by
  have hlt : a < s.1.msgSets.length := by
    by_contra hc
    rw [List.getElem?_eq_none (by omega)] at ha
    simp at ha
  have hat : s.2.atD T P = c := by
    simp [ProduceRequest.atD, ProduceRequest.at?, ProduceRequest.partitionsOf, hrec, hT,
      GoMap.get?]
  have hDnot : D ∉ GoMap.keys (GoMap.delete m T) :=
    GoMap.not_mem_keys_of_get? _ _ (by rw [GoMap.get?_delete_of_ne m T D hDT]; exact hDabs)
  have hdel : GoMap.delete [(P, c)] P = [] := by simp [GoMap.delete]
  have hprune : pruneAndEnsure s.2 T P 0 D
      = Result.ok { s.2 with records := some (GoMap.delete m T ++ [(D, [])]) } := by
    simp only [pruneAndEnsure, if_true, ProduceRequest.deleteAt, hrec, hT, hdel,
      ProduceRequest.partitionsOf, GoMap.get?_set_self, Option.getD_some, List.length_nil,
      ProduceRequest.deleteTopic, GoMap.delete_set_self, ProduceRequest.hasTopic,
      GoMap.get?_delete_of_ne m T D hDT, hDabs, Option.isSome_none, Bool.false_eq_true,
      if_false, ProduceRequest.setTopic, GoMap.set_of_not_mem _ D _ hDnot]
  have hat2 : ProduceRequest.at? { s.2 with records := some (GoMap.delete m T ++ [(D, [])]) }
      D P = none := by
    simp [ProduceRequest.at?, ProduceRequest.partitionsOf, GoMap.get?_append_last _ D _ hDnot,
      GoMap.get?]
  have hat3 : ProduceRequest.atD
      { s.2 with records := some (GoMap.delete m T ++ [(D, GoMap.set [] P c)]) } D P = c := by
    simp [ProduceRequest.atD, ProduceRequest.at?, ProduceRequest.partitionsOf,
      GoMap.get?_append_last _ D _ hDnot, GoMap.get?, GoMap.set]
  simp only [relocateMsg, bind, hat, hset, hD, Heap.setMessages, hlt, if_true, Result.bind_ok,
    Heap.msgSet, List.take_zero, List.nil_append, zero_add, List.drop_succ_cons, List.drop_zero,
    List.getElem?_set_self hlt, List.length_nil, hprune, hat2, List.length_set,
    setAt_last s.2 (GoMap.delete m T) D [] P c hDnot, hat3, List.set_set, pure]
  rw [List.set_eq_self_of_getElem? _ _ _ ha]
  simp [GoMap.set]

/-- Relocation of a single message. When `T` is the only topic of the
mapping with an active rule, `T` has the single partition `P` holding a legacy message set of
exactly one message `msg`, `msg` matches with rule key `k`, and the destination
`D = BrokerTopic(k)` differs from `T` and is not in the mapping, then `changeTopic` returns nil,
the heap is as before, the mapping is the old one without `T` and with the new entry `D`;
so `T` has no entry, `D`/`P` holds a legacy container whose message set is exactly `[msg]`, and
every other topic is unchanged. -/
theorem changeTopic_single_match (rule : TopicRule) (s : State)
    (m : GoMap Bytes (GoMap Int Records)) (T D : Bytes) (P : Int) (a : Nat)
    (msg : MessageBlock) (c : Records) (k : String)
    (hrec : s.2.records = some m) (hT : GoMap.get? m T = some [(P, c)])
    (htype : c.recordsType = RecordsType.legacyRecords) (hset : c.MsgSet = some a)
    (ha : s.1.msgSets[a]? = some ⟨[msg]⟩)
    (hactive : rule.CheckClientTopicIsRule T = true)
    (honly : ∀ t ∈ GoMap.keys m, t ≠ T → rule.CheckClientTopicIsRule t = false)
    (hmatch : (rule.GetClientTopicRule T).CheckIsReplaceTopic msg.Msg.Key msg.Msg.Value
      = (true, k))
    (hD : (rule.GetClientTopicRule T).BrokerTopic k = D) (hDT : D ≠ T)
    (hDabs : GoMap.get? m D = none) :
    ∃ s1 : State,
      changeTopic rule s = Result.ok s1 ∧
      s1 = (s.1, { s.2 with records := some (GoMap.delete m T ++ [(D, [(P, c)])]) }) ∧
      s1.2.hasTopic T = false ∧
      s1.2.partitionsOf D = [(P, c)] ∧
      s1.1.msgSet c.MsgSet = Result.ok ⟨[msg]⟩ ∧
      (∀ t, t ≠ T → t ≠ D →
        GoMap.get? (s1.2.records.getD []) t = GoMap.get? (s.2.records.getD []) t) := by
  have hDnot : D ∉ GoMap.keys (GoMap.delete m T) :=
    GoMap.not_mem_keys_of_get? _ _ (by rw [GoMap.get?_delete_of_ne m T D hDT]; exact hDabs)
  have hrel := relocateMsg_single (rule.GetClientTopicRule T) s m T D P a msg c k hrec hT
    hset ha hD hDT hDabs
  have hparts : changeTopicPartitions (rule.GetClientTopicRule T) s T [(P, c)]
      = Result.ok (some (s.1, { s.2 with
          records := some (GoMap.delete m T ++ [(D, [(P, c)])]) })) := by
    simp only [changeTopicPartitions, htype, hset, Heap.msgSet, ha, findMsg, hmatch, if_true,
      hrel, Result.bind_ok]
  have htopics := changeTopicTopics_first_active rule s _ T m [(P, c)] honly hactive hT hparts
  refine ⟨_, ?_, rfl, ?_, ?_, ?_, ?_⟩
  · simp only [changeTopic, hrec, Option.getD_some, htopics]
  · have h1 : GoMap.get? (GoMap.delete m T ++ [(D, [(P, c)])]) T = none := by
      have : ∀ (l : GoMap Bytes (GoMap Int Records)), GoMap.get? l T = none →
          GoMap.get? (l ++ [(D, [(P, c)])]) T = none := by
        intro l hl
        induction l with
        | nil => simp [GoMap.get?, hDT]
        | cons e rest ih =>
          obtain ⟨t, w⟩ := e
          by_cases ht : t = T
          · simp [GoMap.get?, ht] at hl
          · simp only [GoMap.get?, ht, if_false] at hl
            simp only [List.cons_append, GoMap.get?, ht, if_false]
            exact ih hl
      exact this _ (GoMap.get?_delete_self m T)
    simp [ProduceRequest.hasTopic, h1]
  · simp [ProduceRequest.partitionsOf, GoMap.get?_append_last _ D _ hDnot]
  · simp [Heap.msgSet, hset, ha]
  · intro t htT htD
    have : ∀ (l : GoMap Bytes (GoMap Int Records)),
        GoMap.get? (l ++ [(D, [(P, c)])]) t = GoMap.get? l t := by
      intro l
      induction l with
      | nil =>
        have h2 : ¬ (D = t) := fun h3 => htD h3.symm
        simp [GoMap.get?, h2]
      | cons e rest ih =>
        obtain ⟨t1, w⟩ := e
        by_cases ht : t1 = t
        · simp [GoMap.get?, ht]
        · simp only [List.cons_append, GoMap.get?, ht, if_false]
          exact ih
    simp only [Option.getD_some, hrec, this, GoMap.get?_delete_of_ne m T t htT]

theorem changeTopic_single_match_witness :
    ∃ s1 : State,
      changeTopic ordersRule twoTopicState = Result.ok s1 ∧
      s1 = (twoTopicState.1, ⟨none, 1, 100, 0, some
        (GoMap.delete [(topicOrders, [(0, newLegacyRecords (some 0))]),
            (topicAudit, [(0, newLegacyRecords (some 1))])] topicOrders
          ++ [(topicOrdersV2, [(0, newLegacyRecords (some 0))])])⟩) ∧
      s1.2.hasTopic topicOrders = false ∧
      s1.2.partitionsOf topicOrdersV2 = [(0, newLegacyRecords (some 0))] ∧
      s1.1.msgSet (newLegacyRecords (some 0)).MsgSet = Result.ok ⟨[⟨0, msgOf 1⟩]⟩ ∧
      (∀ t, t ≠ topicOrders → t ≠ topicOrdersV2 →
        GoMap.get? (s1.2.records.getD []) t
          = GoMap.get? (twoTopicState.2.records.getD []) t) :=
  changeTopic_single_match ordersRule twoTopicState
    [(topicOrders, [(0, newLegacyRecords (some 0))]),
      (topicAudit, [(0, newLegacyRecords (some 1))])]
    topicOrders topicOrdersV2 0 0 ⟨0, msgOf 1⟩ (newLegacyRecords (some 0)) "k1"
    rfl (by decide) rfl rfl (by decide) (by decide) (by decide) (by decide) (by decide)
    (by decide) (by decide)

/-- C2 (code at the failing input). With an active rule for both "orders" and "audit", each
holding one partition with one matching message and an absent destination, `changeTopic` returns
nil having relocated only the first of them (line 65 returns where the comment of line 64 asks
for `continue`): "audit" meets every premise of the claim and still has its entry, and
"audit_v2" has none. -/
theorem changeTopic_returns_after_first_match :
    twoTopicState.2.records = some
        [(topicOrders, [(0, newLegacyRecords (some 0))]),
         (topicAudit, [(0, newLegacyRecords (some 1))])] ∧
      twoTopicState.1.msgSets[1]? = some ⟨[⟨0, msgOf 1⟩]⟩ ∧
      bothRule.CheckClientTopicIsRule topicAudit = true ∧
      (bothRule.GetClientTopicRule topicAudit).CheckIsReplaceTopic [] [1] = (true, "k1") ∧
      (bothRule.GetClientTopicRule topicAudit).BrokerTopic "k1" = ascii "audit_v2" ∧
      ascii "audit_v2" ≠ topicAudit ∧
      twoTopicState.2.hasTopic (ascii "audit_v2") = false ∧
      ∃ s1 : State, changeTopic bothRule twoTopicState = Result.ok s1 ∧
        s1.2.hasTopic topicAudit = true ∧ s1.2.hasTopic (ascii "audit_v2") = false := by
  refine ⟨rfl, by decide, by decide, by decide, by decide, by decide, by decide, ?_⟩
  exact ⟨(twoTopicState.1, ⟨none, 1, 100, 0, some
      [(topicAudit, [(0, newLegacyRecords (some 1))]),
       (topicOrdersV2, [(0, newLegacyRecords (some 0))])]⟩), by decide, by decide, by decide⟩

/-- C3 (code at the failing input). "orders"/0 holds the messages of value 1 and 2, the first
matches and "orders_v2" is absent: after `changeTopic` the source entry "orders"/0 and the new
entry "orders_v2"/0 hold the same `*MessageSet`, whose messages are the relocated message alone;
the message of value 2 is in no entry. -/
theorem changeTopic_source_shares_destination_set :
    changeTopic ordersRule twoMessageState
      = Result.ok (⟨[⟨[⟨0, msgOf 1⟩]⟩], []⟩,
          ⟨none, 1, 100, 0, some
            [(topicOrders, [(0, newLegacyRecords (some 0))]),
             (topicOrdersV2, [(0, newLegacyRecords (some 0))])]⟩) := by
  decide

/-- C4 (code at the failing input). A batch with one matching record is attached with
`AddBatch` to "orders"/0; `changeTopic` then panics: line 76 reads
`p.records[topic][partition].MsgSet.Messages`, and `MsgSet` is nil in a batch container. -/
theorem changeTopic_batch_panics :
    ∃ s : State, AddBatch batchHeapState topicOrders 0 (some 0) = Result.ok s ∧
      changeTopic ordersRule s = Result.panic := by
  exact ⟨(batchHeapState.1,
    ⟨none, 1, 100, 3, some [(topicOrders, [(0, newDefaultRecords (some 0))])]⟩),
    by decide, by decide⟩

/-! ## The rewrite pass without a match -/

theorem findMsg_none (ct : ClientTopicRule) (l : List MessageBlock) (i : Nat)
    (h : (l.any fun msg => (ct.CheckIsReplaceTopic msg.Msg.Key msg.Msg.Value).1) = false) :
    findMsg ct l i = none := by
  induction l generalizing i with
  | nil => rfl
  | cons b rest ih =>
    simp only [List.any_cons, Bool.or_eq_false_iff] at h
    simp only [findMsg, h.1, Bool.false_eq_true, if_false]
    exact ih (i + 1) h.2

theorem findRecord_none (ct : ClientTopicRule) (l : List Record) (i : Nat)
    (h : (l.any fun rsd => (ct.CheckIsReplaceTopic rsd.Key rsd.Value).1) = false) :
    findRecord ct l i = none := by
  induction l generalizing i with
  | nil => rfl
  | cons b rest ih =>
    simp only [List.any_cons, Bool.or_eq_false_iff] at h
    simp only [findRecord, h.1, Bool.false_eq_true, if_false]
    exact ih (i + 1) h.2

theorem changeTopicPartitions_no_match (ct : ClientTopicRule) (s : State) (topic : Bytes)
    (v : List (Int × Records))
    (h : ∀ p ∈ v, p.2.inspectable s.1 = true ∧ p.2.anyMatch ct s.1 = false) :
    changeTopicPartitions ct s topic v = Result.ok none := by
  induction v with
  | nil => rfl
  | cons p rest ih =>
    obtain ⟨partition, c⟩ := p
    obtain ⟨h1, h2⟩ := h (partition, c) (List.mem_cons_self _ _)
    have ih1 := ih (fun p hp => h p (List.mem_cons_of_mem _ hp))
    simp only [Records.inspectable] at h1
    simp only [Records.anyMatch] at h2
    cases ht : c.recordsType with
    | unknownRecords => simp only [changeTopicPartitions, ht, ih1]
    | legacyRecords =>
      rw [ht] at h1 h2
      simp only at h1 h2
      cases hs : s.1.msgSet c.MsgSet with
      | ok set =>
        rw [hs] at h2
        simp only [changeTopicPartitions, ht, hs, findMsg_none ct _ 0 h2, ih1]
      | error e => rw [hs] at h1; simp [Result.isOk] at h1
      | panic => rw [hs] at h1; simp [Result.isOk] at h1
    | defaultRecords =>
      rw [ht] at h1 h2
      simp only at h1 h2
      cases hs : s.1.batch c.RecordBatch with
      | ok b =>
        rw [hs] at h2
        simp only [changeTopicPartitions, ht, hs, findRecord_none ct _ 0 h2, ih1]
      | error e => rw [hs] at h1; simp [Result.isOk] at h1
      | panic => rw [hs] at h1; simp [Result.isOk] at h1

theorem changeTopicTopics_no_match (rule : TopicRule) (s : State)
    (l : List (Bytes × GoMap Int Records))
    (h : ∀ e ∈ l, rule.CheckClientTopicIsRule e.1 = true →
      ∀ p ∈ e.2, p.2.inspectable s.1 = true ∧
        p.2.anyMatch (rule.GetClientTopicRule e.1) s.1 = false) :
    changeTopicTopics rule s l = Result.ok none := by
  induction l with
  | nil => rfl
  | cons e rest ih =>
    obtain ⟨topic, v⟩ := e
    have ih1 := ih (fun e he => h e (List.mem_cons_of_mem _ he))
    by_cases ha : rule.CheckClientTopicIsRule topic = true
    · simp only [changeTopicTopics, ha, if_true,
        changeTopicPartitions_no_match _ s topic v (h (topic, v) (List.mem_cons_self _ _) ha),
        ih1]
    · simp only [changeTopicTopics, ha, Bool.false_eq_true, if_false, ih1]

/-- C5 (amended: no-op without a match). If no topic of the mapping has an active rule, or
every container of a topic with an active rule holds its object (a legacy container its
message set, a batch container its batch) and no record of those containers matches, then
`changeTopic` returns nil and the state, that is the heap, the records mapping and the scalar
fields, is exactly as before. -/
theorem changeTopic_no_match_is_noop (rule : TopicRule) (s : State)
    (h : (∀ e ∈ s.2.records.getD [], rule.CheckClientTopicIsRule e.1 = false) ∨
      (∀ e ∈ s.2.records.getD [], rule.CheckClientTopicIsRule e.1 = true →
        ∀ p ∈ e.2, p.2.inspectable s.1 = true ∧
          p.2.anyMatch (rule.GetClientTopicRule e.1) s.1 = false)) :
    changeTopic rule s = Result.ok s := by
  have h2 : ∀ e ∈ s.2.records.getD [], rule.CheckClientTopicIsRule e.1 = true →
      ∀ p ∈ e.2, p.2.inspectable s.1 = true ∧
        p.2.anyMatch (rule.GetClientTopicRule e.1) s.1 = false := by
    rcases h with h | h
    · intro e he ha
      rw [h e he] at ha
      exact absurd ha (by simp)
    · exact h
  simp only [changeTopic, changeTopicTopics_no_match rule s _ h2]

/-- C5 (witness). A second run after a relocation, with no topic left under an active rule,
and a run over containers that hold their sets and have no matching message, change nothing. -/
theorem changeTopic_no_match_is_noop_witness :
    changeTopic ordersRule twoTopicState = Result.ok relocatedState ∧
      changeTopic ordersRule relocatedState = Result.ok relocatedState ∧
      changeTopic ordersRule exampleState = Result.ok exampleState :=
  ⟨by decide,
   changeTopic_no_match_is_noop ordersRule relocatedState (Or.inl (by decide)),
   changeTopic_no_match_is_noop ordersRule exampleState (Or.inr (by decide))⟩

/-! ## Decode of a malformed wire -/

theorem setAt_ready (topic : Bytes) (s : State) (hr : readyFor topic s) (id : Int)
    (c : Records) (h2 : Heap) :
    ∃ r1, s.2.setAt topic id c = Result.ok r1 ∧ readyFor topic (h2, r1) := by
  obtain ⟨m, inner, hm, hg⟩ := hr
  refine ⟨{ s.2 with records := some (GoMap.set m topic (GoMap.set inner id c)) }, ?_, ?_⟩
  · simp [ProduceRequest.setAt, hm, hg]
  · exact ⟨_, _, rfl, GoMap.get?_set_self _ _ _⟩

/-- A partition whose declared `record_len` exceeds the bytes that remain after the length field
makes the partition loop return an error. -/
theorem decodePartitions_oversize (codec : RecordsCodec) (topic : Bytes) (n : Nat) (id size : Int)
    (rest : Bytes) (s : State) (hid : isInt32 id) (hsize : isInt32 size)
    (hover : (rest.length : Int) < size) :
    ∃ e, decodePartitions codec topic (n + 1) (be32 id ++ be32 size ++ rest) s
      = Result.error e := by
  have h1 : ¬ (size < 0) := by omega
  simp only [decodePartitions, List.append_assoc, getInt32_be32 id hid, Result.bind_ok,
    getInt32_be32 size hsize, getSubset, getRawBytes, h1, hover, if_true, if_false,
    Result.bind_error]
  exact ⟨_, rfl⟩

/-- The partition loop over well-formed partitions either returns an error or goes on with the
bytes that follow them. -/
theorem decodePartitions_skip (codec : RecordsCodec)
    (hnp : ∀ bs, codec.decode bs ≠ Result.panic) (topic : Bytes) (ps : List (Int × Bytes))
    (hps : partitionsFit ps) (n : Nat) (tail : Bytes) (s : State) (hr : readyFor topic s) :
    (∃ e, decodePartitions codec topic (ps.length + n) (wirePartitions ps ++ tail) s
        = Result.error e) ∨
    (∃ s1, readyFor topic s1 ∧
      decodePartitions codec topic (ps.length + n) (wirePartitions ps ++ tail) s
        = decodePartitions codec topic n tail s1) := by
  induction ps generalizing s with
  | nil => exact Or.inr ⟨s, hr, by simp [wirePartitions]⟩
  | cons p rest ih =>
    obtain ⟨id, body⟩ := p
    obtain ⟨hid, hlen⟩ := hps (id, body) (List.mem_cons_self _ _)
    simp only at hid hlen
    have hstep : decodePartitions codec topic (rest.length + n + 1)
        (be32 id ++ (be32 (body.length : Int) ++ (body ++ (wirePartitions rest ++ tail)))) s
        = (codec.decode body).bind fun v =>
            (s.2.setAt topic id (s.1.store v).2).bind fun r1 =>
              decodePartitions codec topic (rest.length + n) (wirePartitions rest ++ tail)
                ((s.1.store v).1, r1) := by
      simp only [decodePartitions, getInt32_be32 id hid, Result.bind_ok]
      rw [getInt32_be32 _ (by unfold isInt32; omega)]
      simp only [Result.bind_ok, getSubset]
      rw [getRawBytes_append _ _ hlen]
      simp only [Result.bind_ok]
    simp only [List.length_cons, wirePartitions, List.append_assoc]
    rw [show rest.length + 1 + n = rest.length + n + 1 by omega, hstep]
    cases hdec : codec.decode body with
    | ok v =>
      obtain ⟨r1, hset, hready⟩ := setAt_ready topic s hr id (s.1.store v).2 (s.1.store v).1
      simp only [Result.bind_ok, hset]
      exact ih (fun p hp => hps p (List.mem_cons_of_mem _ hp)) _ hready
    | error e => exact Or.inl ⟨e, rfl⟩
    | panic => exact absurd hdec (hnp body)

/-- The topic loop over well-formed topics either returns an error or goes on with the bytes
that follow them. -/
theorem decodeTopics_skip (codec : RecordsCodec)
    (hnp : ∀ bs, codec.decode bs ≠ Result.panic) (ts : List (Bytes × List (Int × Bytes)))
    (hts : topicsFit ts) (n : Nat) (tail : Bytes) (s : State)
    (hs : s.2.records.isSome = true) :
    (∃ e, decodeTopics codec (ts.length + n) (wireTopics ts ++ tail) s = Result.error e) ∨
    (∃ s1 : State, s1.2.records.isSome = true ∧
      decodeTopics codec (ts.length + n) (wireTopics ts ++ tail) s
        = decodeTopics codec n tail s1) := by
  induction ts generalizing s with
  | nil => exact Or.inr ⟨s, hs, by simp [wireTopics]⟩
  | cons t rest ih =>
    obtain ⟨name, ps⟩ := t
    obtain ⟨hname, hcount, hps⟩ := hts (name, ps) (List.mem_cons_self _ _)
    simp only at hname hcount hps
    obtain ⟨m, hm⟩ := Option.isSome_iff_exists.mp hs
    have hready : readyFor name (s.1, { s.2 with records := some (GoMap.set m name []) }) :=
      ⟨_, _, rfl, GoMap.get?_set_self _ _ _⟩
    have hstep : decodeTopics codec (rest.length + n + 1)
        (be16 (name.length : Int) ++ name ++ (be32 (ps.length : Int) ++ (wirePartitions ps
          ++ (wireTopics rest ++ tail)))) s
        = (decodePartitions codec name ps.length (wirePartitions ps ++ (wireTopics rest ++ tail))
            (s.1, { s.2 with records := some (GoMap.set m name []) })).bind fun x =>
              decodeTopics codec (rest.length + n) x.2 x.1 := by
      simp only [decodeTopics]
      rw [getString_wire name _ hname]
      simp only [Result.bind_ok]
      rw [getArrayLength_be32 _ hcount]
      simp only [Result.bind_ok, ProduceRequest.setTopic, hm]
    simp only [List.length_cons, wireTopics, List.append_assoc]
    rw [show rest.length + 1 + n = rest.length + n + 1 by omega]
    have hstep2 := hstep
    simp only [List.append_assoc] at hstep2
    rw [hstep2]
    rcases decodePartitions_skip codec hnp name ps hps 0 (wireTopics rest ++ tail) _ hready
      with ⟨e, he⟩ | ⟨s1, hr1, he⟩
    · simp only [Nat.add_zero] at he
      rw [he]
      exact Or.inl ⟨e, rfl⟩
    · simp only [Nat.add_zero, decodePartitions] at he
      rw [he]
      simp only [Result.bind_ok]
      obtain ⟨m1, inner, hm1, -⟩ := hr1
      exact ih (fun e he => hts e (List.mem_cons_of_mem _ he)) s1 (by simp [hm1])

/-- C6 (malformed decode rejection). A buffer that holds a request header, any number of
well-formed topics, then a topic with any number of well-formed partitions followed by a
partition whose declared `record_len` (`size`) is larger than the number of bytes that remain
after the length field: decode, for every version and receiver, returns an error; it neither
succeeds nor panics (the container decoder itself being free of panics). -/
theorem decode_rejects_oversize_record_len (codec : RecordsCodec)
    (hnp : ∀ bs, codec.decode bs ≠ Result.panic) (version : Int) (tid : Option Bytes)
    (acks timeout : Int) (pre : List (Bytes × List (Int × Bytes))) (T : Bytes)
    (prePs : List (Int × Bytes)) (k j : Nat) (id size : Int) (rest : Bytes) (s : State)
    (htid : ∀ t ∈ tid, t.length ≤ 32767) (hacks : isInt16 acks) (htimeout : isInt32 timeout)
    (hpre : topicsFit pre) (hT : T.length ≤ 32767) (hprePs : partitionsFit prePs)
    (htc : pre.length + (k + 1) ≤ 2147483647) (hpc : prePs.length + (j + 1) ≤ 2147483647)
    (hid : isInt32 id) (hsize : isInt32 size) (hover : (rest.length : Int) < size) :
    ∃ e, decode codec
        ((if version ≥ 3 then wireNullableString tid else []) ++ (be16 acks ++ (be32 timeout
          ++ (be32 ((pre.length + (k + 1) : Nat) : Int) ++ (wireTopics pre
          ++ (be16 (T.length : Int) ++ T ++ (be32 ((prePs.length + (j + 1) : Nat) : Int)
          ++ (wirePartitions prePs ++ (be32 id ++ be32 size ++ rest)))))))))
        version s = Result.error e := by
  -- the topic that holds the oversize partition
  have hbad : ∀ s1 : State, s1.2.records.isSome = true →
      ∃ e, decodeTopics codec (k + 1)
        (be16 (T.length : Int) ++ T ++ (be32 ((prePs.length + (j + 1) : Nat) : Int)
          ++ (wirePartitions prePs ++ (be32 id ++ be32 size ++ rest)))) s1 = Result.error e := by
    intro s1 hs1
    obtain ⟨m, hm⟩ := Option.isSome_iff_exists.mp hs1
    have hready : readyFor T (s1.1, { s1.2 with records := some (GoMap.set m T []) }) :=
      ⟨_, _, rfl, GoMap.get?_set_self _ _ _⟩
    simp only [decodeTopics]
    rw [getString_wire T _ hT]
    simp only [Result.bind_ok]
    rw [getArrayLength_be32 _ hpc]
    simp only [Result.bind_ok, ProduceRequest.setTopic, hm]
    rcases decodePartitions_skip codec hnp T prePs hprePs (j + 1)
      (be32 id ++ be32 size ++ rest) _ hready with ⟨e, he⟩ | ⟨s2, -, he⟩
    · rw [he]; exact ⟨e, rfl⟩
    · rw [he]
      obtain ⟨e, he2⟩ := decodePartitions_oversize codec T j id size rest s2 hid hsize hover
      rw [he2]
      exact ⟨e, rfl⟩
  -- the topic loop from its start
  have hloop : ∀ s1 : State, s1.2.records.isSome = true →
      ∃ e, decodeTopics codec (pre.length + (k + 1))
        (wireTopics pre ++ (be16 (T.length : Int) ++ T
          ++ (be32 ((prePs.length + (j + 1) : Nat) : Int)
          ++ (wirePartitions prePs ++ (be32 id ++ be32 size ++ rest))))) s1 = Result.error e := by
    intro s1 hs1
    rcases decodeTopics_skip codec hnp pre hpre (k + 1) _ s1 hs1 with ⟨e, he⟩ | ⟨s2, hs2, he⟩
    · exact ⟨e, he⟩
    · rw [he]; exact hbad s2 hs2
  have hcount : ¬ (pre.length + (k + 1) = 0) := by omega
  unfold decode
  by_cases hv : version ≥ 3
  · simp only [hv, if_true]
    rw [getNullableString_wire _ _ htid]
    simp only [Result.bind_ok]
    rw [getInt16_be16 _ hacks]
    simp only [Result.bind_ok]
    rw [getInt32_be32 _ htimeout]
    simp only [Result.bind_ok]
    rw [getArrayLength_be32 _ htc]
    simp only [Result.bind_ok, hcount, if_false]
    exact hloop _ rfl
  · simp only [hv, if_false, List.nil_append, Result.bind_ok]
    rw [getInt16_be16 _ hacks]
    simp only [Result.bind_ok]
    rw [getInt32_be32 _ htimeout]
    simp only [Result.bind_ok]
    rw [getArrayLength_be32 _ htc]
    simp only [Result.bind_ok, hcount, if_false]
    exact hloop _ rfl

theorem decode_rejects_oversize_record_len_witness :
    ∃ e, decode exampleCodec
        ((if (3 : Int) ≥ 3 then wireNullableString none else []) ++ (be16 1 ++ (be32 100
          ++ (be32 (([(topicAudit, [(5, [1])])].length + (0 + 1) : Nat) : Int)
          ++ (wireTopics [(topicAudit, [(5, [1])])]
          ++ (be16 (topicOrders.length : Int) ++ topicOrders
          ++ (be32 (([(0, [7, 8])].length + (1 + 1) : Nat) : Int)
          ++ (wirePartitions [(0, [7, 8])] ++ (be32 1 ++ be32 4 ++ [9, 9, 9])))))))))
        3 (Heap.empty, ProduceRequest.zero) = Result.error e :=
  decode_rejects_oversize_record_len exampleCodec (fun _ h => by simp [exampleCodec] at h) 3
    none 1 100 [(topicAudit, [(5, [1])])] topicOrders [(0, [7, 8])] 0 1 1 4 [9, 9, 9]
    (Heap.empty, ProduceRequest.zero) (by decide) (by decide) (by decide) (by decide)
    (by decide) (by decide) (by decide) (by decide) (by decide) (by decide) (by decide)

/-! ## The bytes of any successful encode -/

theorem recordsEncode_ok (codec : RecordsCodec) (h : Heap) (c : Records)
    (pe0 pe1 : packetEncoder) (henc : c.encode codec h pe0 = Result.ok pe1) :
    pe1 = pe0.write (c.body codec h) := by
  simp only [Records.encode] at henc
  cases hl : c.load h with
  | ok v =>
    rw [hl] at henc
    simp only [Result.bind_ok] at henc
    cases he : codec.encode v with
    | ok bs =>
      rw [he] at henc
      simp only [Result.bind_ok, Result.ok.injEq] at henc
      simp [Records.body, hl, he, henc]
    | error e => rw [he] at henc; simp at henc
    | panic => rw [he] at henc; simp at henc
  | error e => rw [hl] at henc; simp at henc
  | panic => rw [hl] at henc; simp at henc

/-- With or without a metrics registry, a partition loop that returns has appended the wire
layout of its partitions: each `record_len` is the length of what the container wrote. -/
theorem encodePartitions_ok (fl : Float64Ratio) (codec : RecordsCodec) (h : Heap)
    (version : Int) (reg : Bool) (topic : Bytes) (ps : List (Int × Records))
    (pe : packetEncoder) (log : List MetricEvent) (n : Int)
    (out : packetEncoder × List MetricEvent × Int)
    (henc : encodePartitions fl codec h version reg topic ps pe log n = Result.ok out) :
    out.1 = pe.write (wirePartitions (ps.map fun p => (p.1, p.2.body codec h))) := by
  induction ps generalizing pe log n with
  | nil =>
    simp only [encodePartitions, Result.ok.injEq] at henc
    simp [← henc, wirePartitions, write_nil]
  | cons p rest ih =>
    obtain ⟨id, c⟩ := p
    simp only [encodePartitions] at henc
    cases hr : c.encode codec h (pe.putInt32 id).push with
    | ok pe1 =>
      have hpe1 := recordsEncode_ok codec h c _ pe1 hr
      rw [hr] at henc
      simp only [Result.bind_ok] at henc
      have hpop : pe1.pop = Result.ok
          (pe.write (be32 id ++ be32 ((c.body codec h).length : Int) ++ c.body codec h)) := by
        rw [hpe1, pop_push_write]
        simp [packetEncoder.putInt32, packetEncoder.write, List.append_assoc]
      rw [hpop] at henc
      simp only [Result.bind_ok] at henc
      have hgoal : ∀ out1 : packetEncoder,
          out1 = (pe.write (be32 id ++ be32 ((c.body codec h).length : Int)
              ++ c.body codec h)).write
            (wirePartitions (rest.map fun p => (p.1, p.2.body codec h))) →
          out1 = pe.write (wirePartitions (((id, c) :: rest).map
            fun p => (p.1, p.2.body codec h))) := by
        intro out1 h1
        rw [h1]
        simp [write_write, wirePartitions, List.append_assoc]
      cases reg with
      | false =>
        simp only [Bool.false_eq_true, if_false] at henc
        exact hgoal _ (ih _ _ _ henc)
      | true =>
        simp only [if_true] at henc
        cases hu : (if version ≥ 3 then
            updateBatchMetrics fl h c.RecordBatch ⟨"compression-ratio", none⟩
              ⟨"compression-ratio", some topic⟩ log
          else
            updateMsgSetMetrics fl h c.MsgSet ⟨"compression-ratio", none⟩
              ⟨"compression-ratio", some topic⟩ log) with
        | ok u =>
          rw [hu] at henc
          simp only [Result.bind_ok] at henc
          exact hgoal _ (ih _ _ _ henc)
        | error e => rw [hu] at henc; simp at henc
        | panic => rw [hu] at henc; simp at henc
    | error e => rw [hr] at henc; simp at henc
    | panic => rw [hr] at henc; simp at henc

theorem encodeTopics_ok (fl : Float64Ratio) (codec : RecordsCodec) (h : Heap)
    (version : Int) (reg : Bool) (m : GoMap Bytes (GoMap Int Records))
    (pe : packetEncoder) (log : List MetricEvent) (n : Int)
    (out : packetEncoder × List MetricEvent × Int)
    (henc : encodeTopics fl codec h version reg m pe log n = Result.ok out) :
    out.1 = pe.write (wireTopics (bodiesOf codec h m)) := by
  induction m generalizing pe log n with
  | nil =>
    simp only [encodeTopics, Result.ok.injEq] at henc
    simp [← henc, wireTopics, bodiesOf, write_nil]
  | cons e rest ih =>
    obtain ⟨topic, ps⟩ := e
    simp only [encodeTopics, packetEncoder.putString, packetEncoder.putArrayLength] at henc
    by_cases h1 : topic.length > 32767
    · simp [h1] at henc
    · by_cases h2 : ps.length > 2147483647
      · simp [h1, h2] at henc
      · simp only [h1, h2, if_false, Result.bind_ok] at henc
        cases hp : encodePartitions fl codec h version reg topic ps
            (((pe.putInt16 (topic.length : Int)).write topic).putInt32 (ps.length : Int)) log 0 with
        | ok x =>
          have hx := encodePartitions_ok fl codec h version reg topic ps _ log 0 x hp
          rw [hp] at henc
          simp only [Result.bind_ok] at henc
          have hgoal : ∀ out1 : packetEncoder,
              out1 = x.1.write (wireTopics (bodiesOf codec h rest)) →
              out1 = pe.write (wireTopics (bodiesOf codec h ((topic, ps) :: rest))) := by
            intro out1 h3
            rw [h3, hx]
            simp [write_write, wireTopics, bodiesOf, packetEncoder.putInt16,
              packetEncoder.putInt32, List.append_assoc]
          by_cases hc : x.2.2 > 0
          · simp only [hc, if_true] at henc
            exact hgoal _ (ih _ _ _ henc)
          · simp only [hc, if_false] at henc
            exact hgoal _ (ih _ _ _ henc)
        | error e => rw [hp] at henc; simp at henc
        | panic => rw [hp] at henc; simp at henc

/-- With or without a metrics registry, an encode that returns nil has appended exactly the wire
layout of the request to the cursor. -/
theorem encode_ok (fl : Float64Ratio) (codec : RecordsCodec) (h : Heap) (r : ProduceRequest)
    (reg : Bool) (pe : packetEncoder) (log : List MetricEvent)
    (out : packetEncoder × List MetricEvent)
    (henc : encode fl codec h r reg pe log = Result.ok out) :
    out.1 = pe.write (wireRequest r.Version r.TransactionalID r.RequiredAcks r.Timeout
      (bodiesOf codec h (r.records.getD []))) := by
  unfold encode at henc
  have hns : ∀ pe1, (if r.Version ≥ 3 then pe.putNullableString r.TransactionalID
      else Result.ok pe) = Result.ok pe1 →
      pe1 = pe.write (if r.Version ≥ 3 then wireNullableString r.TransactionalID else []) := by
    intro pe1 h1
    by_cases hv : r.Version ≥ 3
    · simp only [hv, if_true] at h1 ⊢
      cases ht : r.TransactionalID with
      | none =>
        rw [ht] at h1
        simp only [packetEncoder.putNullableString, Result.ok.injEq] at h1
        simp [← h1, wireNullableString, packetEncoder.putInt16]
      | some t =>
        rw [ht] at h1
        simp only [packetEncoder.putNullableString, packetEncoder.putString] at h1
        by_cases hl : t.length > 32767
        · simp [hl] at h1
        · simp only [hl, if_false, Result.ok.injEq] at h1
          simp [← h1, wireNullableString, packetEncoder.putInt16, write_write]
    · simp only [hv, if_false, Result.ok.injEq] at h1 ⊢
      simp [← h1, write_nil]
  cases h0 : (if r.Version ≥ 3 then pe.putNullableString r.TransactionalID
      else Result.ok pe) with
  | ok pe1 =>
    have hpe1 := hns pe1 h0
    rw [h0] at henc
    simp only [Result.bind_ok, packetEncoder.putArrayLength] at henc
    by_cases h2 : (r.records.getD []).length > 2147483647
    · simp [h2] at henc
    · simp only [h2, if_false, Result.bind_ok] at henc
      cases ht : encodeTopics fl codec h r.Version reg (r.records.getD [])
          (((pe1.putInt16 r.RequiredAcks).putInt32 r.Timeout).putInt32
            ((r.records.getD []).length : Int)) log 0 with
      | ok x =>
        have hx := encodeTopics_ok fl codec h r.Version reg _ _ log 0 x ht
        rw [ht] at henc
        simp only [Result.bind_ok] at henc
        have hgoal : x.1 = pe.write (wireRequest r.Version r.TransactionalID r.RequiredAcks
            r.Timeout (bodiesOf codec h (r.records.getD []))) := by
          rw [hx, hpe1]
          simp [write_write, wireRequest, wireBody, packetEncoder.putInt16,
            packetEncoder.putInt32, List.append_assoc, bodiesOf]
        by_cases hc : x.2.2 > 0
        · simp only [hc, if_true, Result.ok.injEq] at henc
          rw [← henc]; exact hgoal
        · simp only [hc, if_false, Result.ok.injEq] at henc
          rw [← henc]; exact hgoal
      | error e => rw [ht] at henc; simp at henc
      | panic => rw [ht] at henc; simp at henc
  | error e => rw [h0] at henc; simp at henc
  | panic => rw [h0] at henc; simp at henc

/-- One iteration of the decode loop over partitions on a partition of the wire layout: the
container decoder gets exactly the `record_len` bytes and the loop goes on right after them. -/
theorem decodePartitions_step (codec : RecordsCodec) (topic : Bytes) (n : Nat) (id : Int)
    (body rest : Bytes) (s : State) (hid : isInt32 id) (hlen : body.length ≤ 2147483647) :
    decodePartitions codec topic (n + 1) (wirePartitions [(id, body)] ++ rest) s
      = (codec.decode body).bind fun v =>
          (s.2.setAt topic id (s.1.store v).2).bind fun r1 =>
            decodePartitions codec topic n rest ((s.1.store v).1, r1) := by
  simp only [wirePartitions, List.append_nil, List.append_assoc, decodePartitions,
    getInt32_be32 id hid, Result.bind_ok]
  rw [getInt32_be32 _ (by unfold isInt32; omega)]
  simp only [Result.bind_ok, getSubset]
  rw [getRawBytes_append _ _ hlen]
  simp only [Result.bind_ok]

/-- C7 (length-prefix correctness). When encode returns nil, with or without a metrics
registry, the bytes it appended are the wire layout of the request, in which the 4-byte field
after each partition index holds the length of `body`, the bytes the partition's container wrote
between the push and the pop of the length field (that length fitting a signed 32-bit field);
and the decode loop, on such a partition followed by any bytes `rest`, hands the container
decoder exactly the `record_len` bytes `body` and resumes with `rest`. -/
theorem record_len_is_container_length (fl : Float64Ratio) (codec : RecordsCodec) (h : Heap)
    (r : ProduceRequest) (reg : Bool) (pe : packetEncoder) (log : List MetricEvent)
    (out : packetEncoder × List MetricEvent)
    (henc : encode fl codec h r reg pe log = Result.ok out)
    (htyped : r.wellTyped)
    (hlen : ∀ e ∈ r.records.getD [], ∀ p ∈ e.2, (p.2.body codec h).length ≤ 2147483647) :
    out.1.raw = pe.raw ++ wireRequest r.Version r.TransactionalID r.RequiredAcks r.Timeout
        (bodiesOf codec h (r.records.getD [])) ∧
    (∀ e ∈ r.records.getD [], ∀ p ∈ e.2,
      (∀ pe0 pe1 : packetEncoder, p.2.encode codec h (pe0.putInt32 p.1).push = Result.ok pe1 →
        pe1.raw = pe0.raw ++ be32 p.1 ++ [0, 0, 0, 0] ++ p.2.body codec h ∧
        pe1.pop = Result.ok (pe0.write
          (be32 p.1 ++ be32 ((p.2.body codec h).length : Int) ++ p.2.body codec h))) ∧
      (∀ tail : Bytes, getInt32 (be32 ((p.2.body codec h).length : Int) ++ tail)
        = Result.ok (((p.2.body codec h).length : Int), tail)) ∧
      (∀ (n : Nat) (rest : Bytes) (s : State), decodePartitions codec e.1 (n + 1)
          (wirePartitions [(p.1, p.2.body codec h)] ++ rest) s
        = (codec.decode (p.2.body codec h)).bind fun v =>
            (s.2.setAt e.1 p.1 (s.1.store v).2).bind fun r1 =>
              decodePartitions codec e.1 n rest ((s.1.store v).1, r1))) := by
  refine ⟨?_, ?_⟩
  · rw [encode_ok fl codec h r reg pe log out henc]
    rfl
  · intro e he p hp
    have hl := hlen e he p hp
    refine ⟨?_, ?_, ?_⟩
    · intro pe0 pe1 h1
      have h2 := recordsEncode_ok codec h p.2 _ pe1 h1
      refine ⟨?_, ?_⟩
      · rw [h2]
        simp [packetEncoder.write, packetEncoder.push, packetEncoder.putInt32,
          List.append_assoc]
      · rw [h2, pop_push_write]
        simp [packetEncoder.putInt32, packetEncoder.write, List.append_assoc]
    · intro tail
      exact getInt32_be32 _ (by unfold isInt32; omega) tail
    · intro n rest s
      exact decodePartitions_step codec e.1 n p.1 _ rest s (htyped.2.2 e he p hp) hl

theorem record_len_is_container_length_witness :
    ((⟨[], []⟩ : packetEncoder).write
        (wireRequest exampleState.2.Version exampleState.2.TransactionalID
          exampleState.2.RequiredAcks exampleState.2.Timeout
          (bodiesOf exampleCodec exampleState.1 (exampleState.2.records.getD [])))).raw
      = [] ++ wireRequest exampleState.2.Version exampleState.2.TransactionalID
          exampleState.2.RequiredAcks exampleState.2.Timeout
          (bodiesOf exampleCodec exampleState.1 (exampleState.2.records.getD [])) :=
  (record_len_is_container_length exampleRatio exampleCodec exampleState.1 exampleState.2 false
    ⟨[], []⟩ [] _
    (encode_wire exampleRatio exampleCodec exampleState.1 exampleState.2 (by decide) (by decide)
      ⟨[], []⟩ [])
    (by decide) (by decide)).1

/-- C8 (version gating). When encode returns nil: for a version below 3 the bytes appended
start with the int16 RequiredAcks and the int32 Timeout, with no transactional-identifier
field; for version 3 and above they start with TransactionalID as a nullable string, which
for nil is the int16 -1 (bytes 255, 255) and nothing else, followed by RequiredAcks and
Timeout. Decode, on a request without topics: below version 3 it reads RequiredAcks from the
first two bytes and leaves TransactionalID as it was; from version 3 on it first reads a
nullable string into TransactionalID. -/
theorem version_gates_transactional_id (fl : Float64Ratio) (codec : RecordsCodec) (h : Heap)
    (r : ProduceRequest) (reg : Bool) (pe : packetEncoder) (log : List MetricEvent)
    (out : packetEncoder × List MetricEvent)
    (henc : encode fl codec h r reg pe log = Result.ok out) :
    (r.Version < 3 → out.1.raw = pe.raw ++ (be16 r.RequiredAcks ++ (be32 r.Timeout
        ++ (be32 ((r.records.getD []).length : Int)
        ++ wireTopics (bodiesOf codec h (r.records.getD [])))))) ∧
    (r.Version ≥ 3 → out.1.raw = pe.raw ++ (wireNullableString r.TransactionalID
        ++ (be16 r.RequiredAcks ++ (be32 r.Timeout
        ++ (be32 ((r.records.getD []).length : Int)
        ++ wireTopics (bodiesOf codec h (r.records.getD []))))))) ∧
    wireNullableString none = [255, 255] ∧
    (∀ (version acks timeout : Int) (rest : Bytes) (s : State), version < 3 →
      isInt16 acks → isInt32 timeout →
      decode codec (be16 acks ++ (be32 timeout ++ (be32 0 ++ rest))) version s
        = Result.ok ((s.1, { s.2 with Version := version, RequiredAcks := acks,
                                      Timeout := timeout }), rest)) ∧
    (∀ (version acks timeout : Int) (tid : Option Bytes) (rest : Bytes) (s : State),
      version ≥ 3 → isInt16 acks → isInt32 timeout → (∀ t ∈ tid, t.length ≤ 32767) →
      decode codec (wireNullableString tid ++ (be16 acks ++ (be32 timeout ++ (be32 0 ++ rest))))
          version s
        = Result.ok ((s.1, { s.2 with Version := version, TransactionalID := tid,
                                      RequiredAcks := acks, Timeout := timeout }), rest)) := by
  have hraw := encode_ok fl codec h r reg pe log out henc
  refine ⟨?_, ?_, by decide, ?_, ?_⟩
  · intro hv
    have hv2 : ¬ (r.Version ≥ 3) := by omega
    rw [hraw]
    simp [packetEncoder.write, wireRequest, wireBody, hv2, bodiesOf, List.append_assoc]
  · intro hv
    rw [hraw]
    simp [packetEncoder.write, wireRequest, wireBody, hv, bodiesOf, List.append_assoc]
  · intro version acks timeout rest s hv hacks htimeout
    have hv2 : ¬ (version ≥ 3) := by omega
    unfold decode
    simp only [hv2, if_false, Result.bind_ok]
    rw [getInt16_be16 _ hacks]
    simp only [Result.bind_ok]
    rw [getInt32_be32 _ htimeout]
    simp only [Result.bind_ok]
    have h0 := getArrayLength_be32 0 (by omega) rest
    simp only [Nat.cast_zero] at h0
    rw [h0]
    simp
  · intro version acks timeout tid rest s hv hacks htimeout htid
    unfold decode
    simp only [hv, if_true]
    rw [getNullableString_wire _ _ htid]
    simp only [Result.bind_ok]
    rw [getInt16_be16 _ hacks]
    simp only [Result.bind_ok]
    rw [getInt32_be32 _ htimeout]
    simp only [Result.bind_ok]
    have h0 := getArrayLength_be32 0 (by omega) rest
    simp only [Nat.cast_zero] at h0
    rw [h0]
    simp

theorem version_gates_transactional_id_witness :
    (((⟨[], []⟩ : packetEncoder).write
          (wireRequest exampleState.2.Version exampleState.2.TransactionalID
            exampleState.2.RequiredAcks exampleState.2.Timeout
            (bodiesOf exampleCodec exampleState.1 (exampleState.2.records.getD [])))).raw
        = [] ++ (wireNullableString exampleState.2.TransactionalID
          ++ (be16 exampleState.2.RequiredAcks ++ (be32 exampleState.2.Timeout
          ++ (be32 ((exampleState.2.records.getD []).length : Int)
          ++ wireTopics (bodiesOf exampleCodec exampleState.1
              (exampleState.2.records.getD []))))))) :=
  (version_gates_transactional_id exampleRatio exampleCodec exampleState.1 exampleState.2 false
    ⟨[], []⟩ [] _
    (encode_wire exampleRatio exampleCodec exampleState.1 exampleState.2 (by decide) (by decide)
      ⟨[], []⟩ [])).2.1 (by decide)

/-- C9 (minimum-version mapping). `requiredVersion` returns V0_9_0_0 for Version 1, V0_10_0_0
for 2, V0_11_0_0 for 3, V2_1_0_0 for 7 and MinVersion for every other Version, for example for
0 and for 99. -/
theorem requiredVersion_mapping {κ : Type} (kv : KafkaVersions κ) (r : ProduceRequest) :
    requiredVersion kv { r with Version := 1 } = kv.V0_9_0_0 ∧
    requiredVersion kv { r with Version := 2 } = kv.V0_10_0_0 ∧
    requiredVersion kv { r with Version := 3 } = kv.V0_11_0_0 ∧
    requiredVersion kv { r with Version := 7 } = kv.V2_1_0_0 ∧
    (∀ v : Int, v ≠ 1 → v ≠ 2 → v ≠ 3 → v ≠ 7 →
      requiredVersion kv { r with Version := v } = kv.MinVersion) ∧
    requiredVersion kv { r with Version := 0 } = kv.MinVersion ∧
    requiredVersion kv { r with Version := 99 } = kv.MinVersion := by
  refine ⟨by simp [requiredVersion], by simp [requiredVersion], by simp [requiredVersion],
    by simp [requiredVersion], ?_, by simp [requiredVersion], by simp [requiredVersion]⟩
  intro v h1 h2 h3 h7
  simp [requiredVersion, h1, h2, h3, h7]

theorem requiredVersion_mapping_witness :
    requiredVersion exampleVersions { exampleRequest with Version := 5 } = [0, 8, 2, 0] :=
  (requiredVersion_mapping exampleVersions exampleRequest).2.2.2.2.1 5 (by decide) (by decide)
    (by decide) (by decide)

/-! ## The no-empty-topic invariant -/

theorem Result.bind_eq_ok {α β : Type} (x : Result α) (f : α → Result β) (b : β) :
    x.bind f = Result.ok b ↔ ∃ a, x = Result.ok a ∧ f a = Result.ok b := by
  cases x with
  | ok a => simp
  | error e => simp
  | panic => simp

theorem deleteTopic_noEmpty (p : ProduceRequest) (topic : Bytes)
    (h : ∀ e ∈ p.records.getD [], e.1 ≠ topic → e.2 ≠ []) :
    (p.deleteTopic topic).noEmptyTopic := by
  intro e he
  cases hrec : p.records with
  | none => simp [ProduceRequest.deleteTopic, hrec] at he
  | some m =>
    simp only [ProduceRequest.deleteTopic, hrec, Option.getD_some] at he
    obtain ⟨h1, h2⟩ := GoMap.mem_delete m topic e he
    exact h e (by simpa [hrec] using h1) h2

/-- Lines 48-53: pruning the source entry keeps every topic with at least one partition. -/
theorem prune_noEmpty (p : ProduceRequest) (topic : Bytes) (partition : Int)
    (hp : p.noEmptyTopic) :
    (if ((p.deleteAt topic partition).partitionsOf topic).length = 0 then
        (p.deleteAt topic partition).deleteTopic topic
      else p.deleteAt topic partition).noEmptyTopic := by
  cases hrec : p.records with
  | none =>
    simp [ProduceRequest.deleteAt, hrec, ProduceRequest.partitionsOf,
      ProduceRequest.deleteTopic, ProduceRequest.noEmptyTopic]
  | some m =>
    have hm : ∀ e ∈ m, e.2 ≠ [] := by
      intro e he
      exact hp e (by simpa [hrec] using he)
    cases hg : GoMap.get? m topic with
    | none =>
      have hq : p.deleteAt topic partition = p := by
        simp [ProduceRequest.deleteAt, hrec, hg]
      rw [hq]
      have : (p.partitionsOf topic).length = 0 := by
        simp [ProduceRequest.partitionsOf, hrec, hg]
      simp only [this, if_true]
      exact deleteTopic_noEmpty p topic (fun e he _ => hp e he)
    | some inner =>
      have hq : p.deleteAt topic partition
          = { p with records := some (GoMap.set m topic (GoMap.delete inner partition)) } := by
        simp [ProduceRequest.deleteAt, hrec, hg]
      rw [hq]
      have hparts : ProduceRequest.partitionsOf
          { p with records := some (GoMap.set m topic (GoMap.delete inner partition)) } topic
          = GoMap.delete inner partition := by
        simp [ProduceRequest.partitionsOf, GoMap.get?_set_self]
      rw [hparts]
      by_cases hlen : (GoMap.delete inner partition).length = 0
      · simp only [hlen, if_true]
        apply deleteTopic_noEmpty
        intro e he hne
        simp only [Option.getD_some] at he
        rcases GoMap.mem_set _ _ _ e he with h1 | h1
        · exact absurd (by rw [h1]) hne
        · exact hm e h1
      · simp only [hlen, if_false]
        intro e he
        simp only [Option.getD_some] at he
        rcases GoMap.mem_set _ _ _ e he with h1 | h1
        · rw [h1]
          intro hnil
          exact hlen (by simp only at hnil; rw [hnil]; rfl)
        · exact hm e h1

/-- Lines 48-63, the mapping: after the pruning and the creation of the destination topic,
either the destination entry exists and every topic has a partition, or it does not exist and
every topic has a partition once the entry is stored. -/
theorem pruneAndEnsure_noEmpty (p p2 : ProduceRequest) (topic D : Bytes) (partition : Int)
    (srcLen : Nat) (hp : p.noEmptyTopic)
    (h : pruneAndEnsure p topic partition srcLen D = Result.ok p2) :
    match p2.at? D partition with
    | some _ => p2.noEmptyTopic
    | none => ∀ (c : Records) (p3 : ProduceRequest),
        p2.setAt D partition c = Result.ok p3 → p3.noEmptyTopic := by
  -- the request after the pruning
  obtain ⟨p1, hp1, hens⟩ : ∃ p1 : ProduceRequest, p1.noEmptyTopic ∧
      (if p1.hasTopic D then Result.ok p1 else p1.setTopic D []) = Result.ok p2 := by
    by_cases h0 : srcLen = 0
    · refine ⟨_, prune_noEmpty p topic partition hp, ?_⟩
      simpa [pruneAndEnsure, h0] using h
    · refine ⟨p, hp, ?_⟩
      simpa [pruneAndEnsure, h0] using h
  by_cases hD : p1.hasTopic D = true
  · simp only [hD, if_true, Result.ok.injEq] at hens
    subst hens
    cases hat : p1.at? D partition with
    | some c0 => exact hp1
    | none =>
      intro c p3 hset
      cases hrec : p1.records with
      | none => simp [ProduceRequest.setAt, hrec] at hset
      | some m =>
        cases hg : GoMap.get? m D with
        | none => simp [ProduceRequest.setAt, hrec, hg] at hset
        | some inner =>
          simp only [ProduceRequest.setAt, hrec, hg, Result.ok.injEq] at hset
          subst hset
          intro e he
          simp only [Option.getD_some] at he
          rcases GoMap.mem_set _ _ _ e he with h1 | h1
          · rw [h1]; exact GoMap.set_ne_nil _ _ _
          · exact hp1 e (by simpa [hrec] using h1)
  · simp only [hD, Bool.false_eq_true, if_false] at hens
    cases hrec : p1.records with
    | none => simp [ProduceRequest.setTopic, hrec] at hens
    | some m =>
      simp only [ProduceRequest.setTopic, hrec, Result.ok.injEq] at hens
      subst hens
      have hat : ProduceRequest.at? { p1 with records := some (GoMap.set m D []) } D partition
          = none := by
        simp [ProduceRequest.at?, ProduceRequest.partitionsOf, GoMap.get?_set_self, GoMap.get?]
      rw [hat]
      intro c p3 hset
      simp only [ProduceRequest.setAt, GoMap.get?_set_self, GoMap.set_set,
        Result.ok.injEq] at hset
      subst hset
      intro e he
      simp only [Option.getD_some] at he
      rcases GoMap.mem_set _ _ _ e he with h1 | h1
      · rw [h1]; exact GoMap.set_ne_nil _ _ _
      · exact hp1 e (by simpa [hrec] using h1)

theorem relocateMsg_noEmpty (ct : ClientTopicRule) (s s1 : State) (topic : Bytes)
    (partition : Int) (records : Records) (msgs : List MessageBlock) (mi : Nat)
    (msg : MessageBlock) (k : String) (hp : s.2.noEmptyTopic)
    (h : relocateMsg ct s topic partition records msgs mi msg k = Result.ok s1) :
    s1.2.noEmptyTopic := by
  simp only [relocateMsg, bind, Result.bind_eq_ok] at h
  obtain ⟨h1, -, cur, -, p2, hprune, hrest⟩ := h
  have hinv := pruneAndEnsure_noEmpty s.2 p2 topic _ partition _ hp hprune
  cases hat : p2.at? (ct.BrokerTopic k) partition with
  | some dstRecords =>
    rw [hat] at hinv hrest
    simp only [Result.bind_eq_ok, pure] at hrest
    obtain ⟨dst, -, h4, -, hs1⟩ := hrest
    simp only [Result.ok.injEq] at hs1
    rw [← hs1]
    exact hinv
  | none =>
    rw [hat] at hinv hrest
    simp only [Result.bind_eq_ok, pure] at hrest
    obtain ⟨h2, -, p3, hset, dst, -, h4, -, hs1⟩ := hrest
    simp only [Result.ok.injEq] at hs1
    rw [← hs1]
    exact hinv records p3 hset

theorem relocateRecord_noEmpty (ct : ClientTopicRule) (s s1 : State) (topic : Bytes)
    (partition : Int) (records : Records) (recs : List Record) (mi : Nat)
    (rsd : Record) (k : String) (hp : s.2.noEmptyTopic)
    (h : relocateRecord ct s topic partition records recs mi rsd k = Result.ok s1) :
    s1.2.noEmptyTopic := by
  simp only [relocateRecord, bind, Result.bind_eq_ok] at h
  obtain ⟨h1, -, cur, -, p2, hprune, hrest⟩ := h
  have hinv := pruneAndEnsure_noEmpty s.2 p2 topic _ partition _ hp hprune
  cases hat : p2.at? (ct.BrokerTopic k) partition with
  | some dstRecords =>
    rw [hat] at hinv hrest
    simp only [Result.bind_eq_ok, pure] at hrest
    obtain ⟨dst, -, h4, -, hs1⟩ := hrest
    simp only [Result.ok.injEq] at hs1
    rw [← hs1]
    exact hinv
  | none =>
    rw [hat] at hinv hrest
    simp only [Result.bind_eq_ok, pure] at hrest
    obtain ⟨h2, -, p3, hset, dst, -, h4, -, hs1⟩ := hrest
    simp only [Result.ok.injEq] at hs1
    rw [← hs1]
    exact hinv records p3 hset

theorem changeTopicPartitions_noEmpty (ct : ClientTopicRule) (s s1 : State) (topic : Bytes)
    (v : List (Int × Records)) (hp : s.2.noEmptyTopic)
    (h : changeTopicPartitions ct s topic v = Result.ok (some s1)) : s1.2.noEmptyTopic := by
  induction v with
  | nil => simp [changeTopicPartitions] at h
  | cons p rest ih =>
    obtain ⟨partition, c⟩ := p
    cases ht : c.recordsType with
    | unknownRecords =>
      simp only [changeTopicPartitions, ht] at h
      exact ih h
    | legacyRecords =>
      simp only [changeTopicPartitions, ht] at h
      cases hs : s.1.msgSet c.MsgSet with
      | ok set =>
        rw [hs] at h
        simp only at h
        cases hf : findMsg ct set.Messages 0 with
        | none =>
          rw [hf] at h
          exact ih h
        | some hit =>
          obtain ⟨mi, msg, k⟩ := hit
          rw [hf] at h
          simp only [Result.bind_eq_ok, Result.ok.injEq, Option.some.injEq] at h
          obtain ⟨s2, hrel, heq⟩ := h
          rw [← heq]
          exact relocateMsg_noEmpty ct s s2 topic partition c _ mi msg k hp hrel
      | error e => rw [hs] at h; simp at h
      | panic => rw [hs] at h; simp at h
    | defaultRecords =>
      simp only [changeTopicPartitions, ht] at h
      cases hs : s.1.batch c.RecordBatch with
      | ok b =>
        rw [hs] at h
        simp only at h
        cases hf : findRecord ct b.Records 0 with
        | none =>
          rw [hf] at h
          exact ih h
        | some hit =>
          obtain ⟨mi, rsd, k⟩ := hit
          rw [hf] at h
          simp only [Result.bind_eq_ok, Result.ok.injEq, Option.some.injEq] at h
          obtain ⟨s2, hrel, heq⟩ := h
          rw [← heq]
          exact relocateRecord_noEmpty ct s s2 topic partition c _ mi rsd k hp hrel
      | error e => rw [hs] at h; simp at h
      | panic => rw [hs] at h; simp at h

theorem changeTopicTopics_noEmpty (rule : TopicRule) (s s1 : State)
    (l : List (Bytes × GoMap Int Records)) (hp : s.2.noEmptyTopic)
    (h : changeTopicTopics rule s l = Result.ok (some s1)) : s1.2.noEmptyTopic := by
  induction l with
  | nil => simp [changeTopicTopics] at h
  | cons e rest ih =>
    obtain ⟨topic, v⟩ := e
    by_cases ha : rule.CheckClientTopicIsRule topic = true
    · simp only [changeTopicTopics, ha, if_true] at h
      cases hc : changeTopicPartitions (rule.GetClientTopicRule topic) s topic v with
      | ok o =>
        rw [hc] at h
        cases o with
        | none => exact ih h
        | some s2 =>
          simp only [Result.ok.injEq, Option.some.injEq] at h
          rw [← h]
          exact changeTopicPartitions_noEmpty _ s s2 topic v hp hc
      | error e => rw [hc] at h; simp at h
      | panic => rw [hc] at h; simp at h
    · simp only [changeTopicTopics, ha, Bool.false_eq_true, if_false] at h
      exact ih h

/-- C10 (no-empty-topic invariant). The request without records has no topic with an empty
partition mapping; and if a request has none, then the request after a return of AddMessage, of
AddSet (which always returns), of AddBatch (which always returns) and of changeTopic, for every
rule provider and whatever the containers are (legacy message sets included), has none. -/
theorem noEmptyTopic_invariant :
    ProduceRequest.zero.noEmptyTopic ∧
    (∀ (s s1 : State) (topic : Bytes) (partition : Int) (msg : Message),
      s.2.noEmptyTopic → AddMessage s topic partition msg = Result.ok s1 →
        s1.2.noEmptyTopic) ∧
    (∀ (s : State) (topic : Bytes) (partition : Int) (set : Option Nat),
      s.2.noEmptyTopic →
        ∃ s1, AddSet s topic partition set = Result.ok s1 ∧ s1.2.noEmptyTopic) ∧
    (∀ (s : State) (topic : Bytes) (partition : Int) (batch : Option Nat),
      s.2.noEmptyTopic →
        ∃ s1, AddBatch s topic partition batch = Result.ok s1 ∧ s1.2.noEmptyTopic) ∧
    (∀ (rule : TopicRule) (s s1 : State),
      s.2.noEmptyTopic → changeTopic rule s = Result.ok s1 → s1.2.noEmptyTopic) := by
  refine ⟨by decide, ?_, ?_, ?_, ?_⟩
  · intro s s1 topic partition msg hp h
    exact (attach_invariants (AttachOp.addMessage topic partition msg) s s1 h).2.2 hp
  · intro s topic partition set hp
    have h : ∃ s1, AddSet s topic partition set = Result.ok s1 := by
      simp only [AddSet, bind, ensure_setAt, Result.bind_ok, pure]
      exact ⟨_, rfl⟩
    obtain ⟨s1, hs1⟩ := h
    exact ⟨s1, hs1, (attach_invariants (AttachOp.addSet topic partition set) s s1 hs1).2.2 hp⟩
  · intro s topic partition batch hp
    have h : ∃ s1, AddBatch s topic partition batch = Result.ok s1 := by
      simp only [AddBatch, bind, ensure_setAt, Result.bind_ok, pure]
      exact ⟨_, rfl⟩
    obtain ⟨s1, hs1⟩ := h
    exact ⟨s1, hs1,
      (attach_invariants (AttachOp.addBatch topic partition batch) s s1 hs1).2.2 hp⟩
  · intro rule s s1 hp h
    simp only [changeTopic] at h
    cases hc : changeTopicTopics rule s (s.2.records.getD []) with
    | ok o =>
      rw [hc] at h
      cases o with
      | none =>
        simp only [Result.ok.injEq] at h
        rw [← h]; exact hp
      | some s2 =>
        simp only [Result.ok.injEq] at h
        rw [← h]
        exact changeTopicTopics_noEmpty rule s s2 _ hp hc
    | error e => rw [hc] at h; simp at h
    | panic => rw [hc] at h; simp at h

theorem noEmptyTopic_invariant_witness :
    twoTopicState.2.noEmptyTopic ∧ relocatedState.2.noEmptyTopic :=
  ⟨by decide,
   noEmptyTopic_invariant.2.2.2.2 ordersRule twoTopicState relocatedState (by decide)
    (by decide)⟩


/-! ## Attaching messages -/

theorem at?_eq (r : ProduceRequest) (t : Bytes) (p : Int) :
    r.at? t p = GoMap.get? ((GoMap.get? (r.records.getD []) t).getD []) p := by
  cases hrec : r.records with
  | none => simp [ProduceRequest.at?, ProduceRequest.partitionsOf, hrec, GoMap.get?]
  | some m => simp [ProduceRequest.at?, ProduceRequest.partitionsOf, hrec]

/-- Lookup after `m[T][P] = c`: the entry `(T, P)` is `c`, every other entry is as before. -/
theorem get?_set_set (m : GoMap Bytes (GoMap Int Records)) (T t : Bytes) (P p : Int)
    (c : Records) :
    GoMap.get? ((GoMap.get? (GoMap.set m T
        (GoMap.set ((GoMap.get? m T).getD []) P c)) t).getD []) p
      = if t = T ∧ p = P then some c else GoMap.get? ((GoMap.get? m t).getD []) p := by
  by_cases ht : t = T
  · subst ht
    rw [GoMap.get?_set_self]
    by_cases hp : p = P
    · subst hp
      simp [GoMap.get?_set_self]
    · simp [hp, GoMap.get?_set_of_ne _ P p c hp]
  · simp [ht, GoMap.get?_set_of_ne _ T t _ ht]

theorem ensureRecords_at? (r : ProduceRequest) (T t : Bytes) (P p : Int) :
    (ensureRecords r T P).at? t p = r.at? t p := by
  rw [at?_eq, at?_eq]
  cases hg : GoMap.get? (r.records.getD []) T with
  | some inner => simp [ensureRecords, hg]
  | none =>
    simp only [ensureRecords, hg, Option.getD_some]
    by_cases ht : t = T
    · subst ht
      simp [GoMap.get?_set_self, hg, GoMap.get?]
    · rw [GoMap.get?_set_of_ne _ T t _ ht]

/-- `AddMessage` on an entry without a message set (absent, or holding a container whose
`MsgSet` is nil): a new set holding the message is allocated and stored under `(T, P)`. -/
theorem AddMessage_new (s : State) (T : Bytes) (P : Int) (msg : Message)
    (hnil : (s.2.atD T P).MsgSet = none) :
    AddMessage s T P msg
      = Result.ok (⟨s.1.msgSets ++ [⟨[⟨0, msg⟩]⟩], s.1.batches⟩,
          { s.2 with records := some (GoMap.set (s.2.records.getD []) T
            (GoMap.set ((GoMap.get? (s.2.records.getD []) T).getD []) P
              (newLegacyRecords (some s.1.msgSets.length)))) }) := by
  have h1 : ((ensureRecords s.2 T P).atD T P).MsgSet = none := by
    simp only [ProduceRequest.atD, ensureRecords_at?] at hnil ⊢
    exact hnil
  simp only [AddMessage, bind, pure, h1, Heap.newMessageSet, ensure_setAt, Result.bind_ok,
    addMessage, Heap.msgSet, Heap.setMessages, List.getElem?_append_right (Nat.le_refl _),
    Nat.sub_self, List.getElem?_cons_zero, List.length_append, List.length_cons,
    List.length_nil, Nat.lt_succ_self, Nat.zero_add, if_true, List.nil_append]
  simp

/-- `AddMessage` on an entry that holds the message set at address `a`: the message is appended
to that set, and the mapping is left as it was. -/
theorem AddMessage_existing (s : State) (T : Bytes) (P : Int) (msg : Message) (a : Nat)
    (set : MessageSet) (hset : (s.2.atD T P).MsgSet = some a)
    (ha : s.1.msgSets[a]? = some set) :
    AddMessage s T P msg
      = Result.ok (⟨s.1.msgSets.set a ⟨set.Messages ++ [⟨0, msg⟩]⟩, s.1.batches⟩, s.2) := by
  have h1 : ((ensureRecords s.2 T P).atD T P).MsgSet = some a := by
    simp only [ProduceRequest.atD, ensureRecords_at?] at hset ⊢
    exact hset
  have hlt : a < s.1.msgSets.length := by
    by_contra hc
    rw [List.getElem?_eq_none (by omega)] at ha
    simp at ha
  obtain ⟨he, -⟩ := ensureRecords_of_msgSet s.2 T P a h1
  simp only [AddMessage, bind, pure, h1]
  simp only [he, addMessage, Heap.msgSet, ha, Result.bind_ok, Heap.setMessages, hlt, if_true,
    bind]

/-- C11 (amended: AddMessage replaces the entry). When `(T, P)` holds a default record batch,
`AddMessage(T, P, msg)` returns without failure and stores under `(T, P)` a new legacy
container whose message set holds exactly `msg`; the batch object is left untouched in the heap
but the entry no longer refers to it, and every other entry is as before. -/
theorem AddMessage_replaces_batch_entry (s : State) (T : Bytes) (P : Int) (msg : Message)
    (b : Option Nat) (hentry : s.2.at? T P = some (newDefaultRecords b)) :
    ∃ s1 : State, AddMessage s T P msg = Result.ok s1 ∧
      s1.2.at? T P = some (newLegacyRecords (some s.1.msgSets.length)) ∧
      s1.1.msgSet (some s.1.msgSets.length) = Result.ok ⟨[⟨0, msg⟩]⟩ ∧
      s1.1.batches = s.1.batches ∧
      (∀ (t : Bytes) (p : Int), ¬ (t = T ∧ p = P) → s1.2.at? t p = s.2.at? t p) := by
  have hnil : (s.2.atD T P).MsgSet = none := by
    simp [ProduceRequest.atD, hentry, newDefaultRecords]
  refine ⟨_, AddMessage_new s T P msg hnil, ?_, ?_, rfl, ?_⟩
  · rw [at?_eq]
    simp only [Option.getD_some]
    rw [get?_set_set]
    simp
  · simp [Heap.msgSet]
  · intro t p hne
    rw [at?_eq, at?_eq]
    simp only [Option.getD_some]
    rw [get?_set_set]
    simp [hne]

theorem AddMessage_replaces_batch_entry_witness :
    ∃ s1 : State, AddMessage batchState topicOrders 0 (msgOf 5) = Result.ok s1 ∧
      s1.2.at? topicOrders 0 = some (newLegacyRecords (some batchState.1.msgSets.length)) ∧
      s1.1.msgSet (some batchState.1.msgSets.length) = Result.ok ⟨[⟨0, msgOf 5⟩]⟩ ∧
      s1.1.batches = batchState.1.batches ∧
      (∀ (t : Bytes) (p : Int), ¬ (t = topicOrders ∧ p = 0) →
        s1.2.at? t p = batchState.2.at? t p) :=
  AddMessage_replaces_batch_entry batchState topicOrders 0 (msgOf 5) (some 0) (by decide)

/-- C11 (counterexample). "orders"/0 holds a record batch attached with `AddBatch`;
`AddMessage("orders", 0, msg)` returns without failure and afterwards the entry holds a legacy
message set, not the record batch. -/
theorem AddMessage_replaces_batch_entry_counterexample :
    AddBatch batchHeapState topicOrders 0 (some 0) = Result.ok batchState ∧
      batchState.2.at? topicOrders 0 = some (newDefaultRecords (some 0)) ∧
      ∃ s1 : State, AddMessage batchState topicOrders 0 (msgOf 5) = Result.ok s1 ∧
        s1.2.at? topicOrders 0 = some (newLegacyRecords (some 0)) ∧
        s1.2.at? topicOrders 0 ≠ some (newDefaultRecords (some 0)) := by
  refine ⟨by decide, by decide, ?_⟩
  exact ⟨(⟨[⟨[⟨0, msgOf 5⟩]⟩], batchHeapState.1.batches⟩,
    ⟨none, 1, 100, 3, some [(topicOrders, [(0, newLegacyRecords (some 0))])]⟩),
    by decide, by decide, by decide⟩

theorem addMessages_existing (T : Bytes) (P : Int) (rest : List Message) (s : State) (a : Nat)
    (acc : List MessageBlock) (hset : (s.2.atD T P).MsgSet = some a)
    (ha : s.1.msgSets[a]? = some ⟨acc⟩) :
    addMessages T P rest s
      = Result.ok (⟨s.1.msgSets.set a ⟨acc ++ rest.map fun m => ⟨0, m⟩⟩, s.1.batches⟩, s.2) := by
  induction rest generalizing s acc with
  | nil =>
    simp only [addMessages, List.map_nil, List.append_nil]
    rw [List.set_eq_self_of_getElem? _ _ _ ha]
  | cons m tl ih =>
    have hlt : a < s.1.msgSets.length := by
      by_contra hc
      rw [List.getElem?_eq_none (by omega)] at ha
      simp at ha
    simp only [addMessages, AddMessage_existing s T P m a ⟨acc⟩ hset ha, Result.bind_ok]
    have hstep := ih ((⟨s.1.msgSets.set a ⟨acc ++ [(⟨0, m⟩ : MessageBlock)]⟩, s.1.batches⟩
      : Heap), s.2) (acc ++ [(⟨0, m⟩ : MessageBlock)]) hset
      (by simp [List.getElem?_set_self hlt])
    rw [hstep]
    simp [List.set_set, List.append_assoc]

/-- C12 (AddMessage appends in order). From a state with no entry for `(T, P)`, the calls
`AddMessage(T, P, m1)` ... `AddMessage(T, P, mn)` (n at least 1) all return; afterwards `(T, P)`
holds a legacy container whose message set, a new object, holds exactly the blocks of
`m1 ... mn` in that order; every other entry, every older object of the heap and the scalar
fields are as before. -/
theorem AddMessage_appends_in_order (s : State) (T : Bytes) (P : Int) (m1 : Message)
    (rest : List Message) (hnone : s.2.at? T P = none) :
    ∃ s1 : State, addMessages T P (m1 :: rest) s = Result.ok s1 ∧
      s1.2.at? T P = some (newLegacyRecords (some s.1.msgSets.length)) ∧
      s1.1.msgSet (some s.1.msgSets.length)
        = Result.ok ⟨(m1 :: rest).map fun m => ⟨0, m⟩⟩ ∧
      s1.1.msgSets = s.1.msgSets ++ [⟨(m1 :: rest).map fun m => ⟨0, m⟩⟩] ∧
      s1.1.batches = s.1.batches ∧
      (∀ (t : Bytes) (p : Int), ¬ (t = T ∧ p = P) → s1.2.at? t p = s.2.at? t p) ∧
      s1.2.TransactionalID = s.2.TransactionalID ∧ s1.2.RequiredAcks = s.2.RequiredAcks ∧
      s1.2.Timeout = s.2.Timeout ∧ s1.2.Version = s.2.Version := by
  have hnil : (s.2.atD T P).MsgSet = none := by
    simp [ProduceRequest.atD, hnone, Records.zero]
  have hat : ProduceRequest.at? { s.2 with records := some (GoMap.set (s.2.records.getD []) T
      (GoMap.set ((GoMap.get? (s.2.records.getD []) T).getD []) P
        (newLegacyRecords (some s.1.msgSets.length)))) } T P
      = some (newLegacyRecords (some s.1.msgSets.length)) := by
    rw [at?_eq]
    simp only [Option.getD_some]
    rw [get?_set_set]
    simp
  have hrest := addMessages_existing T P rest
    (⟨s.1.msgSets ++ [⟨[⟨0, m1⟩]⟩], s.1.batches⟩,
      { s.2 with records := some (GoMap.set (s.2.records.getD []) T
        (GoMap.set ((GoMap.get? (s.2.records.getD []) T).getD []) P
          (newLegacyRecords (some s.1.msgSets.length)))) })
    s.1.msgSets.length [⟨0, m1⟩]
    (by simp only [ProduceRequest.atD, hat]; rfl)
    (by simp)
  refine ⟨((⟨s.1.msgSets ++ [⟨(m1 :: rest).map fun m => ⟨0, m⟩⟩], s.1.batches⟩ : Heap),
    ⟨s.2.TransactionalID, s.2.RequiredAcks, s.2.Timeout, s.2.Version,
      some (GoMap.set (s.2.records.getD []) T
        (GoMap.set ((GoMap.get? (s.2.records.getD []) T).getD []) P
          (newLegacyRecords (some s.1.msgSets.length))))⟩), ?_, ?_, ?_, rfl, rfl, ?_, rfl, rfl,
    rfl, rfl⟩
  · simp only [addMessages, AddMessage_new s T P m1 hnil, Result.bind_ok]
    rw [hrest]
    simp
  · exact hat
  · simp [Heap.msgSet]
  · intro t p hne
    rw [at?_eq, at?_eq]
    simp only [Option.getD_some]
    rw [get?_set_set]
    simp [hne]

theorem AddMessage_appends_in_order_witness :
    ∃ s1 : State, addMessages topicAudit 3 (msgOf 4 :: [msgOf 5, msgOf 6]) exampleState
        = Result.ok s1 ∧
      s1.2.at? topicAudit 3 = some (newLegacyRecords (some exampleState.1.msgSets.length)) ∧
      s1.1.msgSet (some exampleState.1.msgSets.length)
        = Result.ok ⟨(msgOf 4 :: [msgOf 5, msgOf 6]).map fun m => ⟨0, m⟩⟩ ∧
      s1.1.msgSets = exampleState.1.msgSets
        ++ [⟨(msgOf 4 :: [msgOf 5, msgOf 6]).map fun m => ⟨0, m⟩⟩] ∧
      s1.1.batches = exampleState.1.batches ∧
      (∀ (t : Bytes) (p : Int), ¬ (t = topicAudit ∧ p = 3) →
        s1.2.at? t p = exampleState.2.at? t p) ∧
      s1.2.TransactionalID = exampleState.2.TransactionalID ∧
      s1.2.RequiredAcks = exampleState.2.RequiredAcks ∧
      s1.2.Timeout = exampleState.2.Timeout ∧ s1.2.Version = exampleState.2.Version :=
  AddMessage_appends_in_order exampleState topicAudit 3 (msgOf 4) [msgOf 5, msgOf 6]
    (by decide)

/-! ## Metrics derivation -/

/-- The loop of `updateMsgSetMetrics` from any count and log: the count grows by the records of
the blocks, the log by their histogram updates. -/
theorem updateMsgSetMetrics_foldl (fl : Float64Ratio) (g t : Histogram)
    (msgs : List MessageBlock) (n : Int) (log : List MetricEvent) :
    msgs.foldl (updateMsgSetMetricsStep fl g t) (n, log)
      = (n + legacyCount msgs, log ++ legacyUpdates fl g t msgs) := by
  induction msgs generalizing n log with
  | nil => simp [legacyCount, legacyUpdates]
  | cons b rest ih =>
    simp only [List.foldl_cons, legacyCount, legacyUpdates]
    have hstep : updateMsgSetMetricsStep fl g t (n, log) b
        = (n + blockCount b, log ++ blockUpdates fl g t b) := by
      simp only [updateMsgSetMetricsStep, blockCount, blockUpdates, Histogram.Update]
      by_cases hc : b.Msg.compressedSize = 0
      · cases hs : b.Msg.Set <;> simp [hc]
      · cases hs : b.Msg.Set <;> simp [hc]
    rw [hstep, ih]
    simp [add_assoc, List.append_assoc]

/-- C13 (record counting). For every legacy message set, `updateMsgSetMetrics` returns the sum
over its blocks of the number of messages of the nested set when the block's message wraps one,
and of 1 otherwise: one wrapper with 3 nested messages counts 3, two ordinary messages count 2.
For every record batch, `updateBatchMetrics` returns the length of its record array. -/
theorem metrics_record_count (fl : Float64Ratio) (h : Heap) (g t : Histogram)
    (log : List MetricEvent) :
    (∀ (msgSet : Option Nat) (set : MessageSet), h.msgSet msgSet = Result.ok set →
      ∃ log1, updateMsgSetMetrics fl h msgSet g t log
        = Result.ok (legacyCount set.Messages, log1)) ∧
    (∀ (recordBatch : Option Nat) (b : RecordBatch), h.batch recordBatch = Result.ok b →
      ∃ log1, updateBatchMetrics fl h recordBatch g t log
        = Result.ok ((b.Records.length : Int), log1)) ∧
    (∀ (m : Message) (n1 n2 n3 : NestedMessage), m.Set = some [n1, n2, n3] →
      legacyCount [⟨0, m⟩] = 3) ∧
    (∀ m1 m2 : Message, m1.Set = none → m2.Set = none →
      legacyCount [⟨0, m1⟩, ⟨0, m2⟩] = 2) := by
  refine ⟨?_, ?_, ?_, ?_⟩
  · intro msgSet set hset
    refine ⟨log ++ legacyUpdates fl g t set.Messages, ?_⟩
    simp [updateMsgSetMetrics, hset, updateMsgSetMetrics_foldl]
  · intro recordBatch b hb
    cases hc : b.compressedRecords with
    | none => exact ⟨log, by simp [updateBatchMetrics, hb, hc]⟩
    | some buf =>
      exact ⟨t.Update (g.Update log (fl.batch b.recordsLen (buf.length : Int)))
        (fl.batch b.recordsLen (buf.length : Int)),
        by simp only [updateBatchMetrics, hb, hc, Result.bind_ok]⟩
  · intro m n1 n2 n3 hm
    simp [legacyCount, blockCount, hm]
  · intro m1 m2 h1 h2
    simp [legacyCount, blockCount, h1, h2]

theorem metrics_record_count_witness :
    (∃ log1, updateMsgSetMetrics exampleRatio countingHeap (some 0) ⟨"compression-ratio", none⟩
        ⟨"compression-ratio", some topicOrders⟩ []
      = Result.ok (3, log1)) ∧
    (∃ log1, updateMsgSetMetrics exampleRatio countingHeap (some 1) ⟨"compression-ratio", none⟩
        ⟨"compression-ratio", some topicOrders⟩ []
      = Result.ok (2, log1)) ∧
    (∃ log1, updateBatchMetrics exampleRatio countingHeap (some 0) ⟨"compression-ratio", none⟩
        ⟨"compression-ratio", some topicOrders⟩ []
      = Result.ok (2, log1)) :=
  ⟨(metrics_record_count exampleRatio countingHeap _ _ []).1 (some 0) wrapperSet (by decide),
   (metrics_record_count exampleRatio countingHeap _ _ []).1 (some 1) plainSet (by decide),
   (metrics_record_count exampleRatio countingHeap _ _ []).2.1 (some 0) twoRecordBatch
    (by decide)⟩

/-- C14 (amended: the float64 product is truncated, not rounded). For every legacy message set
`updateMsgSetMetrics` pushes, block by block and only for a `compressedSize` other than 0, one
integer first to the global and then to the topic histogram; in float64 arithmetic that integer
is `int64(100 * (float64(u) / float64(c)))`, the product with its fraction dropped, for value
length `u` and compressed size `c`. For every record batch with a non-empty compressed buffer
`updateBatchMetrics` pushes `int64(float64(recordsLen) / float64(len) * 100)`, truncated
likewise, to both histograms. With `u = 300` and `c = 100` the value is 300. -/
theorem compression_ratio_truncates (undef : Int) (h : Heap) (g t : Histogram)
    (log : List MetricEvent) :
    (∀ (msgSet : Option Nat) (set : MessageSet), h.msgSet msgSet = Result.ok set →
      updateMsgSetMetrics (binary64Ratio undef) h msgSet g t log
        = Result.ok (legacyCount set.Messages,
            log ++ legacyUpdates (binary64Ratio undef) g t set.Messages)) ∧
    (∀ b : MessageBlock, b.Msg.compressedSize ≠ 0 →
      blockUpdates (binary64Ratio undef) g t b
        = [MetricEvent.histogramUpdate g.name g.topic
            (toInt64 undef (F64.trunc (F64.mul (F64.ofInt 100)
              (F64.div (F64.ofInt (b.Msg.Value.length : Int))
                (F64.ofInt b.Msg.compressedSize))))),
           MetricEvent.histogramUpdate t.name t.topic
            (toInt64 undef (F64.trunc (F64.mul (F64.ofInt 100)
              (F64.div (F64.ofInt (b.Msg.Value.length : Int))
                (F64.ofInt b.Msg.compressedSize)))))]) ∧
    (∀ b : MessageBlock, b.Msg.compressedSize = 0 →
      blockUpdates (binary64Ratio undef) g t b = []) ∧
    (∀ (recordBatch : Option Nat) (b : RecordBatch) (buf : Bytes),
      h.batch recordBatch = Result.ok b → b.compressedRecords = some buf → buf ≠ [] →
      updateBatchMetrics (binary64Ratio undef) h recordBatch g t log
        = Result.ok ((b.Records.length : Int), log ++
          [MetricEvent.histogramUpdate g.name g.topic
            (toInt64 undef (F64.trunc (F64.mul
              (F64.div (F64.ofInt b.recordsLen) (F64.ofInt (buf.length : Int)))
              (F64.ofInt 100)))),
           MetricEvent.histogramUpdate t.name t.topic
            (toInt64 undef (F64.trunc (F64.mul
              (F64.div (F64.ofInt b.recordsLen) (F64.ofInt (buf.length : Int)))
              (F64.ofInt 100))))])) ∧
    (binary64Ratio undef).msgSet 300 100 = 300 := by
  refine ⟨?_, ?_, ?_, ?_, ?_⟩
  · intro msgSet set hset
    simp [updateMsgSetMetrics, hset, updateMsgSetMetrics_foldl]
  · intro b hb
    simp [blockUpdates, hb, binary64Ratio]
  · intro b hb
    simp [blockUpdates, hb]
  · intro recordBatch b buf hb hbuf hne
    simp [updateBatchMetrics, hb, hbuf, binary64Ratio, Histogram.Update, hne]
  · have hv : ((F64.ofInt 100).mul ((F64.ofInt 300).div (F64.ofInt 100))).trunc = 300 := by
      decide
    simp [binary64Ratio, hv, toInt64]

theorem compression_ratio_truncates_witness :
    updateMsgSetMetrics (binary64Ratio 0) ratioHeap (some 1) ⟨"compression-ratio", none⟩
        ⟨"compression-ratio", some topicOrders⟩ []
      = Result.ok (legacyCount [⟨0, ⟨[], List.replicate 300 0, none, 100⟩⟩],
          [] ++ legacyUpdates (binary64Ratio 0) ⟨"compression-ratio", none⟩
            ⟨"compression-ratio", some topicOrders⟩
            [⟨0, ⟨[], List.replicate 300 0, none, 100⟩⟩]) :=
  (compression_ratio_truncates 0 ratioHeap ⟨"compression-ratio", none⟩
    ⟨"compression-ratio", some topicOrders⟩ []).1 (some 1)
    ⟨[⟨0, ⟨[], List.replicate 300 0, none, 100⟩⟩]⟩ (by decide)

/-- C14 (counterexample). A legacy message with a value of 2 bytes and `compressedSize` 3:
`updateMsgSetMetrics` pushes 66 to the global and to the topic histogram, the float64 value
66.66... with its fraction dropped, while `round(100 × 2 / 3)` is 67. -/
theorem compression_ratio_truncates_counterexample :
    updateMsgSetMetrics (binary64Ratio 0) ratioHeap (some 0) ⟨"compression-ratio", none⟩
        ⟨"compression-ratio", some topicOrders⟩ []
      = Result.ok (1, [MetricEvent.histogramUpdate "compression-ratio" none 66,
          MetricEvent.histogramUpdate "compression-ratio" (some topicOrders) 66]) ∧
    specRatio 2 3 = 67 := by
  refine ⟨by decide, ?_⟩
  unfold specRatio
  rw [round_eq, Int.floor_eq_iff]
  norm_num

/-! ## Decode of a request without topics -/

/-- C15 (zero topics decode to an absent mapping). For every version, on an input that holds
the header fields and a topic array length of 0 (followed by any bytes), decode into a fresh
request succeeds, reads exactly the header and the length, leaves the records mapping nil, and
sets Version, RequiredAcks and Timeout from the input, and TransactionalID for version 3 on. -/
theorem decode_zero_topics (codec : RecordsCodec) (version acks timeout : Int)
    (tid : Option Bytes) (rest : Bytes) (h : Heap) (hacks : isInt16 acks)
    (htimeout : isInt32 timeout) (htid : version ≥ 3 → ∀ t ∈ tid, t.length ≤ 32767) :
    decode codec (wireRequest version tid acks timeout [] ++ rest) version
        (h, ProduceRequest.zero)
      = Result.ok ((h, ⟨if version ≥ 3 then tid else none, acks, timeout, version, none⟩),
          rest) := by
  have h0 := getArrayLength_be32 0 (by omega) rest
  simp only [Nat.cast_zero] at h0
  unfold decode wireRequest wireBody
  by_cases hv : version ≥ 3
  · simp only [hv, if_true, List.append_assoc, List.length_nil, wireTopics, List.nil_append,
      Nat.cast_zero]
    rw [getNullableString_wire _ _ (htid hv)]
    simp only [Result.bind_ok]
    rw [getInt16_be16 _ hacks]
    simp only [Result.bind_ok]
    rw [getInt32_be32 _ htimeout]
    simp only [Result.bind_ok]
    rw [h0]
    simp [ProduceRequest.zero]
  · simp only [hv, if_false, List.nil_append, Result.bind_ok, List.append_assoc,
      List.length_nil, wireTopics, Nat.cast_zero]
    rw [getInt16_be16 _ hacks]
    simp only [Result.bind_ok]
    rw [getInt32_be32 _ htimeout]
    simp only [Result.bind_ok]
    rw [h0]
    simp [ProduceRequest.zero]

theorem decode_zero_topics_witness :
    decode exampleCodec (wireRequest 3 (some (ascii "tx")) (-1) 1000 [] ++ [7, 7]) 3
        (Heap.empty, ProduceRequest.zero)
      = Result.ok ((Heap.empty,
          ⟨if (3 : Int) ≥ 3 then some (ascii "tx") else none, -1, 1000, 3, none⟩), [7, 7]) :=
  decode_zero_topics exampleCodec 3 (-1) 1000 (some (ascii "tx")) [7, 7] Heap.empty
    (by decide) (by decide) (by decide)

/-! ## The rewrite pass with an existing destination -/

theorem partitionsOf_eq (p : ProduceRequest) (t : Bytes) :
    p.partitionsOf t = (GoMap.get? (p.records.getD []) t).getD [] := by
  cases hrec : p.records with
  | none => simp [ProduceRequest.partitionsOf, hrec, GoMap.get?]
  | some m => simp [ProduceRequest.partitionsOf, hrec]

theorem hasTopic_eq (p : ProduceRequest) (t : Bytes) :
    p.hasTopic t = (GoMap.get? (p.records.getD []) t).isSome := by
  cases hrec : p.records with
  | none => simp [ProduceRequest.hasTopic, hrec, GoMap.get?]
  | some m => simp [ProduceRequest.hasTopic, hrec]

theorem get?_deleteAt_ne (p : ProduceRequest) (T D : Bytes) (P : Int) (hDT : D ≠ T) :
    GoMap.get? ((p.deleteAt T P).records.getD []) D = GoMap.get? (p.records.getD []) D := by
  cases hrec : p.records with
  | none => simp [ProduceRequest.deleteAt, hrec]
  | some m =>
    cases hg : GoMap.get? m T with
    | none => simp [ProduceRequest.deleteAt, hrec, hg]
    | some inner =>
      simp [ProduceRequest.deleteAt, hrec, hg, GoMap.get?_set_of_ne m T D _ hDT]

theorem get?_deleteTopic_ne (p : ProduceRequest) (T D : Bytes) (hDT : D ≠ T) :
    GoMap.get? ((p.deleteTopic T).records.getD []) D = GoMap.get? (p.records.getD []) D := by
  cases hrec : p.records with
  | none => simp [ProduceRequest.deleteTopic, hrec]
  | some m => simp [ProduceRequest.deleteTopic, hrec, GoMap.get?_delete_of_ne m T D hDT]

/-- Lines 48-57 when the destination topic exists and is not the source topic: whatever is
pruned, the partitions of the destination topic are as before. -/
theorem pruneAndEnsure_existing (p : ProduceRequest) (T D : Bytes) (P : Int) (srcLen : Nat)
    (hDT : D ≠ T) (hD : p.hasTopic D = true) :
    ∃ p2, pruneAndEnsure p T P srcLen D = Result.ok p2 ∧
      GoMap.get? (p2.records.getD []) D = GoMap.get? (p.records.getD []) D := by
  have key : ∀ p1 : ProduceRequest,
      GoMap.get? (p1.records.getD []) D = GoMap.get? (p.records.getD []) D →
      (if p1.hasTopic D = true then Result.ok p1 else p1.setTopic D []) = Result.ok p1 := by
    intro p1 h1
    have : p1.hasTopic D = true := by
      rw [hasTopic_eq, h1, ← hasTopic_eq]; exact hD
    simp [this]
  unfold pruneAndEnsure
  by_cases h0 : srcLen = 0
  · by_cases h1 : ((p.deleteAt T P).partitionsOf T).length = 0
    · have hg : GoMap.get? (((p.deleteAt T P).deleteTopic T).records.getD []) D
          = GoMap.get? (p.records.getD []) D := by
        rw [get?_deleteTopic_ne _ T D hDT, get?_deleteAt_ne _ T D P hDT]
      refine ⟨(p.deleteAt T P).deleteTopic T, ?_, hg⟩
      simp only [h0, h1, if_true]
      exact key _ hg
    · have hg := get?_deleteAt_ne p T D P hDT
      refine ⟨p.deleteAt T P, ?_, hg⟩
      simp only [h0, h1, if_true, if_false]
      exact key _ hg
  · refine ⟨p, ?_, rfl⟩
    simp only [h0, if_false]
    exact key _ rfl

theorem changeTopicPartitions_append (ct : ClientTopicRule) (s : State) (topic : Bytes)
    (vpre rest : List (Int × Records))
    (h : ∀ p ∈ vpre, p.2.inspectable s.1 = true ∧ p.2.anyMatch ct s.1 = false) :
    changeTopicPartitions ct s topic (vpre ++ rest) = changeTopicPartitions ct s topic rest := by
  induction vpre with
  | nil => rfl
  | cons p tl ih =>
    obtain ⟨partition, c⟩ := p
    obtain ⟨h1, h2⟩ := h (partition, c) (List.mem_cons_self _ _)
    have ih1 := ih (fun p hp => h p (List.mem_cons_of_mem _ hp))
    simp only [Records.inspectable] at h1
    simp only [Records.anyMatch] at h2
    cases ht : c.recordsType with
    | unknownRecords =>
      simp only [List.cons_append, changeTopicPartitions, ht]
      exact ih1
    | legacyRecords =>
      rw [ht] at h1 h2
      simp only at h1 h2
      cases hs : s.1.msgSet c.MsgSet with
      | ok set =>
        rw [hs] at h2
        simp only [List.cons_append, changeTopicPartitions, ht, hs, findMsg_none ct _ 0 h2]
        exact ih1
      | error e => rw [hs] at h1; simp [Result.isOk] at h1
      | panic => rw [hs] at h1; simp [Result.isOk] at h1
    | defaultRecords =>
      rw [ht] at h1 h2
      simp only at h1 h2
      cases hs : s.1.batch c.RecordBatch with
      | ok b =>
        rw [hs] at h2
        simp only [List.cons_append, changeTopicPartitions, ht, hs, findRecord_none ct _ 0 h2]
        exact ih1
      | error e => rw [hs] at h1; simp [Result.isOk] at h1
      | panic => rw [hs] at h1; simp [Result.isOk] at h1

theorem changeTopicTopics_append (rule : TopicRule) (s : State)
    (pre rest : List (Bytes × GoMap Int Records))
    (h : ∀ e ∈ pre, rule.CheckClientTopicIsRule e.1 = true →
      ∀ p ∈ e.2, p.2.inspectable s.1 = true ∧
        p.2.anyMatch (rule.GetClientTopicRule e.1) s.1 = false) :
    changeTopicTopics rule s (pre ++ rest) = changeTopicTopics rule s rest := by
  induction pre with
  | nil => rfl
  | cons e tl ih =>
    obtain ⟨topic, v⟩ := e
    have ih1 := ih (fun e he => h e (List.mem_cons_of_mem _ he))
    by_cases ha : rule.CheckClientTopicIsRule topic = true
    · simp only [List.cons_append, changeTopicTopics, ha, if_true,
        changeTopicPartitions_no_match _ s topic v (h (topic, v) (List.mem_cons_self _ _) ha)]
      exact ih1
    · simp only [List.cons_append, changeTopicTopics, ha, Bool.false_eq_true, if_false]
      exact ih1

theorem GoMap.get?_append_of_not_mem {κ ν : Type} [DecidableEq κ] (pre rest : GoMap κ ν)
    (k : κ) (hk : k ∉ GoMap.keys pre) :
    GoMap.get? (pre ++ rest) k = GoMap.get? rest k := by
  induction pre with
  | nil => rfl
  | cons e tl ih =>
    obtain ⟨k1, v1⟩ := e
    simp only [GoMap.keys, List.map_cons, List.mem_cons, not_or] at hk
    have h1 : ¬ (k1 = k) := fun h => hk.1 h.symm
    simp only [List.cons_append, GoMap.get?, h1, if_false]
    exact ih hk.2

/-- The body of the `if is` of the legacy case when the destination entry exists and holds a
message set other than the source's: the hit leaves the source set, is appended to the
destination set, and the partitions of the destination topic are as before. -/
theorem relocateMsg_existing (ct : ClientTopicRule) (s : State) (T D : Bytes) (P : Int)
    (c cd : Records) (a b : Nat) (set dset : MessageSet) (mi : Nat) (msg : MessageBlock)
    (k : String) (hat : s.2.atD T P = c) (hset : c.MsgSet = some a)
    (ha : s.1.msgSets[a]? = some set) (hD : ct.BrokerTopic k = D) (hDT : D ≠ T)
    (hdst : s.2.at? D P = some cd) (hdset : cd.MsgSet = some b)
    (hb : s.1.msgSets[b]? = some dset) (hab : a ≠ b) :
    ∃ p2 : ProduceRequest,
      relocateMsg ct s T P c set.Messages mi msg k
        = Result.ok (⟨(s.1.msgSets.set a
            ⟨set.Messages.take mi ++ set.Messages.drop (mi + 1)⟩).set b
              ⟨dset.Messages ++ [msg]⟩, s.1.batches⟩, p2) ∧
      GoMap.get? (p2.records.getD []) D = GoMap.get? (s.2.records.getD []) D := by
  have hlta : a < s.1.msgSets.length := by
    by_contra hc
    rw [List.getElem?_eq_none (by omega)] at ha
    simp at ha
  have hltb : b < s.1.msgSets.length := by
    by_contra hc
    rw [List.getElem?_eq_none (by omega)] at hb
    simp at hb
  have hhas : s.2.hasTopic D = true := by
    rw [hasTopic_eq]
    rw [at?_eq] at hdst
    cases hg : GoMap.get? (s.2.records.getD []) D with
    | none => rw [hg] at hdst; simp [GoMap.get?] at hdst
    | some inner => rfl
  obtain ⟨p2, hprune, hget⟩ := pruneAndEnsure_existing s.2 T D P
    (set.Messages.take mi ++ set.Messages.drop (mi + 1)).length hDT hhas
  have hat2 : p2.at? D P = some cd := by
    rw [at?_eq, hget, ← at?_eq]; exact hdst
  refine ⟨p2, ?_, hget⟩
  simp only [relocateMsg, bind, hat, hset, hD, Heap.setMessages, hlta, if_true, Result.bind_ok,
    Heap.msgSet, List.getElem?_set_self hlta, hprune, hat2, hdset,
    List.getElem?_set_ne hab, hb, List.length_set, hltb, pure]

/-- The rewrite pass when the destination entry exists. The scan reaches the entry `T`/`P`
first, `T`/`P` holds a legacy set whose first matching message is `msg`, and the destination
topic `D`, other than `T`, has an entry for `P` holding another message set. Then `changeTopic`
returns nil; in the heap the source's set has lost `msg` and the destination's set has gained
it at its end, and the partition map of `D` has the entries it had. -/
theorem changeTopic_existing_destination (rule : TopicRule) (s : State)
    (pre post : GoMap Bytes (GoMap Int Records)) (T D : Bytes)
    (vpre vpost : GoMap Int Records) (P : Int) (c cd : Records) (a b : Nat)
    (set dset : MessageSet) (mi : Nat) (msg : MessageBlock) (k : String)
    (hrec : s.2.records = some (pre ++ (T, vpre ++ (P, c) :: vpost) :: post))
    (hkeys : s.2.distinctKeys)
    (hpre : ∀ e ∈ pre, rule.CheckClientTopicIsRule e.1 = true →
      ∀ p ∈ e.2, p.2.inspectable s.1 = true ∧
        p.2.anyMatch (rule.GetClientTopicRule e.1) s.1 = false)
    (hactive : rule.CheckClientTopicIsRule T = true)
    (hvpre : ∀ p ∈ vpre, p.2.inspectable s.1 = true ∧
      p.2.anyMatch (rule.GetClientTopicRule T) s.1 = false)
    (htype : c.recordsType = RecordsType.legacyRecords) (hset : c.MsgSet = some a)
    (ha : s.1.msgSets[a]? = some set)
    (hfind : findMsg (rule.GetClientTopicRule T) set.Messages 0 = some (mi, msg, k))
    (hD : (rule.GetClientTopicRule T).BrokerTopic k = D) (hDT : D ≠ T)
    (hdst : s.2.at? D P = some cd) (hdset : cd.MsgSet = some b)
    (hb : s.1.msgSets[b]? = some dset) (hab : a ≠ b) :
    ∃ p2 : ProduceRequest,
      changeTopic rule s = Result.ok ((⟨(s.1.msgSets.set a
          ⟨set.Messages.take mi ++ set.Messages.drop (mi + 1)⟩).set b
            ⟨dset.Messages ++ [msg]⟩, s.1.batches⟩ : Heap), p2) ∧
      p2.at? D P = some cd ∧ p2.partitionsOf D = s.2.partitionsOf D := by
  obtain ⟨hnd, hndp⟩ := hkeys
  simp only [hrec, Option.getD_some] at hnd hndp
  have hTpre : T ∉ GoMap.keys pre := by
    rw [GoMap.keys_append] at hnd
    simp only [GoMap.keys, List.map_cons] at hnd
    intro hmem
    exact (List.nodup_append.mp hnd).2.2 hmem (List.mem_cons_self _ _)
  have hPpre : P ∉ GoMap.keys vpre := by
    have h1 := hndp (T, vpre ++ (P, c) :: vpost) (by simp)
    rw [GoMap.keys_append] at h1
    simp only [GoMap.keys, List.map_cons] at h1
    intro hmem
    exact (List.nodup_append.mp h1).2.2 hmem (List.mem_cons_self _ _)
  have hat : s.2.atD T P = c := by
    simp only [ProduceRequest.atD, at?_eq, hrec, Option.getD_some,
      GoMap.get?_append_of_not_mem pre _ T hTpre]
    simp [GoMap.get?, GoMap.get?_append_of_not_mem vpre _ P hPpre]
  have hltb : b < s.1.msgSets.length := by
    by_contra hc
    rw [List.getElem?_eq_none (by omega)] at hb
    simp at hb
  obtain ⟨p2, hrel, hget⟩ := relocateMsg_existing (rule.GetClientTopicRule T) s T D P c cd a b
    set dset mi msg k hat hset ha hD hDT hdst hdset hb hab
  have hparts : changeTopicPartitions (rule.GetClientTopicRule T) s T
      (vpre ++ (P, c) :: vpost)
      = Result.ok (some (⟨(s.1.msgSets.set a
          ⟨set.Messages.take mi ++ set.Messages.drop (mi + 1)⟩).set b
            ⟨dset.Messages ++ [msg]⟩, s.1.batches⟩, p2)) := by
    rw [changeTopicPartitions_append _ s T vpre _ hvpre]
    simp only [changeTopicPartitions, htype, hset, Heap.msgSet, ha, hfind, hrel,
      Result.bind_ok]
  have htopics : changeTopicTopics rule s (pre ++ (T, vpre ++ (P, c) :: vpost) :: post)
      = Result.ok (some (⟨(s.1.msgSets.set a
          ⟨set.Messages.take mi ++ set.Messages.drop (mi + 1)⟩).set b
            ⟨dset.Messages ++ [msg]⟩, s.1.batches⟩, p2)) := by
    rw [changeTopicTopics_append rule s pre _ hpre]
    simp only [changeTopicTopics, hactive, if_true, hparts]
  refine ⟨p2, ?_, ?_, ?_⟩
  · simp only [changeTopic, hrec, Option.getD_some, htopics]
  · rw [at?_eq, hget, ← at?_eq]; exact hdst
  · rw [partitionsOf_eq, partitionsOf_eq, hget]

/-! ## Slices: lines 47 and 63 over backing arrays -/

theorem getElem?_range_map {α : Type} (f : Nat → α) (n j : Nat) :
    ((List.range n).map f)[j]? = if j < n then some (f j) else none := by
  by_cases hj : j < n
  · simp [List.getElem?_map, List.getElem?_range hj, hj]
  · rw [List.getElem?_eq_none (by simpa using hj)]
    simp [hj]

theorem range_map_getElem?_join {α : Type} (l : List (Option α)) :
    (List.range l.length).map (fun i => (l[i]?).join) = l := by
  apply List.ext_getElem?
  intro i
  rw [getElem?_range_map]
  by_cases hi : i < l.length
  · simp [hi, List.getElem?_eq_getElem hi]
  · rw [List.getElem?_eq_none (by simpa using hi)]
    simp [hi]

theorem range_map_erase {α : Type} (f : Nat → α) (n mi : Nat) (hmi : mi < n) :
    ((List.range n).map f).take mi ++ ((List.range n).map f).drop (mi + 1)
      = (List.range (n - 1)).map fun i => if mi ≤ i then f (i + 1) else f i := by
  apply List.ext_getElem?
  intro i
  have hlen : (((List.range n).map f).take mi).length = mi := by
    simp [List.length_take]; omega
  rw [getElem?_range_map]
  by_cases h1 : i < mi
  · rw [List.getElem?_append_left (by omega), List.getElem?_take_of_lt h1, getElem?_range_map]
    have h2 : ¬ (mi ≤ i) := by omega
    have h3 : i < n - 1 := by omega
    have h4 : i < n := by omega
    simp [h2, h3, h4]
  · rw [List.getElem?_append_right (by omega), hlen, List.getElem?_drop, getElem?_range_map]
    have h2 : mi ≤ i := by omega
    have h5 : mi + 1 + (i - mi) = i + 1 := by omega
    rw [h5]
    by_cases h3 : i < n - 1
    · have h4 : i + 1 < n := by omega
      simp [h2, h3, h4]
    · have h4 : ¬ (i + 1 < n) := by omega
      simp [h3, h4]

theorem SliceHeap.view_congr (h1 h : SliceHeap) (sl : Slice)
    (harr : h1.arrays[sl.arr]? = h.arrays[sl.arr]?) : h1.view sl = h.view sl := by
  simp only [SliceHeap.view, SliceHeap.slot, harr]

theorem SliceHeap.view_of_len_zero (h : SliceHeap) (sl : Slice) (hl : sl.len = 0) :
    h.view sl = [] := by
  simp [SliceHeap.view, hl]

theorem SliceHeap.length_view (h : SliceHeap) (sl : Slice) : (h.view sl).length = sl.len := by
  simp [SliceHeap.view]

theorem getElem?_shiftLeft (A : List (Option MessageBlock)) (lo hi j : Nat)
    (hj : j < A.length) :
    (shiftLeft A lo hi)[j]?
      = some (if lo ≤ j ∧ j < hi then (A[j + 1]?).join else (A[j]?).join) := by
  rw [shiftLeft, getElem?_range_map]
  simp [hj]

/-- Line 47 seen through the header of the set it is applied to. -/
theorem SliceHeap.view_shift (h h1 : SliceHeap) (sa : Slice) (A : List (Option MessageBlock))
    (mi : Nat) (hA : h.arrays[sa.arr]? = some A) (hfit : sa.off + sa.len ≤ A.length)
    (hmi : mi < sa.len)
    (h1A : h1.arrays[sa.arr]?
      = some (shiftLeft A (sa.off + mi) (sa.off + sa.len - 1))) :
    h1.view ⟨sa.arr, sa.off, sa.len - 1, sa.cap⟩
      = (h.view sa).take mi ++ (h.view sa).drop (mi + 1) := by
  rw [SliceHeap.view, SliceHeap.view, range_map_erase _ _ _ hmi]
  apply List.map_congr_left
  intro i hi
  have hi1 : i < sa.len - 1 := List.mem_range.mp hi
  have hj : sa.off + i < A.length := by omega
  simp only [SliceHeap.slot, h1A, hA, getElem?_shiftLeft A _ _ _ hj, Option.join]
  by_cases hm : mi ≤ i
  · have hc : sa.off + mi ≤ sa.off + i ∧ sa.off + i < sa.off + sa.len - 1 := by omega
    simp only [hc, and_self, if_true, hm]
    rfl
  · have hc : ¬ (sa.off + mi ≤ sa.off + i ∧ sa.off + i < sa.off + sa.len - 1) := by omega
    simp only [hc, if_false, hm]
    rfl

/-- Line 63 with spare capacity, seen through the header of the set it is applied to. -/
theorem SliceHeap.view_append_in_place (h h1 : SliceHeap) (sb : Slice)
    (B : List (Option MessageBlock)) (msg : MessageBlock)
    (hB : h.arrays[sb.arr]? = some B) (hfit : sb.off + sb.len < B.length)
    (h1B : h1.arrays[sb.arr]? = some (B.set (sb.off + sb.len) (some msg))) :
    h1.view ⟨sb.arr, sb.off, sb.len + 1, sb.cap⟩ = h.view sb ++ [some msg] := by
  rw [SliceHeap.view, SliceHeap.view, List.range_succ, List.map_append]
  congr 1
  · apply List.map_congr_left
    intro i hi
    have hi1 : i < sb.len := List.mem_range.mp hi
    simp only [SliceHeap.slot, h1B, hB]
    rw [List.getElem?_set_ne (by omega)]
  · simp only [List.map_cons, List.map_nil, SliceHeap.slot, h1B]
    rw [List.getElem?_set_self hfit]
    rfl

/-- Line 63 without spare capacity, seen through the new header. -/
theorem SliceHeap.view_append_new (h1 : SliceHeap) (n grow len cap : Nat)
    (v : List (Option MessageBlock)) (msg : MessageBlock) (hv : v.length = len)
    (h1N : h1.arrays[n]? = some (v ++ some msg :: List.replicate grow none)) :
    h1.view ⟨n, 0, len + 1, cap⟩ = v ++ [some msg] := by
  rw [SliceHeap.view, List.range_succ, List.map_append]
  congr 1
  · have hv2 : (List.range len).map (fun i => (v[i]?).join) = v := by
      rw [← hv]; exact range_map_getElem?_join v
    conv_rhs => rw [← hv2]
    apply List.map_congr_left
    intro i hi
    have hi1 : i < len := List.mem_range.mp hi
    simp only [SliceHeap.slot, h1N, Nat.zero_add]
    rw [List.getElem?_append_left (by omega)]
  · simp only [List.map_cons, List.map_nil, SliceHeap.slot, h1N, Nat.zero_add]
    rw [List.getElem?_append_right (by omega), hv]
    simp

theorem List.mem_of_getElem?_eq {α : Type} {l : List α} {i : Nat} {x : α}
    (h : l[i]? = some x) : x ∈ l := by
  obtain ⟨hi, hx⟩ := List.getElem?_eq_some_iff.mp h
  exact hx ▸ List.getElem_mem hi

theorem SliceHeap.array_of_wellFormed (h : SliceHeap) (hwf : h.wellFormed) (sl : Slice)
    (hsl : sl ∈ h.sets) (hcap : 0 < sl.cap) :
    ∃ A, h.arrays[sl.arr]? = some A ∧ sl.off + sl.cap ≤ A.length := by
  obtain ⟨-, h2⟩ := hwf sl hsl
  rcases h2 with h2 | h2
  · omega
  · cases hA : h.arrays[sl.arr]? with
    | none => rw [hA] at h2; simp at h2; omega
    | some A => rw [hA] at h2; exact ⟨A, rfl, by simpa using h2⟩

theorem SliceHeap.len_zero_of_no_array (h : SliceHeap) (hwf : h.wellFormed) (sl : Slice)
    (hsl : sl ∈ h.sets) (hA : h.arrays[sl.arr]? = none) : sl.len = 0 := by
  obtain ⟨h1, h2⟩ := hwf sl hsl
  rcases h2 with h2 | h2
  · omega
  · rw [hA] at h2; simp at h2; omega

/-- The sequences of a heap whose sets are those of `h` but for `a` and `b`, given what is seen
through the new headers of `a` and `b` and that the other sets see what they saw. -/
theorem SliceHeap.views_of_parts (h h1 : SliceHeap) (a b : Nat) (sa1 sb1 : Slice)
    (va vb : List (Option MessageBlock))
    (hsets : h1.sets = (h.sets.set a sa1).set b sb1)
    (hva : h1.view sa1 = va) (hvb : h1.view sb1 = vb)
    (hrest : ∀ i sl, i ≠ a → i ≠ b → h.sets[i]? = some sl → h1.view sl = h.view sl) :
    h1.views = (h.views.set a va).set b vb := by
  apply List.ext_getElem?
  intro i
  simp only [SliceHeap.views, hsets, List.getElem?_map, List.getElem?_set, List.length_set,
    List.length_map]
  by_cases hib : b = i
  · subst hib
    by_cases hlt : b < h.sets.length
    · simp [hlt, hvb]
    · simp [hlt]
  · by_cases hia : a = i
    · subst hia
      by_cases hlt : a < h.sets.length
      · simp [hib, hlt, hva]
      · simp [hib, hlt]
    · simp only [hib, hia, if_false]
      cases hsl : h.sets[i]? with
      | none => rfl
      | some sl =>
        simp only [Option.map_some']
        rw [hrest i sl (fun e => hia e.symm) (fun e => hib e.symm) hsl]

/-- Lines 47 and 63 on the slices when the source's set and the destination's set each have a
backing array of their own: the source loses the hit, the destination gains it at its end,
and every other set sees what it saw. -/
theorem SliceHeap.relocate_views (grow : Nat) (sh : SliceHeap) (a mi b : Nat)
    (msg : MessageBlock) (sa sb : Slice) (hwf : sh.wellFormed)
    (hsa : sh.sets[a]? = some sa) (hsb : sh.sets[b]? = some sb) (hmi : mi < sa.len)
    (howna : sh.ownsArray a) (hownb : sh.ownsArray b) (hab : a ≠ b) :
    ∃ sh1, sh.relocate grow a mi b msg = some sh1 ∧
      sh1.views = (sh.views.set a ((sh.view sa).take mi ++ (sh.view sa).drop (mi + 1))).set b
        (sh.view sb ++ [some msg]) := by
  have hamem : sa ∈ sh.sets := List.mem_of_getElem?_eq hsa
  have hbmem : sb ∈ sh.sets := List.mem_of_getElem?_eq hsb
  have hblt : b < sh.sets.length := by
    by_contra hc
    rw [List.getElem?_eq_none (by omega)] at hsb
    simp at hsb
  have halen : sa.len ≤ sa.cap := (hwf sa hamem).1
  have hblen : sb.len ≤ sb.cap := (hwf sb hbmem).1
  obtain ⟨A, hA, hAfit⟩ := SliceHeap.array_of_wellFormed sh hwf sa hamem (by omega)
  have harr : sb.arr ≠ sa.arr := by
    have h1 := howna b (List.mem_range.mpr hblt) (fun e => hab e.symm)
    simpa [hsa, hsb] using h1
  have hAlt : sa.arr < sh.arrays.length := by
    by_contra hc
    rw [List.getElem?_eq_none (by omega)] at hA
    simp at hA
  -- the other sets have other arrays
  have hother : ∀ i sl, i ≠ a → i ≠ b → sh.sets[i]? = some sl →
      sl.arr ≠ sa.arr ∧ sl.arr ≠ sb.arr := by
    intro i sl hia hib hsl
    have hilt : i < sh.sets.length := by
      by_contra hc
      rw [List.getElem?_eq_none (by omega)] at hsl
      simp at hsl
    have h1 := howna i (List.mem_range.mpr hilt) hia
    have h2 := hownb i (List.mem_range.mpr hilt) hib
    exact ⟨by simpa [hsa, hsl] using h1, by simpa [hsb, hsl] using h2⟩
  have hsb1 : (sh.sets.set a ⟨sa.arr, sa.off, sa.len - 1, sa.cap⟩)[b]? = some sb := by
    rw [List.getElem?_set_ne hab]; exact hsb
  by_cases hcap : sb.len < sb.cap
  · obtain ⟨B, hB, hBfit⟩ := SliceHeap.array_of_wellFormed sh hwf sb hbmem (by omega)
    have hB1 : (sh.arrays.set sa.arr
        (shiftLeft A (sa.off + mi) (sa.off + sa.len - 1)))[sb.arr]? = some B := by
      rw [List.getElem?_set_ne (fun e => harr e.symm)]; exact hB
    have hBlt : sb.arr < sh.arrays.length := by
      by_contra hc
      rw [List.getElem?_eq_none (by omega)] at hB
      simp at hB
    refine ⟨⟨(sh.arrays.set sa.arr (shiftLeft A (sa.off + mi) (sa.off + sa.len - 1))).set
        sb.arr (B.set (sb.off + sb.len) (some msg)),
      (sh.sets.set a ⟨sa.arr, sa.off, sa.len - 1, sa.cap⟩).set b
        ⟨sb.arr, sb.off, sb.len + 1, sb.cap⟩⟩, ?_, ?_⟩
    · simp only [SliceHeap.relocate, SliceHeap.removeAt, hsa, hmi, if_true, hA, Option.bind,
        SliceHeap.appendTo, hsb1, hcap, hB1]
    · apply SliceHeap.views_of_parts sh _ a b _ _ _ _ rfl
      · apply SliceHeap.view_shift sh _ sa A mi hA (by omega) hmi
        show ((sh.arrays.set sa.arr _).set sb.arr _)[sa.arr]? = _
        rw [List.getElem?_set_ne harr, List.getElem?_set_self hAlt]
      · apply SliceHeap.view_append_in_place sh _ sb B msg hB (by omega)
        show ((sh.arrays.set sa.arr _).set sb.arr _)[sb.arr]? = _
        rw [List.getElem?_set_self (by rw [List.length_set]; exact hBlt)]
      · intro i sl hia hib hsl
        obtain ⟨h1, h2⟩ := hother i sl hia hib hsl
        apply SliceHeap.view_congr
        show ((sh.arrays.set sa.arr _).set sb.arr _)[sl.arr]? = _
        rw [List.getElem?_set_ne (fun e => h2 e.symm), List.getElem?_set_ne (fun e => h1 e.symm)]
  · have hview : SliceHeap.view ⟨sh.arrays.set sa.arr
          (shiftLeft A (sa.off + mi) (sa.off + sa.len - 1)),
          sh.sets.set a ⟨sa.arr, sa.off, sa.len - 1, sa.cap⟩⟩ sb = sh.view sb := by
      apply SliceHeap.view_congr
      show (sh.arrays.set sa.arr _)[sb.arr]? = _
      rw [List.getElem?_set_ne (fun e => harr e.symm)]
    refine ⟨⟨sh.arrays.set sa.arr (shiftLeft A (sa.off + mi) (sa.off + sa.len - 1))
        ++ [sh.view sb ++ some msg :: List.replicate grow none],
      (sh.sets.set a ⟨sa.arr, sa.off, sa.len - 1, sa.cap⟩).set b
        ⟨sh.arrays.length, 0, sb.len + 1, sb.len + 1 + grow⟩⟩, ?_, ?_⟩
    · simp only [SliceHeap.relocate, SliceHeap.removeAt, hsa, hmi, if_true, hA, Option.bind,
        SliceHeap.appendTo, hsb1, hcap, if_false, hview, List.length_set]
    · apply SliceHeap.views_of_parts sh _ a b _ _ _ _ rfl
      · apply SliceHeap.view_shift sh _ sa A mi hA (by omega) hmi
        show (sh.arrays.set sa.arr _ ++ _)[sa.arr]? = _
        rw [List.getElem?_append_left (by rw [List.length_set]; exact hAlt),
          List.getElem?_set_self hAlt]
      · apply SliceHeap.view_append_new _ _ grow _ _ _ msg (SliceHeap.length_view sh sb)
        show (sh.arrays.set sa.arr _ ++ _)[sh.arrays.length]? = _
        rw [List.getElem?_append_right (by rw [List.length_set])]
        simp
      · intro i sl hia hib hsl
        obtain ⟨h1, h2⟩ := hother i sl hia hib hsl
        cases hS : sh.arrays[sl.arr]? with
        | none =>
          have hz := SliceHeap.len_zero_of_no_array sh hwf sl (List.mem_of_getElem?_eq hsl) hS
          rw [SliceHeap.view_of_len_zero _ sl hz, SliceHeap.view_of_len_zero _ sl hz]
        | some S =>
          have hSlt : sl.arr < sh.arrays.length := by
            by_contra hc
            rw [List.getElem?_eq_none (by omega)] at hS
            simp at hS
          apply SliceHeap.view_congr
          show (sh.arrays.set sa.arr _ ++ _)[sl.arr]? = _
          rw [List.getElem?_append_left (by rw [List.length_set]; exact hSlt),
            List.getElem?_set_ne (fun e => h1 e.symm)]


/-! ## The guard of the batch ratio -/

/-- C17 (the code departs from the claim). The guard of `updateBatchMetrics` tests the buffer
against nil, not its length: for a batch whose `compressedRecords` is present with length 0 the
function still calls `Update` on both histograms, with the value of the float64 expression at
divisor 0, whereas `updateMsgSetMetrics` skips a message whose compressed size is 0. -/
theorem updateBatchMetrics_pushes_for_empty_buffer (fl : Float64Ratio) (h : Heap) (i : Nat)
    (b : RecordBatch) (g t : Histogram) (log : List MetricEvent)
    (hb : h.batches[i]? = some b) (hc : b.compressedRecords = some []) :
    updateBatchMetrics fl h (some i) g t log
      = Result.ok ((b.Records.length : Int),
          log ++ [MetricEvent.histogramUpdate g.name g.topic (fl.batch b.recordsLen 0),
                  MetricEvent.histogramUpdate t.name t.topic (fl.batch b.recordsLen 0)]) ∧
    (∀ (m : Message) (acc : Int × List MetricEvent), m.compressedSize = 0 →
      (updateMsgSetMetricsStep fl g t acc ⟨0, m⟩).2 = acc.2) := by
  constructor
  · simp [updateBatchMetrics, Heap.batch, hb, hc, Histogram.Update]
  · intro m acc hm
    simp [updateMsgSetMetricsStep, hm]

/-- C17 (failing input). The batch of `ratioHeap` has a present buffer of length 0 and
`recordsLen` 10; with the binary64 expression and the conversion of an out-of-range value
giving the least `int64`, both histograms receive that value. -/
theorem updateBatchMetrics_pushes_for_empty_buffer_witness :
    updateBatchMetrics (binary64Ratio (-9223372036854775808)) ratioHeap (some 0)
        ⟨"compression-ratio", none⟩ ⟨"compression-ratio", some topicOrders⟩ []
      = Result.ok (((⟨[⟨[], [1], []⟩], some [], 10⟩ : RecordBatch).Records.length : Int),
          [] ++ [MetricEvent.histogramUpdate "compression-ratio" none
                  ((binary64Ratio (-9223372036854775808)).batch 10 0),
                 MetricEvent.histogramUpdate "compression-ratio" (some topicOrders)
                  ((binary64Ratio (-9223372036854775808)).batch 10 0)]) ∧
    (∀ (m : Message) (acc : Int × List MetricEvent), m.compressedSize = 0 →
      (updateMsgSetMetricsStep (binary64Ratio (-9223372036854775808))
        ⟨"compression-ratio", none⟩ ⟨"compression-ratio", some topicOrders⟩ acc ⟨0, m⟩).2
        = acc.2) :=
  updateBatchMetrics_pushes_for_empty_buffer (binary64Ratio (-9223372036854775808)) ratioHeap 0
    ⟨[⟨[], [1], []⟩], some [], 10⟩ ⟨"compression-ratio", none⟩
    ⟨"compression-ratio", some topicOrders⟩ [] rfl rfl

/-! ## Decode and topics without partitions -/

theorem GoMap.mem_set_of_nodup {κ ν : Type} [DecidableEq κ] (m : GoMap κ ν) (k : κ) (v : ν)
    (e : κ × ν) (hnd : (GoMap.keys m).Nodup) (h : e ∈ GoMap.set m k v) :
    e = (k, v) ∨ (e ∈ m ∧ e.1 ≠ k) := by
  induction m with
  | nil => simpa [GoMap.set] using h
  | cons e1 rest ih =>
    obtain ⟨k1, v1⟩ := e1
    simp only [GoMap.keys, List.map_cons, List.nodup_cons] at hnd
    by_cases hk : k1 = k
    · simp only [GoMap.set, hk, if_true, List.mem_cons] at h
      rcases h with h | h
      · exact Or.inl h
      · refine Or.inr ⟨List.mem_cons_of_mem _ h, ?_⟩
        intro he
        exact hnd.1 (List.mem_map.mpr ⟨e, h, by rw [he, hk]⟩)
    · simp only [GoMap.set, hk, if_false, List.mem_cons] at h
      rcases h with h | h
      · exact Or.inr ⟨h ▸ List.mem_cons_self _ _, by rw [h]; exact hk⟩
      · rcases ih hnd.2 h with h2 | h2
        · exact Or.inl h2
        · exact Or.inr ⟨List.mem_cons_of_mem _ h2.1, h2.2⟩

/-- The partition loop of `decode`, on any bytes: when it returns nil after at least one
iteration, or from a state in which `topic` already has a partition, no topic is left without
partitions, provided none other than `topic` was before. -/
theorem decodePartitions_noEmpty (codec : RecordsCodec) (topic : Bytes) (n : Nat) (bs : Bytes)
    (s s1 : State) (rest : Bytes)
    (hdec : decodePartitions codec topic n bs s = Result.ok (s1, rest))
    (hnd : (GoMap.keys (s.2.records.getD [])).Nodup)
    (hothers : ∀ e ∈ s.2.records.getD [], e.1 ≠ topic → e.2 ≠ [])
    (hself : n ≥ 1 ∨ ∀ e ∈ s.2.records.getD [], e.1 = topic → e.2 ≠ []) :
    (GoMap.keys (s1.2.records.getD [])).Nodup ∧ s1.2.noEmptyTopic := by
  induction n generalizing bs s with
  | zero =>
    simp only [decodePartitions, Result.ok.injEq, Prod.mk.injEq] at hdec
    obtain ⟨h1, -⟩ := hdec
    subst h1
    refine ⟨hnd, ?_⟩
    intro e he
    rcases hself with h | h
    · omega
    · by_cases hk : e.1 = topic
      · exact h e he hk
      · exact hothers e he hk
  | succ n ih =>
    simp only [decodePartitions, Result.bind_eq_ok] at hdec
    obtain ⟨partition, -, size, -, sub, -, v, -, r1, hset, hrest⟩ := hdec
    cases hrec : s.2.records with
    | none => simp [ProduceRequest.setAt, hrec] at hset
    | some m =>
      cases hg : GoMap.get? m topic with
      | none => simp [ProduceRequest.setAt, hrec, hg] at hset
      | some inner =>
        simp only [ProduceRequest.setAt, hrec, hg, Result.ok.injEq] at hset
        rw [hrec] at hnd hothers
        simp only [Option.getD_some] at hnd hothers
        have hr1 : r1.records.getD []
            = GoMap.set m topic (GoMap.set inner partition.1 (s.1.store v).2) := by
          rw [← hset]; rfl
        refine ih sub.2 ((s.1.store v).1, r1) hrest ?_ ?_ ?_
        · show (GoMap.keys (r1.records.getD [])).Nodup
          rw [hr1]; exact GoMap.nodup_keys_set _ _ _ hnd
        · show ∀ e ∈ r1.records.getD [], e.1 ≠ topic → e.2 ≠ []
          rw [hr1]
          intro e he hk
          rcases GoMap.mem_set_of_nodup _ _ _ _ hnd he with h | h
          · exact absurd (by rw [h]) hk
          · exact hothers e h.1 hk
        · right
          show ∀ e ∈ r1.records.getD [], e.1 = topic → e.2 ≠ []
          rw [hr1]
          intro e he hk
          rcases GoMap.mem_set_of_nodup _ _ _ _ hnd he with h | h
          · rw [h]; exact GoMap.set_ne_nil _ _ _
          · exact absurd hk h.2

/-- The partition loop over well-formed partitions, when it returns nil, has read exactly
them. -/
theorem decodePartitions_rest (codec : RecordsCodec) (topic : Bytes) (ps : List (Int × Bytes))
    (hps : partitionsFit ps) (tail : Bytes) (s s1 : State) (rest : Bytes)
    (hdec : decodePartitions codec topic ps.length (wirePartitions ps ++ tail) s
      = Result.ok (s1, rest)) : rest = tail := by
  induction ps generalizing s with
  | nil =>
    simp only [List.length_nil, decodePartitions, wirePartitions, List.nil_append,
      Result.ok.injEq, Prod.mk.injEq] at hdec
    exact hdec.2.symm
  | cons p tl ih =>
    obtain ⟨id, body⟩ := p
    obtain ⟨hid, hlen⟩ := hps (id, body) (List.mem_cons_self _ _)
    simp only at hid hlen
    have hw : wirePartitions ((id, body) :: tl) ++ tail
        = wirePartitions [(id, body)] ++ (wirePartitions tl ++ tail) := by
      simp [wirePartitions, List.append_assoc]
    rw [List.length_cons, hw, decodePartitions_step codec topic tl.length id body _ s hid hlen]
      at hdec
    simp only [Result.bind_eq_ok] at hdec
    obtain ⟨v, -, r1, -, hrest⟩ := hdec
    exact ih (fun p hp => hps p (List.mem_cons_of_mem _ hp)) _ hrest

/-- The topic loop of `decode` over well-formed topics that each declare at least one
partition: when it returns nil, no topic is left without partitions. -/
theorem decodeTopics_noEmpty (codec : RecordsCodec) (ts : List (Bytes × List (Int × Bytes)))
    (hts : topicsFit ts) (hne : ∀ e ∈ ts, e.2 ≠ []) (tail : Bytes) (s s1 : State)
    (rest : Bytes)
    (hdec : decodeTopics codec ts.length (wireTopics ts ++ tail) s = Result.ok (s1, rest))
    (hnd : (GoMap.keys (s.2.records.getD [])).Nodup) (hs : s.2.noEmptyTopic) :
    s1.2.noEmptyTopic := by
  induction ts generalizing s with
  | nil =>
    simp only [List.length_nil, decodeTopics, Result.ok.injEq, Prod.mk.injEq] at hdec
    rw [← hdec.1]; exact hs
  | cons t tl ih =>
    obtain ⟨name, ps⟩ := t
    obtain ⟨hname, hcount, hps⟩ := hts (name, ps) (List.mem_cons_self _ _)
    simp only at hname hcount hps
    have hpsne : ps ≠ [] := hne (name, ps) (List.mem_cons_self _ _)
    have hw : wireTopics ((name, ps) :: tl) ++ tail
        = be16 (name.length : Int) ++ name
          ++ (be32 (ps.length : Int) ++ (wirePartitions ps ++ (wireTopics tl ++ tail))) := by
      simp [wireTopics, List.append_assoc]
    rw [List.length_cons, hw] at hdec
    simp only [decodeTopics, getString_wire name _ hname, Result.bind_ok,
      getArrayLength_be32 ps.length hcount, Result.bind_eq_ok] at hdec
    obtain ⟨r1, hset, x, hparts, hrest⟩ := hdec
    cases hrec : s.2.records with
    | none => simp [ProduceRequest.setTopic, hrec] at hset
    | some m =>
      simp only [ProduceRequest.setTopic, hrec, Result.ok.injEq] at hset
      rw [hrec] at hnd
      simp only [Option.getD_some] at hnd
      have hr1 : r1.records.getD [] = GoMap.set m name [] := by rw [← hset]; rfl
      obtain ⟨x1, x2⟩ := x
      have hx2 := decodePartitions_rest codec name ps hps _ _ _ _ hparts
      have hinv := decodePartitions_noEmpty codec name ps.length _ (s.1, r1) x1 x2 hparts
        (by show (GoMap.keys (r1.records.getD [])).Nodup
            rw [hr1]; exact GoMap.nodup_keys_set _ _ _ hnd)
        (by show ∀ e ∈ r1.records.getD [], e.1 ≠ name → e.2 ≠ []
            rw [hr1]
            intro e he hk
            rcases GoMap.mem_set_of_nodup _ _ _ _ hnd he with h | h
            · exact absurd (by rw [h]) hk
            · exact hs e (by rw [hrec]; exact h.1))
        (Or.inl (by
          cases ps with
          | nil => exact absurd rfl hpsne
          | cons _ _ => simp))
      simp only at hrest
      rw [hx2] at hrest
      exact ih (fun e he => hts e (List.mem_cons_of_mem _ he))
        (fun e he => hne e (List.mem_cons_of_mem _ he)) x1 hrest hinv.1 hinv.2

/-- C18 (amended: decode and the no-empty-topic invariant). For every version, codec and
well-formed request on the wire in which every declared topic has at least one partition: when
`decode` into a fresh request returns nil, every topic key of the resulting records mapping maps
to a partition mapping with at least one entry. -/
theorem decode_noEmptyTopic_of_declared_partitions (codec : RecordsCodec)
    (version acks timeout : Int) (tid : Option Bytes)
    (ts : List (Bytes × List (Int × Bytes))) (rest : Bytes) (h : Heap) (s1 : State)
    (rest1 : Bytes) (hacks : isInt16 acks) (htimeout : isInt32 timeout)
    (htid : version ≥ 3 → ∀ t ∈ tid, t.length ≤ 32767) (hlen : ts.length ≤ 2147483647)
    (hts : topicsFit ts) (hne : ∀ e ∈ ts, e.2 ≠ [])
    (hdec : decode codec (wireRequest version tid acks timeout ts ++ rest) version
        (h, ProduceRequest.zero) = Result.ok (s1, rest1)) :
    s1.2.noEmptyTopic := by
  have tail : ∀ r0 : ProduceRequest, r0.records = none →
      ((getInt16 (wireBody acks timeout ts ++ rest)).bind fun requiredAcks =>
        (getInt32 requiredAcks.2).bind fun timeout1 =>
        (getArrayLength timeout1.2).bind fun topicCount =>
          if topicCount.1 = 0 then
            Result.ok ((h, ({ r0 with RequiredAcks := requiredAcks.1, Timeout := timeout1.1 }
              : ProduceRequest)), topicCount.2)
          else decodeTopics codec topicCount.1 topicCount.2
            (h, { r0 with RequiredAcks := requiredAcks.1, Timeout := timeout1.1,
                          records := some [] })) = Result.ok (s1, rest1) →
      s1.2.noEmptyTopic := by
    intro r0 hr0 hd
    simp only [wireBody, List.append_assoc, getInt16_be16 acks hacks, Result.bind_ok,
      getInt32_be32 timeout htimeout, getArrayLength_be32 ts.length hlen] at hd
    by_cases h0 : ts.length = 0
    · simp only [h0, if_true, Result.ok.injEq, Prod.mk.injEq] at hd
      rw [← hd.1]
      intro e he
      simp [hr0] at he
    · simp only [h0, if_false] at hd
      exact decodeTopics_noEmpty codec ts hts hne rest _ s1 rest1 hd (by simp [GoMap.keys])
        (by intro e he; simp at he)
  unfold decode wireRequest at hdec
  by_cases hv : version ≥ 3
  · simp only [hv, if_true, List.append_assoc, getNullableString_wire _ _ (htid hv),
      Result.bind_ok] at hdec
    exact tail ⟨tid, 0, 0, version, none⟩ rfl hdec
  · simp only [hv, if_false, List.nil_append, Result.bind_ok] at hdec
    exact tail ⟨none, 0, 0, version, none⟩ rfl hdec

/-- C18 (witness). The version 0 request on the wire with topic "orders", partition 0 and the
container bytes 7, 8 decodes, and "orders" has its partition. -/
theorem decode_noEmptyTopic_of_declared_partitions_witness :
    decode exampleCodec (wireRequest 0 none 1 100 [(topicOrders, [(0, [7, 8])])] ++ []) 0
        (Heap.empty, ProduceRequest.zero)
      = Result.ok ((⟨[⟨[⟨0, msgOf 7⟩, ⟨0, msgOf 8⟩]⟩], []⟩,
          ⟨none, 1, 100, 0, some [(topicOrders, [(0, newLegacyRecords (some 0))])]⟩), []) ∧
    ProduceRequest.noEmptyTopic
      ⟨none, 1, 100, 0, some [(topicOrders, [(0, newLegacyRecords (some 0))])]⟩ :=
  ⟨by decide,
   decode_noEmptyTopic_of_declared_partitions exampleCodec 0 1 100 none
    [(topicOrders, [(0, [7, 8])])] [] Heap.empty
    (⟨[⟨[⟨0, msgOf 7⟩, ⟨0, msgOf 8⟩]⟩], []⟩,
      ⟨none, 1, 100, 0, some [(topicOrders, [(0, newLegacyRecords (some 0))])]⟩) []
    (by decide) (by decide) (by decide) (by decide) (by decide) (by decide) (by decide)⟩

/-- C18 (counterexample). The version 0 request on the wire that declares the topic "orders"
with a partition array of length 0 decodes without error, and in the result "orders" maps to an
empty partition mapping. -/
theorem decode_noEmptyTopic_counterexample :
    decode exampleCodec (wireRequest 0 none 1 100 [(topicOrders, [])]) 0
        (Heap.empty, ProduceRequest.zero)
      = Result.ok ((Heap.empty, ⟨none, 1, 100, 0, some [(topicOrders, [])]⟩), []) ∧
    ¬ ProduceRequest.noEmptyTopic ⟨none, 1, 100, 0, some [(topicOrders, [])]⟩ := by
  constructor
  · decide
  · decide

/-! ## Conservation of records by the rewrite pass -/

/-- C19 (code at the failing input). "orders"/0 holds the legacy messages of value 1 and 2, the
first matches and "orders_v2" is absent. `changeTopic` returns nil; before it the entries hold
the messages of value 1 and 2, after it they hold the message of value 1 twice, under "orders"/0
and under "orders_v2"/0, and the message of value 2 under no entry: the messages held after the
pass are not a rearrangement of those held before. -/
theorem changeTopic_loses_and_duplicates_messages :
    ∃ s1 : State, changeTopic ordersRule twoMessageState = Result.ok s1 ∧
      heldMessages twoMessageState = [⟨0, msgOf 1⟩, ⟨0, msgOf 2⟩] ∧
      heldMessages s1 = [⟨0, msgOf 1⟩, ⟨0, msgOf 1⟩] ∧
      (heldMessages s1).count ⟨0, msgOf 2⟩ = 0 ∧
      (heldMessages twoMessageState).count ⟨0, msgOf 2⟩ = 1 ∧
      ¬ (heldMessages s1).Perm (heldMessages twoMessageState) := by
  refine ⟨(⟨[⟨[⟨0, msgOf 1⟩]⟩], []⟩,
      ⟨none, 1, 100, 0, some
        [(topicOrders, [(0, newLegacyRecords (some 0))]),
         (topicOrdersV2, [(0, newLegacyRecords (some 0))])]⟩),
    by decide, by decide, by decide, by decide, by decide, ?_⟩
  intro hperm
  have hcount := hperm.count_eq (⟨0, msgOf 2⟩ : MessageBlock)
  revert hcount
  decide

/-! ## Encode with and without a metrics registry -/

theorem updateMetrics_ok (fl : Float64Ratio) (h : Heap) (version : Int) (c : Records)
    (g t : Histogram) (log : List MetricEvent) (hc : c.matchesVersion h version = true) :
    ∃ u, (if version ≥ 3 then updateBatchMetrics fl h c.RecordBatch g t log
      else updateMsgSetMetrics fl h c.MsgSet g t log) = Result.ok u := by
  unfold Records.matchesVersion at hc
  by_cases hv : version ≥ 3
  · simp only [hv, if_true] at hc ⊢
    cases hb : h.batch c.RecordBatch with
    | ok b =>
      cases hcr : b.compressedRecords with
      | none =>
        simp only [updateBatchMetrics, hb, hcr, Result.bind_ok]
        exact ⟨_, rfl⟩
      | some buf =>
        simp only [updateBatchMetrics, hb, hcr, Result.bind_ok]
        exact ⟨_, rfl⟩
    | error e => rw [hb] at hc; simp [Result.isOk] at hc
    | panic => rw [hb] at hc; simp [Result.isOk] at hc
  · simp only [hv, if_false] at hc ⊢
    cases hm : h.msgSet c.MsgSet with
    | ok set =>
      simp only [updateMsgSetMetrics, hm, Result.bind_ok]
      exact ⟨_, rfl⟩
    | error e => rw [hm] at hc; simp [Result.isOk] at hc
    | panic => rw [hm] at hc; simp [Result.isOk] at hc

/-- The partition loop of `encode` moves the cursor alike with and without a registry, when
every container holds the object its version stands for. -/
theorem encodePartitions_registry (fl : Float64Ratio) (codec : RecordsCodec) (h : Heap)
    (version : Int) (topic : Bytes) (ps : List (Int × Records))
    (hps : ∀ p ∈ ps, p.2.matchesVersion h version = true) (pe : packetEncoder)
    (log log1 : List MetricEvent) (c c1 : Int) :
    wireOutcome (encodePartitions fl codec h version true topic ps pe log c)
      = wireOutcome (encodePartitions fl codec h version false topic ps pe log1 c1) := by
  induction ps generalizing pe log c with
  | nil => rfl
  | cons p rest ih =>
    obtain ⟨id, records⟩ := p
    obtain ⟨u, hu⟩ := updateMetrics_ok fl h version records ⟨"compression-ratio", none⟩
      ⟨"compression-ratio", some topic⟩ log (hps (id, records) (List.mem_cons_self _ _))
    simp only [encodePartitions, if_true, Bool.false_eq_true, if_false, hu, Result.bind_ok]
    cases henc : records.encode codec h (pe.putInt32 id).push with
    | ok pe1 =>
      simp only [Result.bind_ok]
      cases hpop : pe1.pop with
      | ok pe2 =>
        simp only [Result.bind_ok]
        exact ih (fun p hp => hps p (List.mem_cons_of_mem _ hp)) pe2 _ _
      | error e => rfl
      | panic => rfl
    | error e => rfl
    | panic => rfl

/-- Without a registry the partition loop of `encode` touches neither the log of sink
operations nor the record count. -/
theorem encodePartitions_no_registry (fl : Float64Ratio) (codec : RecordsCodec) (h : Heap)
    (version : Int) (topic : Bytes) (ps : List (Int × Records)) (pe : packetEncoder)
    (log : List MetricEvent) (c : Int) (out : packetEncoder × List MetricEvent × Int)
    (henc : encodePartitions fl codec h version false topic ps pe log c = Result.ok out) :
    out.2 = (log, c) := by
  induction ps generalizing pe with
  | nil =>
    simp only [encodePartitions, Result.ok.injEq] at henc
    rw [← henc]
  | cons p rest ih =>
    obtain ⟨id, records⟩ := p
    simp only [encodePartitions, Bool.false_eq_true, if_false, Result.bind_eq_ok] at henc
    obtain ⟨pe1, -, pe2, -, hrest⟩ := henc
    exact ih pe2 hrest

theorem encodeTopics_registry (fl : Float64Ratio) (codec : RecordsCodec) (h : Heap)
    (version : Int) (m : List (Bytes × GoMap Int Records))
    (hm : ∀ e ∈ m, ∀ p ∈ e.2, p.2.matchesVersion h version = true) (pe : packetEncoder)
    (log log1 : List MetricEvent) (c c1 : Int) :
    wireOutcome (encodeTopics fl codec h version true m pe log c)
      = wireOutcome (encodeTopics fl codec h version false m pe log1 c1) := by
  induction m generalizing pe log log1 c c1 with
  | nil => rfl
  | cons e rest ih =>
    obtain ⟨topic, partitions⟩ := e
    have hparts := encodePartitions_registry fl codec h version topic partitions
      (hm (topic, partitions) (List.mem_cons_self _ _))
    have hrest : ∀ e ∈ rest, ∀ p ∈ e.2, p.2.matchesVersion h version = true :=
      fun e he => hm e (List.mem_cons_of_mem _ he)
    simp only [encodeTopics]
    cases hs : pe.putString topic with
    | ok pe1 =>
      simp only [Result.bind_ok]
      cases ha : pe1.putArrayLength partitions.length with
      | ok pe2 =>
        simp only [Result.bind_ok]
        have hp := hparts pe2 log log1 0 0
        cases ht : encodePartitions fl codec h version true topic partitions pe2 log 0 with
        | ok x =>
          cases hf : encodePartitions fl codec h version false topic partitions pe2 log1 0 with
          | ok y =>
            rw [ht, hf] at hp
            simp only [wireOutcome, Result.ok.injEq] at hp
            simp only [Result.bind_ok, hp]
            by_cases hx : x.2.2 > 0 <;> by_cases hy : y.2.2 > 0 <;>
              simp only [hx, hy, if_true, if_false] <;> exact ih hrest _ _ _ _ _
          | error e => rw [ht, hf] at hp; simp [wireOutcome] at hp
          | panic => rw [ht, hf] at hp; simp [wireOutcome] at hp
        | error e =>
          cases hf : encodePartitions fl codec h version false topic partitions pe2 log1 0 with
          | ok y => rw [ht, hf] at hp; simp [wireOutcome] at hp
          | error e1 =>
            rw [ht, hf] at hp
            simp only [wireOutcome, Result.error.injEq] at hp
            simp only [Result.bind_error, hp]
          | panic => rw [ht, hf] at hp; simp [wireOutcome] at hp
        | panic =>
          cases hf : encodePartitions fl codec h version false topic partitions pe2 log1 0 with
          | ok y => rw [ht, hf] at hp; simp [wireOutcome] at hp
          | error e1 => rw [ht, hf] at hp; simp [wireOutcome] at hp
          | panic => rfl
      | error e => rfl
      | panic => rfl
    | error e => rfl
    | panic => rfl

theorem encodeTopics_no_registry (fl : Float64Ratio) (codec : RecordsCodec) (h : Heap)
    (version : Int) (m : List (Bytes × GoMap Int Records)) (pe : packetEncoder)
    (log : List MetricEvent) (c : Int) (out : packetEncoder × List MetricEvent × Int)
    (henc : encodeTopics fl codec h version false m pe log c = Result.ok out) :
    out.2 = (log, c) := by
  induction m generalizing pe with
  | nil =>
    simp only [encodeTopics, Result.ok.injEq] at henc
    rw [← henc]
  | cons e rest ih =>
    obtain ⟨topic, partitions⟩ := e
    simp only [encodeTopics, Result.bind_eq_ok] at henc
    obtain ⟨pe1, -, pe2, -, x, hx, hrest⟩ := henc
    have hx2 := encodePartitions_no_registry fl codec h version topic partitions pe2 log 0 x hx
    have h1 : x.2.1 = log := by rw [hx2]
    have h2 : ¬ (x.2.2 > 0) := by rw [hx2]; simp
    simp only [h2, if_false, h1] at hrest
    exact ih _ hrest

/-- C20 (amended: the metrics registry and the wire). For every request whose containers each
hold the object its version stands for (a record batch from version 3 on, a legacy message set
before): `encode` with a metrics registry and `encode` without one have the same outcome, the
same fault, the same error or nil with the same bytes written. With or without that premise,
`encode` without a registry leaves the log of histogram and meter operations as it was. -/
theorem encode_registry_same_wire (fl : Float64Ratio) (codec : RecordsCodec) (h : Heap)
    (r : ProduceRequest) (pe : packetEncoder) (log : List MetricEvent)
    (hcons : r.variantsMatchVersion h) :
    wireOutcome (encode fl codec h r true pe log)
      = wireOutcome (encode fl codec h r false pe log) ∧
    (∀ out, encode fl codec h r false pe log = Result.ok out → out.2 = log) := by
  constructor
  · simp only [encode]
    cases h1 : (if r.Version ≥ 3 then pe.putNullableString r.TransactionalID
        else Result.ok pe) with
    | ok pe1 =>
      simp only [Result.bind_ok]
      cases h3 : ((pe1.putInt16 r.RequiredAcks).putInt32 r.Timeout).putArrayLength
          (r.records.getD []).length with
      | ok pe3 =>
        simp only [Result.bind_ok]
        have hp := encodeTopics_registry fl codec h r.Version (r.records.getD []) hcons pe3
          log log 0 0
        cases ht : encodeTopics fl codec h r.Version true (r.records.getD []) pe3 log 0 with
        | ok x =>
          cases hf : encodeTopics fl codec h r.Version false (r.records.getD []) pe3 log 0 with
          | ok y =>
            rw [ht, hf] at hp
            simp only [wireOutcome, Result.ok.injEq] at hp
            simp only [Result.bind_ok]
            by_cases hx : x.2.2 > 0 <;> by_cases hy : y.2.2 > 0 <;>
              simp only [hx, hy, if_true, if_false, wireOutcome, hp]
          | error e => rw [ht, hf] at hp; simp [wireOutcome] at hp
          | panic => rw [ht, hf] at hp; simp [wireOutcome] at hp
        | error e =>
          cases hf : encodeTopics fl codec h r.Version false (r.records.getD []) pe3 log 0 with
          | ok y => rw [ht, hf] at hp; simp [wireOutcome] at hp
          | error e1 =>
            rw [ht, hf] at hp
            simp only [wireOutcome, Result.error.injEq] at hp
            simp only [Result.bind_error, hp]
          | panic => rw [ht, hf] at hp; simp [wireOutcome] at hp
        | panic =>
          cases hf : encodeTopics fl codec h r.Version false (r.records.getD []) pe3 log 0 with
          | ok y => rw [ht, hf] at hp; simp [wireOutcome] at hp
          | error e1 => rw [ht, hf] at hp; simp [wireOutcome] at hp
          | panic => rfl
      | error e => rfl
      | panic => rfl
    | error e => rfl
    | panic => rfl
  · intro out henc
    simp only [encode, Result.bind_eq_ok] at henc
    obtain ⟨pe1, -, pe3, -, x, hx, hout⟩ := henc
    have hx2 := encodeTopics_no_registry fl codec h r.Version (r.records.getD []) pe3 log 0 x hx
    have h1 : x.2.1 = log := by rw [hx2]
    have h2 : ¬ (x.2.2 > 0) := by rw [hx2]; simp
    simp only [h2, if_false, Result.ok.injEq] at hout
    rw [← hout]; exact h1

/-- C20 (witness). The version 0 request of `twoTopicState`, with legacy sets, has the same
outcome with and without a registry. -/
theorem encode_registry_same_wire_witness :
    twoTopicState.2.variantsMatchVersion twoTopicState.1 ∧
    wireOutcome (encode exampleRatio exampleCodec twoTopicState.1 twoTopicState.2 true
        ⟨[], []⟩ [])
      = wireOutcome (encode exampleRatio exampleCodec twoTopicState.1 twoTopicState.2 false
        ⟨[], []⟩ []) ∧
    (encode exampleRatio exampleCodec twoTopicState.1 twoTopicState.2 false
      ⟨[], []⟩ []).isOk = true ∧
    (∀ out, encode exampleRatio exampleCodec twoTopicState.1 twoTopicState.2 false ⟨[], []⟩ []
      = Result.ok out → out.2 = []) :=
  ⟨by decide,
   (encode_registry_same_wire exampleRatio exampleCodec twoTopicState.1 twoTopicState.2
    ⟨[], []⟩ [] (by decide)).1,
   by decide,
   (encode_registry_same_wire exampleRatio exampleCodec twoTopicState.1 twoTopicState.2
    ⟨[], []⟩ [] (by decide)).2⟩

/-- C20 (counterexample). The request of version 3 built by four `AddMessage` calls holds
legacy sets. `encode` without a registry returns nil; `encode` with a registry faults: at
version 3 the metrics path reads `records.RecordBatch`, which is nil in a legacy container. -/
theorem encode_registry_counterexample :
    attachAll exampleOps (Heap.empty, exampleRequest) = Result.ok exampleState ∧
    (encode exampleRatio exampleCodec exampleState.1 exampleState.2 false ⟨[], []⟩ []).isOk
      = true ∧
    encode exampleRatio exampleCodec exampleState.1 exampleState.2 true ⟨[], []⟩ []
      = Result.panic := by
  refine ⟨by decide, by decide, by decide⟩

/-! ## Round trip -/

/-- With every container holding the object its version stands for, `encode` with a registry
has the outcome of `encode` without one. -/
theorem encode_wireOutcome_registry (fl : Float64Ratio) (codec : RecordsCodec) (h : Heap)
    (r : ProduceRequest) (pe : packetEncoder) (log : List MetricEvent)
    (hcons : r.variantsMatchVersion h) :
    wireOutcome (encode fl codec h r true pe log)
      = wireOutcome (encode fl codec h r false pe log) := by
  simp only [encode]
  cases h1 : (if r.Version ≥ 3 then pe.putNullableString r.TransactionalID
      else Result.ok pe) with
  | ok pe1 =>
    simp only [Result.bind_ok]
    cases h3 : ((pe1.putInt16 r.RequiredAcks).putInt32 r.Timeout).putArrayLength
        (r.records.getD []).length with
    | ok pe3 =>
      simp only [Result.bind_ok]
      have hp := encodeTopics_registry fl codec h r.Version (r.records.getD []) hcons pe3
        log log 0 0
      cases ht : encodeTopics fl codec h r.Version true (r.records.getD []) pe3 log 0 with
      | ok x =>
        cases hf : encodeTopics fl codec h r.Version false (r.records.getD []) pe3 log 0 with
        | ok y =>
          rw [ht, hf] at hp
          simp only [wireOutcome, Result.ok.injEq] at hp
          simp only [Result.bind_ok]
          by_cases hx : x.2.2 > 0 <;> by_cases hy : y.2.2 > 0 <;>
            simp only [hx, hy, if_true, if_false, wireOutcome, hp]
        | error e => rw [ht, hf] at hp; simp [wireOutcome] at hp
        | panic => rw [ht, hf] at hp; simp [wireOutcome] at hp
      | error e =>
        cases hf : encodeTopics fl codec h r.Version false (r.records.getD []) pe3 log 0 with
        | ok y => rw [ht, hf] at hp; simp [wireOutcome] at hp
        | error e1 =>
          rw [ht, hf] at hp
          simp only [wireOutcome, Result.error.injEq] at hp
          simp only [Result.bind_error, hp]
        | panic => rw [ht, hf] at hp; simp [wireOutcome] at hp
      | panic =>
        cases hf : encodeTopics fl codec h r.Version false (r.records.getD []) pe3 log 0 with
        | ok y => rw [ht, hf] at hp; simp [wireOutcome] at hp
        | error e1 => rw [ht, hf] at hp; simp [wireOutcome] at hp
        | panic => rfl
    | error e => rfl
    | panic => rfl
  | error e => rfl
  | panic => rfl

/-- C1 (amended: round trip). For a request populated through AddMessage / AddSet / AddBatch, of
any version (0, 1, 2, 3 and 7 included), whose values are in the range of their Go types, whose
lengths fit the wire fields and on whose containers the container codec round-trips: encode
without a metrics registry succeeds and appends some bytes to the cursor; encode with a
registry succeeds and appends those same bytes when every container holds the object its
version stands for (a record batch from version 3 on, a legacy message set before); every
encode that returns nil appends those same bytes; and decode of those bytes with the same
version into a fresh request succeeds, consumes exactly those bytes and yields the same records
mapping up to object addresses (same topics, same partition indices, equal container
contents), RequiredAcks, Timeout and Version, and for version 3 and above the same
TransactionalID. -/
theorem encode_decode_round_trip (fl : Float64Ratio) (codec : RecordsCodec)
    (ops : List AttachOp) (h0 : Heap) (r0 : ProduceRequest) (hr0 : r0.records = none)
    (s : State) (hs : attachAll ops (h0, r0) = Result.ok s)
    (htyped : s.2.wellTyped) (hfit : s.2.fitsWire)
    (hcodec : ∀ e ∈ s.2.records.getD [], ∀ p ∈ e.2, codec.roundTripsOn s.1 p.2 = true)
    (pe : packetEncoder) (log : List MetricEvent) (h1 : Heap) (rest : Bytes) :
    ∃ (bytes : Bytes) (s1 : State),
      encode fl codec s.1 s.2 false pe log = Result.ok (pe.write bytes, log) ∧
      (s.2.variantsMatchVersion s.1 →
        ∃ log1, encode fl codec s.1 s.2 true pe log = Result.ok (pe.write bytes, log1)) ∧
      (∀ reg out, encode fl codec s.1 s.2 reg pe log = Result.ok out → out.1 = pe.write bytes) ∧
      decode codec (bytes ++ rest) s.2.Version (h1, ProduceRequest.zero)
        = Result.ok (s1, rest) ∧
      s1.view = s.view ∧ s1.2.RequiredAcks = s.2.RequiredAcks ∧
      s1.2.Timeout = s.2.Timeout ∧ s1.2.Version = s.2.Version ∧
      (s.2.Version ≥ 3 → s1.2.TransactionalID = s.2.TransactionalID) := by
  obtain ⟨hne, hkeys, -⟩ := attachAll_invariants ops (h0, r0) s hs
  have hne1 : s.2.records ≠ some [] := hne (by simp [hr0])
  have hkeys1 : s.2.distinctKeys := hkeys (by simp [ProduceRequest.distinctKeys, hr0, GoMap.keys])
  obtain ⟨s1, hd, hrest⟩ := decode_wire codec s.1 s.2 hcodec htyped hfit hkeys1 hne1 h1 rest
  have hfalse := encode_wire fl codec s.1 s.2 hcodec hfit pe log
  refine ⟨_, s1, hfalse, ?_,
    fun reg out henc => encode_ok fl codec s.1 s.2 reg pe log out henc, hd, hrest⟩
  intro hcons
  have hw := encode_wireOutcome_registry fl codec s.1 s.2 pe log hcons
  rw [hfalse] at hw
  cases ht : encode fl codec s.1 s.2 true pe log with
  | ok out =>
    rw [ht] at hw
    simp only [wireOutcome, Result.ok.injEq] at hw
    exact ⟨out.2, by rw [← hw]⟩
  | error e => rw [ht] at hw; simp [wireOutcome] at hw
  | panic => rw [ht] at hw; simp [wireOutcome] at hw

/-- C1 (witness). The version 0 request built by two `AddMessage` calls, whose containers are
legacy sets as version 0 stands for, round-trips, with and without a registry. -/
theorem encode_decode_round_trip_witness :
    attachAll [AttachOp.addMessage topicOrders 0 (msgOf 1),
        AttachOp.addMessage topicAudit 0 (msgOf 1)] (Heap.empty, ⟨none, 1, 100, 0, none⟩)
      = Result.ok twoTopicState ∧
    twoTopicState.2.variantsMatchVersion twoTopicState.1 ∧
    ∃ (bytes : Bytes) (s1 : State),
      encode exampleRatio exampleCodec twoTopicState.1 twoTopicState.2 false ⟨[], []⟩ []
        = Result.ok ((⟨[], []⟩ : packetEncoder).write bytes, []) ∧
      (twoTopicState.2.variantsMatchVersion twoTopicState.1 →
        ∃ log1, encode exampleRatio exampleCodec twoTopicState.1 twoTopicState.2 true
          ⟨[], []⟩ [] = Result.ok ((⟨[], []⟩ : packetEncoder).write bytes, log1)) ∧
      (∀ reg out, encode exampleRatio exampleCodec twoTopicState.1 twoTopicState.2 reg
        ⟨[], []⟩ [] = Result.ok out → out.1 = (⟨[], []⟩ : packetEncoder).write bytes) ∧
      decode exampleCodec (bytes ++ []) twoTopicState.2.Version
          (Heap.empty, ProduceRequest.zero) = Result.ok (s1, []) ∧
      s1.view = twoTopicState.view ∧ s1.2.RequiredAcks = twoTopicState.2.RequiredAcks ∧
      s1.2.Timeout = twoTopicState.2.Timeout ∧ s1.2.Version = twoTopicState.2.Version ∧
      (twoTopicState.2.Version ≥ 3 →
        s1.2.TransactionalID = twoTopicState.2.TransactionalID) :=
  ⟨by decide, by decide,
   encode_decode_round_trip exampleRatio exampleCodec
    [AttachOp.addMessage topicOrders 0 (msgOf 1), AttachOp.addMessage topicAudit 0 (msgOf 1)]
    Heap.empty ⟨none, 1, 100, 0, none⟩ rfl twoTopicState (by decide) (by decide) (by decide)
    (by decide) ⟨[], []⟩ [] Heap.empty []⟩

/-- C1 (counterexample). The request of version 3 built by four `AddMessage` calls has values
in range, lengths that fit and containers on which the example codec round-trips; `encode` with
a metrics registry does not return: at version 3 the metrics path reads `records.RecordBatch`,
nil in the legacy containers `AddMessage` makes, so no bytes reach `decode`. -/
theorem encode_decode_round_trip_counterexample :
    attachAll exampleOps (Heap.empty, exampleRequest) = Result.ok exampleState ∧
    exampleState.2.Version = 3 ∧ exampleState.2.wellTyped ∧ exampleState.2.fitsWire ∧
    (∀ e ∈ exampleState.2.records.getD [], ∀ p ∈ e.2,
      exampleCodec.roundTripsOn exampleState.1 p.2 = true) ∧
    encode exampleRatio exampleCodec exampleState.1 exampleState.2 true ⟨[], []⟩ []
      = Result.panic ∧
    ¬ ∃ out, encode exampleRatio exampleCodec exampleState.1 exampleState.2 true ⟨[], []⟩ []
      = Result.ok out := by
  refine ⟨by decide, by decide, by decide, by decide, by decide, by decide, ?_⟩
  rintro ⟨out, hout⟩
  have hp : encode exampleRatio exampleCodec exampleState.1 exampleState.2 true ⟨[], []⟩ []
      = Result.panic := by decide
  rw [hp] at hout
  exact absurd hout (by simp)

/-! ## The rewrite pass over a container without its object -/

/-- C5 (counterexample). After `AddSet("orders", 0, nil)` the request has one entry, under a
topic with an active rule, and no record at all, so none that matches; `changeTopic` does not
return nil: line 41 ranges over `records.MsgSet.Messages` with `MsgSet` nil. -/
theorem changeTopic_no_match_is_noop_counterexample :
    AddSet (Heap.empty, ⟨none, 1, 100, 0, none⟩) topicOrders 0 none = Result.ok nilSetState ∧
    ordersRule.CheckClientTopicIsRule topicOrders = true ∧
    (∀ e ∈ nilSetState.2.records.getD [], ordersRule.CheckClientTopicIsRule e.1 = true →
      ∀ p ∈ e.2, p.2.anyMatch (ordersRule.GetClientTopicRule e.1) nilSetState.1 = false) ∧
    heldMessages nilSetState = [] ∧
    changeTopic ordersRule nilSetState = Result.panic ∧
    changeTopic ordersRule nilSetState ≠ Result.ok nilSetState := by
  refine ⟨by decide, by decide, by decide, by decide, by decide, by decide⟩

/-! ## The rewrite pass with an existing destination, on the slices -/

theorem findMsg_lt (ct : ClientTopicRule) (l : List MessageBlock) (i0 mi : Nat)
    (msg : MessageBlock) (k : String) (h : findMsg ct l i0 = some (mi, msg, k)) :
    i0 ≤ mi ∧ mi < i0 + l.length := by
  induction l generalizing i0 with
  | nil => simp [findMsg] at h
  | cons b rest ih =>
    simp only [findMsg] at h
    by_cases hc : (ct.CheckIsReplaceTopic b.Msg.Key b.Msg.Value).1 = true
    · simp only [hc, if_true, Option.some.injEq, Prod.mk.injEq] at h
      simp only [List.length_cons]
      omega
    · simp only [hc, Bool.false_eq_true, if_false] at h
      have := ih (i0 + 1) h
      simp only [List.length_cons]
      omega

theorem Heap.views_set_set (l : List MessageSet) (batches : List RecordBatch) (a b : Nat)
    (x y : List MessageBlock) :
    Heap.views ⟨(l.set a ⟨x⟩).set b ⟨y⟩, batches⟩
      = ((Heap.views ⟨l, batches⟩).set a (x.map some)).set b (y.map some) := by
  simp only [Heap.views, List.map_set]

/-- C16 (amended: append to an existing destination whose set has its own backing array).
`sh` holds the slices behind the message sets of the state: every set of the heap is what is
seen through its header, the headers lie inside their arrays, and the source's set and the
destination's set, two objects, each share their backing array with no other set. The scan
reaches the entry `T`/`P` first (the topics before `T` in iteration order have no active rule
or no matching record, and so the partitions of `T` before `P`), `T`/`P` holds a legacy set
whose first matching message is `msg`, and the destination topic `D`, other than `T`, already
has an entry for `P` holding a message set with messages `dset`. Then `changeTopic` returns
nil, lines 47 and 63 on the slices leave exactly the sequences of the resulting heap, and
afterwards `D`/`P` holds exactly `dset` followed by `msg`; the partition map of `D` has the
same entries as before, and no message set other than the source's and the destination's,
and no batch, is changed. -/
theorem changeTopic_appends_to_existing_destination (rule : TopicRule) (s : State)
    (pre post : GoMap Bytes (GoMap Int Records)) (T D : Bytes)
    (vpre vpost : GoMap Int Records) (P : Int) (c cd : Records) (a b : Nat)
    (set dset : MessageSet) (mi : Nat) (msg : MessageBlock) (k : String)
    (sh : SliceHeap) (grow : Nat)
    (hrec : s.2.records = some (pre ++ (T, vpre ++ (P, c) :: vpost) :: post))
    (hkeys : s.2.distinctKeys)
    (hpre : ∀ e ∈ pre, rule.CheckClientTopicIsRule e.1 = true →
      ∀ p ∈ e.2, p.2.inspectable s.1 = true ∧
        p.2.anyMatch (rule.GetClientTopicRule e.1) s.1 = false)
    (hactive : rule.CheckClientTopicIsRule T = true)
    (hvpre : ∀ p ∈ vpre, p.2.inspectable s.1 = true ∧
      p.2.anyMatch (rule.GetClientTopicRule T) s.1 = false)
    (htype : c.recordsType = RecordsType.legacyRecords) (hset : c.MsgSet = some a)
    (ha : s.1.msgSets[a]? = some set)
    (hfind : findMsg (rule.GetClientTopicRule T) set.Messages 0 = some (mi, msg, k))
    (hD : (rule.GetClientTopicRule T).BrokerTopic k = D) (hDT : D ≠ T)
    (hdst : s.2.at? D P = some cd) (hdset : cd.MsgSet = some b)
    (hb : s.1.msgSets[b]? = some dset) (hab : a ≠ b)
    (hviews : sh.views = s.1.views) (hwf : sh.wellFormed)
    (howna : sh.ownsArray a) (hownb : sh.ownsArray b) :
    ∃ (s1 : State) (sh1 : SliceHeap), changeTopic rule s = Result.ok s1 ∧
      sh.relocate grow a mi b msg = some sh1 ∧ sh1.views = s1.1.views ∧
      s1.2.at? D P = some cd ∧
      s1.1.msgSet cd.MsgSet = Result.ok ⟨dset.Messages ++ [msg]⟩ ∧
      sh1.views[b]? = some ((dset.Messages ++ [msg]).map some) ∧
      s1.2.partitionsOf D = s.2.partitionsOf D ∧
      (∀ i : Nat, i ≠ a → i ≠ b → sh1.views[i]? = sh.views[i]?) ∧
      s1.1.batches = s.1.batches := by
  obtain ⟨p2, hct, hat, hparts⟩ := changeTopic_existing_destination rule s pre post T D vpre
    vpost P c cd a b set dset mi msg k hrec hkeys hpre hactive hvpre htype hset ha hfind hD hDT
    hdst hdset hb hab
  have hblt : b < s.1.msgSets.length := by
    by_contra hc
    rw [List.getElem?_eq_none (by omega)] at hb
    simp at hb
  -- the headers of the two sets
  have hva : sh.views[a]? = some (set.Messages.map some) := by
    rw [hviews]; simp [Heap.views, List.getElem?_map, ha]
  have hvb : sh.views[b]? = some (dset.Messages.map some) := by
    rw [hviews]; simp [Heap.views, List.getElem?_map, hb]
  simp only [SliceHeap.views, List.getElem?_map, Option.map_eq_some'] at hva hvb
  obtain ⟨sa, hsa, hsav⟩ := hva
  obtain ⟨sb, hsb, hsbv⟩ := hvb
  have hmi : mi < sa.len := by
    have h1 := (findMsg_lt _ _ _ _ _ _ hfind).2
    have h2 : (sh.view sa).length = set.Messages.length := by rw [hsav]; simp
    rw [SliceHeap.length_view] at h2
    omega
  obtain ⟨sh1, hrel, hv1⟩ := SliceHeap.relocate_views grow sh a mi b msg sa sb hwf hsa hsb hmi
    howna hownb hab
  have hsim : sh1.views = Heap.views ⟨(s.1.msgSets.set a
      ⟨set.Messages.take mi ++ set.Messages.drop (mi + 1)⟩).set b
        ⟨dset.Messages ++ [msg]⟩, s.1.batches⟩ := by
    rw [hv1, Heap.views_set_set, hsav, hsbv, hviews]
    simp only [List.map_append, List.map_take, List.map_drop, List.map_cons, List.map_nil]
  refine ⟨_, sh1, hct, hrel, hsim, hat, ?_, ?_, hparts, ?_, rfl⟩
  · simp only [Heap.msgSet, hdset, List.length_set, hblt, List.getElem?_set_self]
  · rw [hsim]
    simp only [Heap.views, List.getElem?_map, List.length_set, hblt, List.getElem?_set_self,
      Option.map_some']
  · intro i hia hib
    rw [hv1, List.getElem?_set_ne (fun h => hib h.symm),
      List.getElem?_set_ne (fun h => hia h.symm)]

/-- C16 (witness). On `existingDestinationState` with `ordersRule`, where each of the two sets
has its own array, the matching message of "orders"/0 is appended to the set that
"orders_v2"/0 already holds, after its message of value 5. -/
theorem changeTopic_appends_to_existing_destination_witness :
    existingDestinationSlices.views = existingDestinationState.1.views ∧
    ∃ (s1 : State) (sh1 : SliceHeap),
      changeTopic ordersRule existingDestinationState = Result.ok s1 ∧
      existingDestinationSlices.relocate 0 0 0 1 ⟨0, msgOf 1⟩ = some sh1 ∧
      sh1.views = s1.1.views ∧
      s1.2.at? topicOrdersV2 0 = some (newLegacyRecords (some 1)) ∧
      s1.1.msgSet (newLegacyRecords (some 1)).MsgSet
        = Result.ok ⟨(⟨[⟨0, msgOf 5⟩]⟩ : MessageSet).Messages ++ [⟨0, msgOf 1⟩]⟩ ∧
      sh1.views[1]?
        = some (((⟨[⟨0, msgOf 5⟩]⟩ : MessageSet).Messages
            ++ [(⟨0, msgOf 1⟩ : MessageBlock)]).map some) ∧
      s1.2.partitionsOf topicOrdersV2
        = existingDestinationState.2.partitionsOf topicOrdersV2 ∧
      (∀ i : Nat, i ≠ 0 → i ≠ 1 → sh1.views[i]? = existingDestinationSlices.views[i]?) ∧
      s1.1.batches = existingDestinationState.1.batches :=
  ⟨by decide,
   changeTopic_appends_to_existing_destination ordersRule existingDestinationState
    [] [(topicOrdersV2, [(0, newLegacyRecords (some 1))])] topicOrders topicOrdersV2
    [] [] 0 (newLegacyRecords (some 0)) (newLegacyRecords (some 1)) 0 1
    ⟨[⟨0, msgOf 1⟩, ⟨0, msgOf 2⟩]⟩ ⟨[⟨0, msgOf 5⟩]⟩ 0 ⟨0, msgOf 1⟩ "k1"
    existingDestinationSlices 0
    rfl (by decide) (by simp) (by decide) (by simp) rfl rfl rfl (by decide) (by decide)
    (by decide) (by decide) rfl rfl (by decide) (by decide) (by decide) (by decide)
    (by decide)⟩

/-- C16 (counterexample). One message set with the messages of value 1 and 2 is attached with
`AddSet` under "orders"/0 and under "orders_v2"/0. The first matches and its destination
"orders_v2"/0 holds the sequence 1, 2; after `changeTopic` that entry holds 2, 1 and not
1, 2 followed by 1: the removal from the source has removed the message from the
destination's sequence as well. The same happens to a destination that is another object
whose `Messages` is a slice over the source's backing array: lines 47 and 63 leave it the
sequence 2, 2, 1. -/
theorem changeTopic_appends_to_existing_destination_counterexample :
    (AddSet (sharedSetState.1, ⟨none, 1, 100, 0, none⟩) topicOrders 0 (some 0)).bind
        (fun s => AddSet s topicOrdersV2 0 (some 0)) = Result.ok sharedSetState ∧
    sharedSetState.2.at? topicOrdersV2 0 = some (newLegacyRecords (some 0)) ∧
    sharedSetState.1.msgSet (some 0) = Result.ok ⟨[⟨0, msgOf 1⟩, ⟨0, msgOf 2⟩]⟩ ∧
    (∃ s1 : State, changeTopic ordersRule sharedSetState = Result.ok s1 ∧
      s1.2.at? topicOrdersV2 0 = some (newLegacyRecords (some 0)) ∧
      s1.1.msgSet (some 0) = Result.ok ⟨[⟨0, msgOf 2⟩, ⟨0, msgOf 1⟩]⟩ ∧
      s1.1.msgSet (some 0)
        ≠ Result.ok ⟨[⟨0, msgOf 1⟩, ⟨0, msgOf 2⟩] ++ [⟨0, msgOf 1⟩]⟩) ∧
    sharedArraySlices.views
      = [[some ⟨0, msgOf 1⟩, some ⟨0, msgOf 2⟩], [some ⟨0, msgOf 1⟩, some ⟨0, msgOf 2⟩]] ∧
    (sharedArraySlices.relocate 0 0 0 1 ⟨0, msgOf 1⟩).map (fun h => h.views)
      = some [[some ⟨0, msgOf 2⟩],
          [some ⟨0, msgOf 2⟩, some ⟨0, msgOf 2⟩, some ⟨0, msgOf 1⟩]] := by
  refine ⟨by decide, by decide, by decide, ?_, by decide, by decide⟩
  exact ⟨(⟨[⟨[⟨0, msgOf 2⟩, ⟨0, msgOf 1⟩]⟩], []⟩, sharedSetState.2),
    by decide, by decide, by decide, by decide⟩

end Sarama
